import Mathlib

/-!
Verification of the grid pathfinding engine (src/algorithms of the
rgb-matrix-pi repository).

The Python sources are embedded shallowly:

* a Python coordinate tuple `(x, y)` becomes `Coord := Int × Int`;
* each generator-based `find_path` becomes a step function on an explicit
  state record, driven by a fuel-indexed loop `runFrom` that collects the
  yielded events;
* `heapq` on tuples becomes an insertion-sorted list under the same
  lexicographic order (pops return the minimum entry, exactly as `heappop`);
* Python `dict` becomes an association list where assignment is a `cons`
  that shadows older bindings, and `dict.get` / `dict[·]` become lookups
  (a `KeyError` surfaces as the `Status.crashed` outcome);
* the ambient randomness of the random walk becomes two injected streams,
  one boolean stream for the `random.random() > 0.3` draws and one index
  stream for the `random.choice` draws.
-/

namespace RgbMatrix

/-- A grid coordinate, Python's `(x, y)` tuple of ints. -/
abbrev Coord : Type := Int × Int

/-- Python tuple comparison `(x1, y1) <= (x2, y2)` (lexicographic). -/
def coordLe (a b : Coord) : Bool :=
  a.1 < b.1 || (a.1 = b.1 && a.2 ≤ b.2)

/-- PathfindingAlgorithm.manhattan_distance from src/algorithms/base.py:
`abs(p1[0]-p2[0]) + abs(p1[1]-p2[1])`. -/
def manhattan (p1 p2 : Coord) : Nat :=
  (p1.1 - p2.1).natAbs + (p1.2 - p2.2).natAbs

/-- The bounds test `0 <= nx < width and 0 <= ny < height` used throughout. -/
def inBoundsB (w h : Int) (c : Coord) : Bool :=
  0 ≤ c.1 && c.1 < w && 0 ≤ c.2 && c.2 < h

/-- The direction list of PathfindingAlgorithm.get_neighbors:
`[(0, 1), (1, 0), (0, -1), (-1, 0)]`. -/
def directions : List Coord := [(0, 1), (1, 0), (0, -1), (-1, 0)]

/-- PathfindingAlgorithm.get_neighbors from src/algorithms/base.py: apply each
direction to `(x, y)` in order and keep the in-bounds results. -/
def getNeighbors (x y : Int) (w h : Int) : List Coord :=
  directions.filterMap fun d =>
    let n : Coord := (x + d.1, y + d.2)
    if inBoundsB w h n then some n else none

/-- The four-variant search event each `find_path` generator yields. -/
inductive Event where
  | exploring (c : Coord)
  | visited (c : Coord)
  | found (p : List Coord)
  | noPath
deriving DecidableEq, Repr

/-- How a run ended: the generator returned, raised, or the fuel bound of the
embedding was hit before either. -/
inductive Status where
  | terminated
  | crashed
  | fuelOut
deriving DecidableEq, Repr

/-- One iteration of a `find_path` loop: keep looping with some events
yielded, return after some final events, or raise (embedding of `KeyError` /
`IndexError`). -/
inductive StepRes (σ : Type) where
  | cont (evs : List Event) (s : σ)
  | done (evs : List Event)
  | crash (evs : List Event)

/-- Drive a step function, concatenating the yielded events. -/
def runFrom {σ : Type} (step : σ → StepRes σ) : Nat → σ → List Event × Status
  | 0, _ => ([], Status.fuelOut)
  | n + 1, s =>
    match step s with
    | StepRes.done evs => (evs, Status.terminated)
    | StepRes.crash evs => (evs, Status.crashed)
    | StepRes.cont evs s' =>
      let r := runFrom step n s'
      (evs ++ r.1, r.2)

/-- The state reached after following `cont` steps for as long as fuel lasts
(used to observe internal state such as the greedy push log). -/
def iterState {σ : Type} (step : σ → StepRes σ) : Nat → σ → σ
  | 0, s => s
  | n + 1, s =>
    match step s with
    | StepRes.cont _ s' => iterState step n s'
    | _ => s

/-- Association-list lookup, the embedding of Python `dict` access: the most
recent binding for a key wins. -/
def alookup {β : Type} : List (Coord × β) → Coord → Option β
  | [], _ => none
  | (k, v) :: t, c => if k = c then some v else alookup t c

/-- A parent map: Python's `parent` dict, mapping a coordinate to its
predecessor, or to `none` for the start sentinel (`parent[start] = None`). -/
abbrev ParentMap : Type := List (Coord × Option Coord)

/-- Ordered insertion keeping the list sorted by `le`; together with
popping the head this gives exactly the observable behaviour of
`heapq.heappush` / `heapq.heappop` on totally ordered tuples. -/
def insertSorted {α : Type} (le : α → α → Bool) (a : α) : List α → List α
  | [] => [a]
  | b :: t => if le a b then a :: b :: t else b :: insertSorted le a t

/-- Path reconstruction, the loop
`while node is not None: path.append(node); node = parent[node]` followed by
`path.reverse()`.  Yields `none` where Python would raise `KeyError` (missing
binding) and on fuel exhaustion (which a cyclic parent map would need). -/
def reconstruct : Nat → ParentMap → Coord → Option (List Coord)
  | 0, _, _ => none
  | n + 1, par, node =>
    match alookup par node with
    | none => none
    | some none => some [node]
    | some (some u) =>
      match reconstruct n par u with
      | none => none
      | some l => some (l ++ [node])

/-- Heap order for Dijkstra entries `(cost, node)`: Python tuple comparison. -/
def dijkstraLe (a b : Nat × Coord) : Bool :=
  decide (a.1 < b.1) || (decide (a.1 = b.1) && coordLe a.2 b.2)

/-- Heap order for A*/JPS entries `(f_score, g_score, node)`. -/
def astarLe (a b : Nat × Nat × Coord) : Bool :=
  decide (a.1 < b.1) ||
    (decide (a.1 = b.1) &&
      (decide (a.2.1 < b.2.1) || (decide (a.2.1 = b.2.1) && coordLe a.2.2 b.2.2)))

/-! ## Breadth-first search, src/algorithms/bfs.py -/

structure BFSState where
  queue : List Coord
  visited : List Coord
  parent : ParentMap
deriving Repr

/-- The neighbor loop of BFSAlgorithm.find_path: unvisited neighbors are
marked visited, given a parent, and appended to the queue. -/
def bfsExpand (cur : Coord) : List Coord → BFSState → BFSState
  | [], st => st
  | n :: t, st =>
    if n ∈ st.visited then bfsExpand cur t st
    else bfsExpand cur t
      ⟨st.queue ++ [n], n :: st.visited, (n, some cur) :: st.parent⟩

/-- One iteration of BFSAlgorithm.find_path's while loop. -/
def bfsStep (w h : Int) (e : Coord) (st : BFSState) : StepRes BFSState :=
  match st.queue with
  | [] => StepRes.done [Event.noPath]
  | cur :: rest =>
    if cur = e then
      match reconstruct (st.parent.length + 1) st.parent e with
      | some p => StepRes.done [Event.exploring cur, Event.found p]
      | none => StepRes.crash [Event.exploring cur]
    else
      StepRes.cont [Event.exploring cur, Event.visited cur]
        (bfsExpand cur (getNeighbors cur.1 cur.2 w h)
          ⟨rest, st.visited, st.parent⟩)

def bfsInit (s : Coord) : BFSState := ⟨[s], [s], [(s, none)]⟩

def bfsRun (fuel : Nat) (w h : Int) (s e : Coord) : List Event × Status :=
  runFrom (bfsStep w h e) fuel (bfsInit s)

/-! ## Depth-first search, src/algorithms/dfs.py -/

structure DFSState where
  stack : List Coord
  visited : List Coord
  parent : ParentMap
deriving Repr

/-- The neighbor loop of DFSAlgorithm.find_path: iterates the reversed
neighbor list, pushing unvisited neighbors; the stack top is the list head
(Python pushes and pops at the right end, the mirror image). -/
def dfsExpand (cur : Coord) : List Coord → DFSState → DFSState
  | [], st => st
  | n :: t, st =>
    if n ∈ st.visited then dfsExpand cur t st
    else dfsExpand cur t
      ⟨n :: st.stack, n :: st.visited, (n, some cur) :: st.parent⟩

def dfsStep (w h : Int) (e : Coord) (st : DFSState) : StepRes DFSState :=
  match st.stack with
  | [] => StepRes.done [Event.noPath]
  | cur :: rest =>
    if cur = e then
      match reconstruct (st.parent.length + 1) st.parent e with
      | some p => StepRes.done [Event.exploring cur, Event.found p]
      | none => StepRes.crash [Event.exploring cur]
    else
      StepRes.cont [Event.exploring cur, Event.visited cur]
        (dfsExpand cur (getNeighbors cur.1 cur.2 w h).reverse
          ⟨rest, st.visited, st.parent⟩)

def dfsInit (s : Coord) : DFSState := ⟨[s], [s], [(s, none)]⟩

def dfsRun (fuel : Nat) (w h : Int) (s e : Coord) : List Event × Status :=
  runFrom (dfsStep w h e) fuel (dfsInit s)

/-! ## Dijkstra, src/algorithms/dijkstra.py -/

structure DijkstraState where
  pq : List (Nat × Coord)
  visited : List Coord
  parent : ParentMap
  cost : List (Coord × Nat)
deriving Repr

/-- The neighbor loop of DijkstraAlgorithm.find_path: relax each unvisited
neighbor, re-pushing with parent and cost overwritten when the tentative
cost improves (or no cost is recorded yet). -/
def dijkstraRelax (cur : Coord) (curCost : Nat) :
    List Coord → DijkstraState → DijkstraState
  | [], st => st
  | n :: t, st =>
    if n ∈ st.visited then dijkstraRelax cur curCost t st
    else
      let newCost := curCost + 1
      let improves :=
        match alookup st.cost n with
        | none => true
        | some old => decide (newCost < old)
      if improves then
        dijkstraRelax cur curCost t
          ⟨insertSorted dijkstraLe (newCost, n) st.pq, st.visited,
            (n, some cur) :: st.parent, (n, newCost) :: st.cost⟩
      else dijkstraRelax cur curCost t st

/-- One iteration of DijkstraAlgorithm.find_path's while loop: pop the
minimum entry, skip it if already visited, otherwise expand. -/
def dijkstraStep (w h : Int) (e : Coord) (st : DijkstraState) :
    StepRes DijkstraState :=
  match st.pq with
  | [] => StepRes.done [Event.noPath]
  | (curCost, cur) :: rest =>
    if cur ∈ st.visited then
      StepRes.cont [] ⟨rest, st.visited, st.parent, st.cost⟩
    else
      let st' : DijkstraState := ⟨rest, cur :: st.visited, st.parent, st.cost⟩
      if cur = e then
        match reconstruct (st.parent.length + 1) st.parent e with
        | some p => StepRes.done [Event.exploring cur, Event.found p]
        | none => StepRes.crash [Event.exploring cur]
      else
        StepRes.cont [Event.exploring cur, Event.visited cur]
          (dijkstraRelax cur curCost (getNeighbors cur.1 cur.2 w h) st')

def dijkstraInit (s : Coord) : DijkstraState :=
  ⟨[(0, s)], [], [(s, none)], [(s, 0)]⟩

def dijkstraRun (fuel : Nat) (w h : Int) (s e : Coord) : List Event × Status :=
  runFrom (dijkstraStep w h e) fuel (dijkstraInit s)

/-! ## A*, src/algorithms/astar.py -/

structure AStarState where
  pq : List (Nat × Nat × Coord)
  visited : List Coord
  parent : ParentMap
  gScore : List (Coord × Nat)
deriving Repr

/-- The neighbor loop of AStarAlgorithm.find_path. -/
def astarRelax (e cur : Coord) (curG : Nat) :
    List Coord → AStarState → AStarState
  | [], st => st
  | n :: t, st =>
    if n ∈ st.visited then astarRelax e cur curG t st
    else
      let tentative := curG + 1
      let improves :=
        match alookup st.gScore n with
        | none => true
        | some old => decide (tentative < old)
      if improves then
        astarRelax e cur curG t
          ⟨insertSorted astarLe (tentative + manhattan n e, tentative, n) st.pq,
            st.visited, (n, some cur) :: st.parent, (n, tentative) :: st.gScore⟩
      else astarRelax e cur curG t st

def astarStep (w h : Int) (e : Coord) (st : AStarState) : StepRes AStarState :=
  match st.pq with
  | [] => StepRes.done [Event.noPath]
  | (_, curG, cur) :: rest =>
    if cur ∈ st.visited then
      StepRes.cont [] ⟨rest, st.visited, st.parent, st.gScore⟩
    else
      let st' : AStarState := ⟨rest, cur :: st.visited, st.parent, st.gScore⟩
      if cur = e then
        match reconstruct (st.parent.length + 1) st.parent e with
        | some p => StepRes.done [Event.exploring cur, Event.found p]
        | none => StepRes.crash [Event.exploring cur]
      else
        StepRes.cont [Event.exploring cur, Event.visited cur]
          (astarRelax e cur curG (getNeighbors cur.1 cur.2 w h) st')

def astarInit (s : Coord) : AStarState :=
  ⟨[(0, 0, s)], [], [(s, none)], [(s, 0)]⟩

def astarRun (fuel : Nat) (w h : Int) (s e : Coord) : List Event × Status :=
  runFrom (astarStep w h e) fuel (astarInit s)

/-! ## Greedy best-first, src/algorithms/greedy.py -/

structure GreedyState where
  pq : List (Nat × Coord)
  visited : List Coord
  parent : ParentMap
  pushLog : List Coord
deriving Repr

/-- The neighbor loop of GreedyBestFirstAlgorithm.find_path: every unvisited
neighbor is pushed with its heuristic and its parent overwritten — there is
no cost map and no improvement check.  The `pushLog` field is ghost
instrumentation recording each heappush (the algorithm never reads it). -/
def greedyExpand (e cur : Coord) : List Coord → GreedyState → GreedyState
  | [], st => st
  | n :: t, st =>
    if n ∈ st.visited then greedyExpand e cur t st
    else
      greedyExpand e cur t
        ⟨insertSorted dijkstraLe (manhattan n e, n) st.pq, st.visited,
          (n, some cur) :: st.parent, st.pushLog ++ [n]⟩

def greedyStep (w h : Int) (e : Coord) (st : GreedyState) : StepRes GreedyState :=
  match st.pq with
  | [] => StepRes.done [Event.noPath]
  | (_, cur) :: rest =>
    if cur ∈ st.visited then
      StepRes.cont [] ⟨rest, st.visited, st.parent, st.pushLog⟩
    else
      let st' : GreedyState := ⟨rest, cur :: st.visited, st.parent, st.pushLog⟩
      if cur = e then
        match reconstruct (st.parent.length + 1) st.parent e with
        | some p => StepRes.done [Event.exploring cur, Event.found p]
        | none => StepRes.crash [Event.exploring cur]
      else
        StepRes.cont [Event.exploring cur, Event.visited cur]
          (greedyExpand e cur (getNeighbors cur.1 cur.2 w h) st')

def greedyInit (s : Coord) : GreedyState :=
  ⟨[(0, s)], [], [(s, none)], [s]⟩

def greedyRun (fuel : Nat) (w h : Int) (s e : Coord) : List Event × Status :=
  runFrom (greedyStep w h e) fuel (greedyInit s)

/-! ## Jump point search, src/algorithms/jps.py -/

/-- JumpPointSearchAlgorithm._jump, with the 3-iteration for loop unrolled:
one initial step, then up to three more; stop early on the goal or at the
boundary, returning the last in-bounds cell (or `none` if even the first
step leaves the grid).  The `visited` parameter is accepted but never read,
exactly as in the source. -/
def jump (cur d goal : Coord) (w h : Int) (visited : List Coord) : Option Coord :=
  let n1 : Coord := (cur.1 + d.1, cur.2 + d.2)
  if inBoundsB w h n1 then
    if n1 = goal then some n1
    else
      let n2 : Coord := (n1.1 + d.1, n1.2 + d.2)
      if inBoundsB w h n2 then
        if n2 = goal then some n2
        else
          let n3 : Coord := (n2.1 + d.1, n2.2 + d.2)
          if inBoundsB w h n3 then
            if n3 = goal then some n3
            else
              let n4 : Coord := (n3.1 + d.1, n3.2 + d.2)
              if inBoundsB w h n4 then some n4 else some n3
          else some n2
      else some n1
  else none

/-- The per-segment sign, `0 if nx == x else (1 if nx > x else -1)`. -/
def sgnToward (x nx : Int) : Int :=
  if nx = x then 0 else if nx > x then 1 else -1

/-- The inner while loop of _reconstruct_full_path: step from `cur` toward
`nxt` and collect the strictly intermediate cells.  Fuelled; the Python loop
terminates only when the straight-line walk actually reaches `nxt`, which the
algorithm guarantees by producing axis-aligned segments. -/
def fillWalk (dx dy : Int) : Nat → Coord → Coord → Option (List Coord)
  | 0, c, nxt => if c = nxt then some [] else none
  | fuelLeft + 1, c, nxt =>
    if c = nxt then some []
    else
      let c' : Coord := (c.1 + dx, c.2 + dy)
      if c' = nxt then some []
      else
        match fillWalk dx dy fuelLeft c' nxt with
        | none => none
        | some l => some (c' :: l)

/-- The densification stage of JumpPointSearchAlgorithm._reconstruct_full_path:
between each consecutive pair of jump points insert every intermediate cell
of the straight-line walk, then append the final point. -/
def densify : List Coord → Option (List Coord)
  | [] => none
  | [a] => some [a]
  | a :: b :: t =>
    let dx := sgnToward a.1 b.1
    let dy := sgnToward a.2 b.2
    match fillWalk dx dy (manhattan a b) a b with
    | none => none
    | some mids =>
      match densify (b :: t) with
      | none => none
      | some rest => some (a :: (mids ++ rest))

structure JPSState where
  pq : List (Nat × Nat × Coord)
  visited : List Coord
  parent : ParentMap
  gScore : List (Coord × Nat)
deriving Repr

/-- The direction loop of JumpPointSearchAlgorithm.find_path: compute the
jump point per cardinal direction and relax it with the jump's Manhattan
cost. -/
def jpsExpand (w h : Int) (e cur : Coord) (curG : Nat) :
    List Coord → JPSState → JPSState
  | [], st => st
  | d :: t, st =>
    match jump cur d e w h st.visited with
    | none => jpsExpand w h e cur curG t st
    | some jp =>
      if jp ∈ st.visited then jpsExpand w h e cur curG t st
      else
        let tentative := curG + manhattan cur jp
        let improves :=
          match alookup st.gScore jp with
          | none => true
          | some old => decide (tentative < old)
        if improves then
          jpsExpand w h e cur curG t
            ⟨insertSorted astarLe (tentative + manhattan jp e, tentative, jp) st.pq,
              st.visited, (jp, some cur) :: st.parent, (jp, tentative) :: st.gScore⟩
        else jpsExpand w h e cur curG t st

def jpsStep (w h : Int) (e : Coord) (st : JPSState) : StepRes JPSState :=
  match st.pq with
  | [] => StepRes.done [Event.noPath]
  | (_, curG, cur) :: rest =>
    if cur ∈ st.visited then
      StepRes.cont [] ⟨rest, st.visited, st.parent, st.gScore⟩
    else
      let st' : JPSState := ⟨rest, cur :: st.visited, st.parent, st.gScore⟩
      if cur = e then
        match reconstruct (st.parent.length + 1) st.parent e with
        | none => StepRes.crash [Event.exploring cur]
        | some jumpPath =>
          match densify jumpPath with
          | none => StepRes.crash [Event.exploring cur]
          | some p => StepRes.done [Event.exploring cur, Event.found p]
      else
        StepRes.cont [Event.exploring cur, Event.visited cur]
          (jpsExpand w h e cur curG directions st')

def jpsInit (s : Coord) : JPSState :=
  ⟨[(0, 0, s)], [], [(s, none)], [(s, 0)]⟩

def jpsRun (fuel : Nat) (w h : Int) (s e : Coord) : List Event × Status :=
  runFrom (jpsStep w h e) fuel (jpsInit s)

/-! ## Bidirectional search, src/algorithms/bidirectional.py -/

structure BidirState where
  qf : List Coord
  qb : List Coord
  vf : List Coord
  vb : List Coord
  pf : ParentMap
  pb : ParentMap
  turn : Bool
deriving Repr

/-- The walk of _reconstruct_bidirectional_path: collect `node` and follow
`parent.get(node)` until it yields `None` (a missing key also stops the
walk — `.get` does not raise). -/
def walkGet : Nat → ParentMap → Coord → List Coord
  | 0, _, _ => []
  | fuelLeft + 1, par, node =>
    node ::
      (match alookup par node with
       | some (some u) => walkGet fuelLeft par u
       | _ => [])

/-- JumpPointSearchAlgorithm aside, the only non-trivial reconstruction:
forward walk from the meeting point back to start (reversed), then the
backward walk from the meeting point's backward predecessor on to end. -/
def bidirPath (pf pb : ParentMap) (meeting : Coord) : List Coord :=
  let pathForward := (walkGet (pf.length + 1) pf meeting).reverse
  let pathBackward :=
    match alookup pb meeting with
    | some (some u) => walkGet (pb.length + 1) pb u
    | _ => []
  pathForward ++ pathBackward

/-- Expansion of one front (shared by forward and backward steps). -/
def bidirExpand (cur : Coord) :
    List Coord → List Coord → List Coord → ParentMap →
      List Coord × List Coord × ParentMap
  | [], q, v, p => (q, v, p)
  | n :: t, q, v, p =>
    if n ∈ v then bidirExpand cur t q v p
    else bidirExpand cur t (q ++ [n]) (n :: v) ((n, some cur) :: p)

/-- Half an iteration of BidirectionalAlgorithm.find_path's while loop: the
loop condition is checked before the forward half, and the backward half is
guarded by its own `if queue_backward:`. -/
def bidirStep (w h : Int) (st : BidirState) : StepRes BidirState :=
  if st.turn then
    match st.qf, st.qb with
    | cur :: rest, _ :: _ =>
      if cur ∈ st.vb then
        StepRes.done [Event.exploring cur, Event.found (bidirPath st.pf st.pb cur)]
      else
        let r := bidirExpand cur (getNeighbors cur.1 cur.2 w h) rest st.vf st.pf
        StepRes.cont [Event.exploring cur, Event.visited cur]
          ⟨r.1, st.qb, r.2.1, st.vb, r.2.2, st.pb, false⟩
    | _, _ => StepRes.done [Event.noPath]
  else
    match st.qb with
    | [] => StepRes.cont [] ⟨st.qf, st.qb, st.vf, st.vb, st.pf, st.pb, true⟩
    | cur :: rest =>
      if cur ∈ st.vf then
        StepRes.done [Event.exploring cur, Event.found (bidirPath st.pf st.pb cur)]
      else
        let r := bidirExpand cur (getNeighbors cur.1 cur.2 w h) rest st.vb st.pb
        StepRes.cont [Event.exploring cur, Event.visited cur]
          ⟨st.qf, r.1, st.vf, r.2.1, st.pf, r.2.2, true⟩

def bidirInit (s e : Coord) : BidirState :=
  ⟨[s], [e], [s], [e], [(s, none)], [(e, none)], true⟩

def bidirRun (fuel : Nat) (w h : Int) (s e : Coord) : List Event × Status :=
  if s = e then ([Event.found [s]], Status.terminated)
  else runFrom (bidirStep w h) fuel (bidirInit s e)

/-! ## Random walk, src/algorithms/random_walk.py -/

structure RWState where
  cur : Coord
  visited : List Coord
  parent : ParentMap
  stepsLeft : Nat
  k : Nat
deriving Repr

/-- Python's `random.choice(l)`, driven by an injected index; raises
IndexError (`none`) on an empty list. -/
def pyChoice (l : List Coord) (i : Nat) : Option Coord :=
  l.get? (i % l.length)

/-- One iteration of RandomWalkAlgorithm.find_path's for loop.  `rb k` is the
outcome of the step's `random.random() > 0.3` draw and `rc k` drives the
step's `random.choice`. -/
def rwStep (w h : Int) (e : Coord) (rb : Nat → Bool) (rc : Nat → Nat)
    (st : RWState) : StepRes RWState :=
  match st.stepsLeft with
  | 0 => StepRes.done [Event.noPath]
  | sl + 1 =>
    let c := st.cur
    if c = e then
      match reconstruct (st.parent.length + 1) st.parent e with
      | some p => StepRes.done [Event.exploring c, Event.found p]
      | none => StepRes.crash [Event.exploring c]
    else
      let visited' := c :: st.visited
      let ns := getNeighbors c.1 c.2 w h
      let unvis := ns.filter fun n => decide (¬ n ∈ visited')
      let pick :=
        if unvis.length ≠ 0 ∧ rb st.k = true then pyChoice unvis (rc st.k)
        else pyChoice ns (rc st.k)
      match pick with
      | none => StepRes.crash [Event.exploring c, Event.visited c]
      | some nxt =>
        let parent' :=
          match alookup st.parent nxt with
          | some _ => st.parent
          | none => (nxt, some c) :: st.parent
        StepRes.cont [Event.exploring c, Event.visited c]
          ⟨nxt, visited', parent', sl, st.k + 1⟩

def rwInit (w h : Int) (s : Coord) : RWState :=
  ⟨s, [], [(s, none)], (w * h * 2).toNat, 0⟩

/-- The whole random walk run; the for loop bounds the iteration count by
`width * height * 2`, so that much fuel plus one drives it to its return. -/
def rwRun (w h : Int) (s e : Coord) (rb : Nat → Bool) (rc : Nat → Nat) :
    List Event × Status :=
  runFrom (rwStep w h e rb rc) ((w * h * 2).toNat + 1) (rwInit w h s)

/-! ## Predicates and auxiliary definitions used by the statements -/

/-- Modelled from the spec: §4.1's neighbor contract with enumeration order
δ = (1,0),(0,1),(-1,0),(0,-1), stated for comparison with `getNeighbors`
(whose source order is (0,1),(1,0),(0,-1),(-1,0)). -/
def specNeighbors (x y : Int) (w h : Int) : List Coord :=
  ([((1 : Int), (0 : Int)), (0, 1), (-1, 0), (0, -1)] : List Coord).filterMap fun d =>
    let n : Coord := (x + d.1, y + d.2)
    if inBoundsB w h n then some n else none

/-- The coordinate of an `Exploring` event. -/
def exploringCoord : Event → Option Coord
  | Event.exploring c => some c
  | _ => none

/-- The coordinates explored by an event sequence, in order. -/
def exploredOf (evs : List Event) : List Coord :=
  evs.filterMap exploringCoord

/-- Shape of a complete event sequence: `Exploring c / Visited c` pairs,
then one terminal — either `NoPath`, or `Found` (possibly preceded by the
goal's un-`Visited` `Exploring`). -/
def shapeOk : List Event → Bool
  | Event.exploring a :: Event.visited b :: rest => decide (a = b) && shapeOk rest
  | [Event.exploring _, Event.found _] => true
  | [Event.found _] => true
  | [Event.noPath] => true
  | _ => false

/-- A parent-chain certificate: `l` is the start-to-`v` list that
`reconstruct` recovers, with unit (4-adjacent) steps. -/
inductive ChainL (par : ParentMap) (s : Coord) : Coord → List Coord → Prop
  | base : alookup par s = some none → ChainL par s s [s]
  | step (u v : Coord) (l : List Coord) :
      alookup par v = some (some u) → manhattan u v = 1 →
      ChainL par s u l → ChainL par s v (l ++ [v])

/-- The jump-point variant: consecutive chain cells are axis-aligned and
distinct (a cardinal jump of any length). -/
inductive ChainJ (par : ParentMap) (s : Coord) : Coord → List Coord → Prop
  | base : alookup par s = some none → ChainJ par s s [s]
  | step (u v : Coord) (l : List Coord) :
      alookup par v = some (some u) → (u.1 = v.1 ∨ u.2 = v.2) → u ≠ v →
      ChainJ par s u l → ChainJ par s v (l ++ [v])

/-- What C9 asks of a found path: endpoints and unit steps. -/
def pathOk (s e : Coord) (p : List Coord) : Prop :=
  p.head? = some s ∧ p.getLast? = some e ∧
    List.Chain' (fun a b => manhattan a b = 1) p

/-- Every bound key of a parent map carries a start-rooted unit-step chain
whose cells are, below the key itself, already-visited cells. -/
def VisChain (par : ParentMap) (s : Coord) (visited : List Coord) : Prop :=
  ∀ v, alookup par v ≠ none →
    ∃ l, ChainL par s v l ∧ l.length ≤ par.length ∧
      ∀ x ∈ l, x = v ∨ x ∈ visited

/-- The jump-point analogue: chains whose links are axis-aligned jumps. -/
def VisChainJ (par : ParentMap) (s : Coord) (visited : List Coord) : Prop :=
  ∀ v, alookup par v ≠ none →
    ∃ l, ChainJ par s v l ∧ l.length ≤ par.length ∧
      ∀ x ∈ l, x = v ∨ x ∈ visited

/-- Reachability invariant of the BFS loop used for path soundness. -/
structure BFSPathInv (s : Coord) (st : BFSState) : Prop where
  sroot : alookup st.parent s = some none
  svis : s ∈ st.visited
  queueVis : ∀ c ∈ st.queue, c ∈ st.visited
  visDom : ∀ c ∈ st.visited, alookup st.parent c ≠ none
  chains : VisChain st.parent s st.visited

/-- Reachability invariant of the DFS loop. -/
structure DFSPathInv (s : Coord) (st : DFSState) : Prop where
  sroot : alookup st.parent s = some none
  svis : s ∈ st.visited
  stackVis : ∀ c ∈ st.stack, c ∈ st.visited
  visDom : ∀ c ∈ st.visited, alookup st.parent c ≠ none
  chains : VisChain st.parent s st.visited

/-- Reachability invariant of the Dijkstra loop. -/
structure DijkstraPathInv (s : Coord) (st : DijkstraState) : Prop where
  sroot : alookup st.parent s = some none
  scost : alookup st.cost s = some 0
  pqDom : ∀ kc ∈ st.pq, alookup st.parent kc.2 ≠ none
  chains : VisChain st.parent s st.visited

/-- Reachability invariant of the A* loop. -/
structure AStarPathInv (s : Coord) (st : AStarState) : Prop where
  sroot : alookup st.parent s = some none
  sg : alookup st.gScore s = some 0
  pqDom : ∀ kc ∈ st.pq, alookup st.parent kc.2.2 ≠ none
  chains : VisChain st.parent s st.visited

/-- Reachability invariant of the greedy loop (established after the first
expansion; the start state is handled separately). -/
structure GreedyPathInv (s : Coord) (st : GreedyState) : Prop where
  sroot : alookup st.parent s = some none
  svis : s ∈ st.visited
  pqDom : ∀ kc ∈ st.pq, alookup st.parent kc.2 ≠ none
  chains : VisChain st.parent s st.visited

/-- The greedy invariant including the pristine start state. -/
def GreedyPathInvO (s : Coord) (st : GreedyState) : Prop :=
  (st.pq = [(0, s)] ∧ st.visited = [] ∧ st.parent = [(s, none)]) ∨
    GreedyPathInv s st

/-- Reachability invariant of the jump-point-search loop. -/
structure JPSPathInv (s : Coord) (st : JPSState) : Prop where
  sroot : alookup st.parent s = some none
  sg : alookup st.gScore s = some 0
  pqDom : ∀ kc ∈ st.pq, alookup st.parent kc.2.2 ≠ none
  chains : VisChainJ st.parent s st.visited

/-- Reachability invariant of the bidirectional loop: a start-rooted forward
side and an end-rooted backward side. -/
structure BidirPathInv (s e : Coord) (st : BidirState) : Prop where
  fsroot : alookup st.pf s = some none
  bsroot : alookup st.pb e = some none
  fsvis : s ∈ st.vf
  bsvis : e ∈ st.vb
  qfVis : ∀ c ∈ st.qf, c ∈ st.vf
  qbVis : ∀ c ∈ st.qb, c ∈ st.vb
  fvisDom : ∀ c ∈ st.vf, alookup st.pf c ≠ none
  bvisDom : ∀ c ∈ st.vb, alookup st.pb c ≠ none
  fchains : VisChain st.pf s st.vf
  bchains : VisChain st.pb e st.vb

/-- Reachability invariant of the random-walk loop. -/
structure RWPathInv (s : Coord) (st : RWState) : Prop where
  curDom : alookup st.parent st.cur ≠ none
  visDom : ∀ c ∈ st.visited, alookup st.parent c ≠ none
  chains : VisChain st.parent s st.visited

/-! ## Definitions for the shortest-path analysis (C8) -/

/-- The finset of in-bounds cells of a `width × height` grid. -/
def gridBox (w h : Int) : Finset Coord :=
  Finset.Icc 0 (w - 1) ×ˢ Finset.Icc 0 (h - 1)

/-- Full BFS invariant for the shortest-path theorem: exact-length parent
chains, closure of expanded cells, and the two-level queue decomposition of
breadth-first traversal. -/
structure BFS8Inv (w h : Int) (s e : Coord) (st : BFSState) : Prop where
  root : alookup st.parent s = some none
  svis : s ∈ st.visited
  visIn : ∀ v ∈ st.visited, inBoundsB w h v = true
  visNodup : st.visited.Nodup
  visKeys : ∀ v ∈ st.visited, alookup st.parent v ≠ none
  keysVis : ∀ v, alookup st.parent v ≠ none → v ∈ st.visited
  qVis : ∀ v ∈ st.queue, v ∈ st.visited
  eInQ : e ∈ st.visited → e ∈ st.queue
  closure : ∀ u ∈ st.visited, u ∈ st.queue ∨
    ∀ n, manhattan u n = 1 → inBoundsB w h n = true → n ∈ st.visited
  chainsEx : ∀ v ∈ st.visited, ∃ l, ChainL st.parent s v l ∧
    l.length = manhattan s v + 1 ∧ l.length ≤ st.parent.length ∧
    ∀ x ∈ l, x ∈ st.visited
  levels : ∃ d A B, st.queue = A ++ B ∧
    (∀ a ∈ A, manhattan s a = d) ∧ (∀ b ∈ B, manhattan s b = d + 1) ∧
    (A = [] → B = []) ∧
    ∀ v, inBoundsB w h v = true → manhattan s v ≤ d → v ∈ st.visited

/-- The part of `BFS8Inv` maintained through the neighbor loop `bfsExpand`
(the queue-shape facts are re-established after the loop). -/
structure BFS8Mid (w h : Int) (s : Coord) (d : Nat) (st : BFSState) : Prop where
  root : alookup st.parent s = some none
  svis : s ∈ st.visited
  visIn : ∀ v ∈ st.visited, inBoundsB w h v = true
  visNodup : st.visited.Nodup
  visKeys : ∀ v ∈ st.visited, alookup st.parent v ≠ none
  keysVis : ∀ v, alookup st.parent v ≠ none → v ∈ st.visited
  chainsEx : ∀ v ∈ st.visited, ∃ l, ChainL st.parent s v l ∧
    l.length = manhattan s v + 1 ∧ l.length ≤ st.parent.length ∧
    ∀ x ∈ l, x ∈ st.visited
  complete : ∀ v, inBoundsB w h v = true → manhattan s v ≤ d → v ∈ st.visited

/-- Full Dijkstra invariant for the shortest-path theorem: settled cells
carry their exact Manhattan distance, the cost map is witnessed by
exact-length chains, every heap entry dominates the recorded cost of its
cell, the best entry of each unsettled cell is still enqueued, the heap is
sorted by cost, and settled cells have relaxed all their neighbors. -/
structure Dij8Inv (w h : Int) (s e : Coord) (st : DijkstraState) : Prop where
  rootPar : alookup st.parent s = some none
  rootCost : alookup st.cost s = some 0
  eNotVis : e ∉ st.visited
  visIn : ∀ v ∈ st.visited, inBoundsB w h v = true
  settled : ∀ v ∈ st.visited, alookup st.cost v = some (manhattan s v)
  chainsCost : ∀ v c, alookup st.cost v = some c →
    ∃ l, ChainL st.parent s v l ∧ l.length = c + 1 ∧
      l.length ≤ st.parent.length ∧ ∀ x ∈ l, x = v ∨ x ∈ st.visited
  entries : ∀ q ∈ st.pq, inBoundsB w h q.2 = true ∧
    ∃ c, alookup st.cost q.2 = some c ∧ c ≤ q.1
  bestEntry : ∀ v c, alookup st.cost v = some c → v ∉ st.visited →
    (c, v) ∈ st.pq
  sorted : st.pq.Pairwise fun a b => a.1 ≤ b.1
  closure : ∀ u ∈ st.visited, ∀ n, manhattan u n = 1 →
    inBoundsB w h n = true → n ∈ st.visited ∨
      ∃ c, alookup st.cost n = some c ∧ c ≤ manhattan s u + 1

/-- The part of `Dij8Inv` maintained through `dijkstraRelax` while the
neighbors of `cur` are being relaxed (closure is not yet claimed for
`cur`; the visited set is frozen during the loop). -/
structure Dij8Mid (w h : Int) (s cur : Coord) (st : DijkstraState) : Prop where
  rootPar : alookup st.parent s = some none
  rootCost : alookup st.cost s = some 0
  curVis : cur ∈ st.visited
  visIn : ∀ v ∈ st.visited, inBoundsB w h v = true
  settled : ∀ v ∈ st.visited, alookup st.cost v = some (manhattan s v)
  chainsCost : ∀ v c, alookup st.cost v = some c →
    ∃ l, ChainL st.parent s v l ∧ l.length = c + 1 ∧
      l.length ≤ st.parent.length ∧ ∀ x ∈ l, x = v ∨ x ∈ st.visited
  entries : ∀ q ∈ st.pq, inBoundsB w h q.2 = true ∧
    ∃ c, alookup st.cost q.2 = some c ∧ c ≤ q.1
  bestEntry : ∀ v c, alookup st.cost v = some c → v ∉ st.visited →
    (c, v) ∈ st.pq
  sorted : st.pq.Pairwise fun a b => a.1 ≤ b.1
  closureExc : ∀ u ∈ st.visited, u ≠ cur → ∀ n, manhattan u n = 1 →
    inBoundsB w h n = true → n ∈ st.visited ∨
      ∃ c, alookup st.cost n = some c ∧ c ≤ manhattan s u + 1

/-- Full A* invariant for the shortest-path theorem, mirroring `Dij8Inv`
with g-scores and `f = g + manhattan · e` heap keys. -/
structure AStar8Inv (w h : Int) (s e : Coord) (st : AStarState) : Prop where
  rootPar : alookup st.parent s = some none
  rootG : alookup st.gScore s = some 0
  eNotVis : e ∉ st.visited
  visIn : ∀ v ∈ st.visited, inBoundsB w h v = true
  settled : ∀ v ∈ st.visited, alookup st.gScore v = some (manhattan s v)
  chainsG : ∀ v g, alookup st.gScore v = some g →
    ∃ l, ChainL st.parent s v l ∧ l.length = g + 1 ∧
      l.length ≤ st.parent.length ∧ ∀ x ∈ l, x = v ∨ x ∈ st.visited
  entries : ∀ q ∈ st.pq, inBoundsB w h q.2.2 = true ∧
    q.1 ≤ q.2.1 + manhattan q.2.2 e ∧
    (q.2.1 + manhattan q.2.2 e ≤ q.1 ∨ q.2.1 = 0) ∧
    ∃ g, alookup st.gScore q.2.2 = some g ∧ g ≤ q.2.1
  bestEntry : ∀ v g, alookup st.gScore v = some g → v ∉ st.visited →
    ∃ f, (f, g, v) ∈ st.pq
  sorted : st.pq.Pairwise fun a b => a.1 ≤ b.1
  closure : ∀ u ∈ st.visited, ∀ n, manhattan u n = 1 →
    inBoundsB w h n = true → n ∈ st.visited ∨
      ∃ g, alookup st.gScore n = some g ∧ g ≤ manhattan s u + 1

/-- The part of `AStar8Inv` maintained through `astarRelax`. -/
structure AStar8Mid (w h : Int) (s e cur : Coord) (st : AStarState) : Prop where
  rootPar : alookup st.parent s = some none
  rootG : alookup st.gScore s = some 0
  curVis : cur ∈ st.visited
  visIn : ∀ v ∈ st.visited, inBoundsB w h v = true
  settled : ∀ v ∈ st.visited, alookup st.gScore v = some (manhattan s v)
  chainsG : ∀ v g, alookup st.gScore v = some g →
    ∃ l, ChainL st.parent s v l ∧ l.length = g + 1 ∧
      l.length ≤ st.parent.length ∧ ∀ x ∈ l, x = v ∨ x ∈ st.visited
  entries : ∀ q ∈ st.pq, inBoundsB w h q.2.2 = true ∧
    q.1 ≤ q.2.1 + manhattan q.2.2 e ∧
    (q.2.1 + manhattan q.2.2 e ≤ q.1 ∨ q.2.1 = 0) ∧
    ∃ g, alookup st.gScore q.2.2 = some g ∧ g ≤ q.2.1
  bestEntry : ∀ v g, alookup st.gScore v = some g → v ∉ st.visited →
    ∃ f, (f, g, v) ∈ st.pq
  sorted : st.pq.Pairwise fun a b => a.1 ≤ b.1
  closureExc : ∀ u ∈ st.visited, u ≠ cur → ∀ n, manhattan u n = 1 →
    inBoundsB w h n = true → n ∈ st.visited ∨
      ∃ g, alookup st.gScore n = some g ∧ g ≤ manhattan s u + 1

/-! # Theorems -/

/-! ## Basic facts about the grid primitives -/

theorem manhattan_self (a : Coord) : manhattan a a = 0 := by
  simp [manhattan]

theorem manhattan_comm (a b : Coord) : manhattan a b = manhattan b a := by
  simp only [manhattan]
  omega

theorem manhattan_triangle (a b c : Coord) :
    manhattan a c ≤ manhattan a b + manhattan b c := by
  simp only [manhattan]
  omega

theorem manhattan_eq_one_cases {c v : Coord} (h : manhattan c v = 1) :
    v = (c.1 + 1, c.2) ∨ v = (c.1 - 1, c.2) ∨
      v = (c.1, c.2 + 1) ∨ v = (c.1, c.2 - 1) := by
  obtain ⟨cx, cy⟩ := c
  obtain ⟨vx, vy⟩ := v
  simp only [manhattan, Prod.mk.injEq] at h ⊢
  omega

theorem adjacent_levels {s u v : Coord} (h : manhattan u v = 1) :
    manhattan s v = manhattan s u + 1 ∨ manhattan s u = manhattan s v + 1 := by
  simp only [manhattan] at h ⊢
  omega

theorem inBoundsB_iff {w h : Int} {c : Coord} :
    inBoundsB w h c = true ↔ 0 ≤ c.1 ∧ c.1 < w ∧ 0 ≤ c.2 ∧ c.2 < h := by
  simp [inBoundsB, and_assoc]

theorem mem_getNeighbors {x y w h : Int} {n : Coord}
    (hn : n ∈ getNeighbors x y w h) :
    manhattan (x, y) n = 1 ∧ inBoundsB w h n = true := by
  simp only [getNeighbors, List.mem_filterMap] at hn
  obtain ⟨d, hd, hfn⟩ := hn
  simp only [directions, List.mem_cons, List.not_mem_nil, or_false] at hd
  have hsplit : inBoundsB w h (x + d.1, y + d.2) = true ∧ (x + d.1, y + d.2) = n := by
    by_cases hb : inBoundsB w h (x + d.1, y + d.2) = true
    · rw [if_pos hb] at hfn
      exact ⟨hb, Option.some.inj hfn⟩
    · rw [if_neg hb] at hfn
      exact absurd hfn (Option.some_ne_none _).symm
  obtain ⟨hb, rfl⟩ := hsplit
  refine ⟨?_, hb⟩
  rcases hd with rfl | rfl | rfl | rfl <;> simp [manhattan]

theorem getNeighbors_complete {x y w h : Int} {n : Coord}
    (h1 : manhattan (x, y) n = 1) (hb : inBoundsB w h n = true) :
    n ∈ getNeighbors x y w h := by
  simp only [getNeighbors, List.mem_filterMap]
  rcases manhattan_eq_one_cases h1 with rfl | rfl | rfl | rfl
  · refine ⟨(1, 0), by simp [directions], ?_⟩
    have he : ((x + (1 : Int), y + (0 : Int)) : Coord) = (x + 1, y) := by refine Prod.ext ?_ ?_ <;> simp <;> try ring
    rw [he, if_pos hb]
  · refine ⟨(-1, 0), by simp [directions], ?_⟩
    have he : ((x + (-1 : Int), y + (0 : Int)) : Coord) = (x - 1, y) := by refine Prod.ext ?_ ?_ <;> simp <;> try ring
    rw [he, if_pos hb]
  · refine ⟨(0, 1), by simp [directions], ?_⟩
    have he : ((x + (0 : Int), y + (1 : Int)) : Coord) = (x, y + 1) := by refine Prod.ext ?_ ?_ <;> simp <;> try ring
    rw [he, if_pos hb]
  · refine ⟨(0, -1), by simp [directions], ?_⟩
    have he : ((x + (0 : Int), y + (-1 : Int)) : Coord) = (x, y - 1) := by refine Prod.ext ?_ ?_ <;> simp <;> try ring
    rw [he, if_pos hb]

/-! ## Parent-chain certificates and reconstruction -/

theorem chainL_ne_nil {par : ParentMap} {s v : Coord} {l : List Coord}
    (h : ChainL par s v l) : l ≠ [] := by
  cases h with
  | base _ => simp
  | step u v l _ _ _ => simp

theorem chainL_head {par : ParentMap} {s v : Coord} {l : List Coord}
    (h : ChainL par s v l) : l.head? = some s := by
  induction h with
  | base _ => rfl
  | step u v l _ _ hc ih =>
    cases l with
    | nil => exact absurd rfl (chainL_ne_nil hc)
    | cons a t => simpa using ih

theorem chainL_last {par : ParentMap} {s v : Coord} {l : List Coord}
    (h : ChainL par s v l) : l.getLast? = some v := by
  cases h with
  | base _ => rfl
  | step u v l _ _ _ => simp [List.getLast?_concat]

theorem chainL_adj {par : ParentMap} {s v : Coord} {l : List Coord}
    (h : ChainL par s v l) : List.Chain' (fun a b => manhattan a b = 1) l := by
  induction h with
  | base _ => simp
  | step u v l hv hadj hc ih =>
    rw [List.chain'_append]
    refine ⟨ih, by simp, ?_⟩
    intro x hx y hy
    rw [chainL_last hc] at hx
    simp at hx hy
    subst hx
    subst hy
    exact hadj

theorem chainL_cons {par : ParentMap} {s v n : Coord} {b : Option Coord}
    {l : List Coord} (h : ChainL par s v l) (hn : n ∉ l) :
    ChainL ((n, b) :: par) s v l := by
  induction h with
  | base hb =>
    refine ChainL.base ?_
    have hns : n ≠ s := by simp at hn; exact hn
    simpa [alookup, hns] using hb
  | step u v l hv hadj hc ih =>
    have hnv : n ≠ v := by simp at hn; exact fun hh => hn.2 hh
    have hnl : n ∉ l := by simp at hn; exact fun hh => absurd hh hn.1
    exact ChainL.step u v l (by simpa [alookup, hnv] using hv) hadj (ih hnl)

theorem reconstruct_of_chainL {par : ParentMap} {s v : Coord} {l : List Coord}
    (h : ChainL par s v l) : ∀ fuel, l.length ≤ fuel → reconstruct fuel par v = some l := by
  induction h with
  | base hb =>
    intro fuel hf
    match fuel, hf with
    | n + 1, _ => simp [reconstruct, hb]
  | step u v l hv hadj hc ih =>
    intro fuel hf
    simp at hf
    match fuel, hf with
    | n + 1, hf =>
      simp [reconstruct, hv, ih n (by omega)]

theorem chainJ_ne_nil {par : ParentMap} {s v : Coord} {l : List Coord}
    (h : ChainJ par s v l) : l ≠ [] := by
  cases h with
  | base _ => simp
  | step u v l _ _ _ _ => simp

theorem chainJ_head {par : ParentMap} {s v : Coord} {l : List Coord}
    (h : ChainJ par s v l) : l.head? = some s := by
  induction h with
  | base _ => rfl
  | step u v l _ _ _ hc ih =>
    cases l with
    | nil => exact absurd rfl (chainJ_ne_nil hc)
    | cons a t => simpa using ih

theorem chainJ_last {par : ParentMap} {s v : Coord} {l : List Coord}
    (h : ChainJ par s v l) : l.getLast? = some v := by
  cases h with
  | base _ => rfl
  | step u v l _ _ _ _ => simp [List.getLast?_concat]

theorem chainJ_aligned {par : ParentMap} {s v : Coord} {l : List Coord}
    (h : ChainJ par s v l) :
    List.Chain' (fun a b => (a.1 = b.1 ∨ a.2 = b.2) ∧ a ≠ b) l := by
  induction h with
  | base _ => simp
  | step u v l hv hal hne hc ih =>
    rw [List.chain'_append]
    refine ⟨ih, by simp, ?_⟩
    intro x hx y hy
    rw [chainJ_last hc] at hx
    simp at hx hy
    subst hx
    subst hy
    exact ⟨hal, hne⟩

theorem chainJ_cons {par : ParentMap} {s v n : Coord} {b : Option Coord}
    {l : List Coord} (h : ChainJ par s v l) (hn : n ∉ l) :
    ChainJ ((n, b) :: par) s v l := by
  induction h with
  | base hb =>
    refine ChainJ.base ?_
    have hns : n ≠ s := by simp at hn; exact hn
    simpa [alookup, hns] using hb
  | step u v l hv hal hne hc ih =>
    have hnv : n ≠ v := by simp at hn; exact hn.2
    have hnl : n ∉ l := by simp at hn; exact fun hh => absurd hh hn.1
    exact ChainJ.step u v l (by simpa [alookup, hnv] using hv) hal hne (ih hnl)

theorem reconstruct_of_chainJ {par : ParentMap} {s v : Coord} {l : List Coord}
    (h : ChainJ par s v l) : ∀ fuel, l.length ≤ fuel → reconstruct fuel par v = some l := by
  induction h with
  | base hb =>
    intro fuel hf
    match fuel, hf with
    | n + 1, _ => simp [reconstruct, hb]
  | step u v l hv hal hne hc ih =>
    intro fuel hf
    simp at hf
    match fuel, hf with
    | n + 1, hf => simp [reconstruct, hv, ih n (by omega)]

/-! ## The event-shape grammar -/

theorem runFrom_shape {σ : Type} (step : σ → StepRes σ)
    (hcont : ∀ s evs s', step s = StepRes.cont evs s' →
      evs = [] ∨ ∃ c, evs = [Event.exploring c, Event.visited c])
    (hdone : ∀ s evs, step s = StepRes.done evs →
      evs = [Event.noPath] ∨ (∃ p, evs = [Event.found p]) ∨
        ∃ c p, evs = [Event.exploring c, Event.found p]) :
    ∀ fuel s, (runFrom step fuel s).2 = Status.terminated →
      shapeOk (runFrom step fuel s).1 = true := by
  intro fuel
  induction fuel with
  | zero => intro s hterm; simp [runFrom] at hterm
  | succ n ih =>
    intro s hterm
    cases hstep : step s with
    | cont evs s' =>
      rcases hcont s evs s' hstep with rfl | ⟨c, rfl⟩
      · simpa [runFrom, hstep] using ih s' (by simpa [runFrom, hstep] using hterm)
      · have := ih s' (by simpa [runFrom, hstep] using hterm)
        simpa [runFrom, hstep, shapeOk] using this
    | done evs =>
      rcases hdone s evs hstep with rfl | ⟨p, rfl⟩ | ⟨c, p, rfl⟩ <;>
        simp [runFrom, hstep, shapeOk]
    | crash evs => simp [runFrom, hstep] at hterm

/-! ## Per-algorithm event chunk shapes -/

theorem bfsStep_cont_shape (w h : Int) (e : Coord) :
    ∀ st evs st', bfsStep w h e st = StepRes.cont evs st' →
      evs = [] ∨ ∃ c, evs = [Event.exploring c, Event.visited c] := by
  intro st evs st' hst
  unfold bfsStep at hst
  split at hst
  · simp at hst
  · split at hst
    · split at hst <;> simp at hst
    · simp only [StepRes.cont.injEq] at hst
      exact Or.inr ⟨_, hst.1.symm⟩

theorem bfsStep_done_shape (w h : Int) (e : Coord) :
    ∀ st evs, bfsStep w h e st = StepRes.done evs →
      evs = [Event.noPath] ∨ (∃ p, evs = [Event.found p]) ∨
        ∃ c p, evs = [Event.exploring c, Event.found p] := by
  intro st evs hst
  unfold bfsStep at hst
  split at hst
  · simp only [StepRes.done.injEq] at hst
    exact Or.inl hst.symm
  · split at hst
    · split at hst
      · simp only [StepRes.done.injEq] at hst
        exact Or.inr (Or.inr ⟨_, _, hst.symm⟩)
      · simp at hst
    · simp at hst

theorem dijkstraStep_cont_shape (w h : Int) (e : Coord) :
    ∀ st evs st', dijkstraStep w h e st = StepRes.cont evs st' →
      evs = [] ∨ ∃ c, evs = [Event.exploring c, Event.visited c] := by
  intro st evs st' hst
  unfold dijkstraStep at hst
  split at hst
  all_goals try split at hst
  all_goals try split at hst
  all_goals try split at hst
  all_goals
    first
      | (simp at hst
         done)
      | (simp only [StepRes.cont.injEq] at hst
         first
           | exact Or.inl hst.1.symm
           | exact Or.inl hst.1
           | exact Or.inr ⟨_, hst.1.symm⟩
           | exact Or.inr ⟨_, hst.1⟩)

theorem dijkstraStep_done_shape (w h : Int) (e : Coord) :
    ∀ st evs, dijkstraStep w h e st = StepRes.done evs →
      evs = [Event.noPath] ∨ (∃ p, evs = [Event.found p]) ∨
        ∃ c p, evs = [Event.exploring c, Event.found p] := by
  intro st evs hst
  unfold dijkstraStep at hst
  split at hst
  all_goals try split at hst
  all_goals try split at hst
  all_goals try split at hst
  all_goals
    first
      | (simp at hst
         done)
      | (simp only [StepRes.done.injEq] at hst
         first
           | exact Or.inl hst.symm
           | exact Or.inl hst
           | exact Or.inr (Or.inr ⟨_, _, hst.symm⟩)
           | exact Or.inr (Or.inr ⟨_, _, hst⟩))

theorem dfsStep_cont_shape (w h : Int) (e : Coord) :
    ∀ st evs st', dfsStep w h e st = StepRes.cont evs st' →
      evs = [] ∨ ∃ c, evs = [Event.exploring c, Event.visited c] := by
  intro st evs st' hst
  unfold dfsStep at hst
  split at hst
  all_goals try split at hst
  all_goals try split at hst
  all_goals try split at hst
  all_goals try split at hst
  all_goals try split at hst
  all_goals try split at hst
  all_goals try split at hst
  all_goals try split at hst
  all_goals try split at hst
  all_goals try split at hst
  all_goals try split at hst
  all_goals try split at hst
  all_goals
    first
      | (simp at hst
         done)
      | (simp only [StepRes.cont.injEq] at hst
         first
           | exact Or.inl hst.1.symm
           | exact Or.inl hst.1
           | exact Or.inr ⟨_, hst.1.symm⟩
           | exact Or.inr ⟨_, hst.1⟩)

theorem dfsStep_done_shape (w h : Int) (e : Coord) :
    ∀ st evs, dfsStep w h e st = StepRes.done evs →
      evs = [Event.noPath] ∨ (∃ p, evs = [Event.found p]) ∨
        ∃ c p, evs = [Event.exploring c, Event.found p] := by
  intro st evs hst
  unfold dfsStep at hst
  split at hst
  all_goals try split at hst
  all_goals try split at hst
  all_goals try split at hst
  all_goals try split at hst
  all_goals try split at hst
  all_goals try split at hst
  all_goals try split at hst
  all_goals try split at hst
  all_goals try split at hst
  all_goals try split at hst
  all_goals try split at hst
  all_goals try split at hst
  all_goals
    first
      | (simp at hst
         done)
      | (simp only [StepRes.done.injEq] at hst
         first
           | exact Or.inl hst.symm
           | exact Or.inl hst
           | exact Or.inr (Or.inr ⟨_, _, hst.symm⟩)
           | exact Or.inr (Or.inr ⟨_, _, hst⟩))

theorem astarStep_cont_shape (w h : Int) (e : Coord) :
    ∀ st evs st', astarStep w h e st = StepRes.cont evs st' →
      evs = [] ∨ ∃ c, evs = [Event.exploring c, Event.visited c] := by
  intro st evs st' hst
  unfold astarStep at hst
  split at hst
  all_goals try split at hst
  all_goals try split at hst
  all_goals try split at hst
  all_goals try split at hst
  all_goals try split at hst
  all_goals try split at hst
  all_goals try split at hst
  all_goals try split at hst
  all_goals try split at hst
  all_goals try split at hst
  all_goals try split at hst
  all_goals try split at hst
  all_goals
    first
      | (simp at hst
         done)
      | (simp only [StepRes.cont.injEq] at hst
         first
           | exact Or.inl hst.1.symm
           | exact Or.inl hst.1
           | exact Or.inr ⟨_, hst.1.symm⟩
           | exact Or.inr ⟨_, hst.1⟩)

theorem astarStep_done_shape (w h : Int) (e : Coord) :
    ∀ st evs, astarStep w h e st = StepRes.done evs →
      evs = [Event.noPath] ∨ (∃ p, evs = [Event.found p]) ∨
        ∃ c p, evs = [Event.exploring c, Event.found p] := by
  intro st evs hst
  unfold astarStep at hst
  split at hst
  all_goals try split at hst
  all_goals try split at hst
  all_goals try split at hst
  all_goals try split at hst
  all_goals try split at hst
  all_goals try split at hst
  all_goals try split at hst
  all_goals try split at hst
  all_goals try split at hst
  all_goals try split at hst
  all_goals try split at hst
  all_goals try split at hst
  all_goals
    first
      | (simp at hst
         done)
      | (simp only [StepRes.done.injEq] at hst
         first
           | exact Or.inl hst.symm
           | exact Or.inl hst
           | exact Or.inr (Or.inr ⟨_, _, hst.symm⟩)
           | exact Or.inr (Or.inr ⟨_, _, hst⟩))

theorem greedyStep_cont_shape (w h : Int) (e : Coord) :
    ∀ st evs st', greedyStep w h e st = StepRes.cont evs st' →
      evs = [] ∨ ∃ c, evs = [Event.exploring c, Event.visited c] := by
  intro st evs st' hst
  unfold greedyStep at hst
  split at hst
  all_goals try split at hst
  all_goals try split at hst
  all_goals try split at hst
  all_goals try split at hst
  all_goals try split at hst
  all_goals try split at hst
  all_goals try split at hst
  all_goals try split at hst
  all_goals try split at hst
  all_goals try split at hst
  all_goals try split at hst
  all_goals try split at hst
  all_goals
    first
      | (simp at hst
         done)
      | (simp only [StepRes.cont.injEq] at hst
         first
           | exact Or.inl hst.1.symm
           | exact Or.inl hst.1
           | exact Or.inr ⟨_, hst.1.symm⟩
           | exact Or.inr ⟨_, hst.1⟩)

theorem greedyStep_done_shape (w h : Int) (e : Coord) :
    ∀ st evs, greedyStep w h e st = StepRes.done evs →
      evs = [Event.noPath] ∨ (∃ p, evs = [Event.found p]) ∨
        ∃ c p, evs = [Event.exploring c, Event.found p] := by
  intro st evs hst
  unfold greedyStep at hst
  split at hst
  all_goals try split at hst
  all_goals try split at hst
  all_goals try split at hst
  all_goals try split at hst
  all_goals try split at hst
  all_goals try split at hst
  all_goals try split at hst
  all_goals try split at hst
  all_goals try split at hst
  all_goals try split at hst
  all_goals try split at hst
  all_goals try split at hst
  all_goals
    first
      | (simp at hst
         done)
      | (simp only [StepRes.done.injEq] at hst
         first
           | exact Or.inl hst.symm
           | exact Or.inl hst
           | exact Or.inr (Or.inr ⟨_, _, hst.symm⟩)
           | exact Or.inr (Or.inr ⟨_, _, hst⟩))

theorem jpsStep_cont_shape (w h : Int) (e : Coord) :
    ∀ st evs st', jpsStep w h e st = StepRes.cont evs st' →
      evs = [] ∨ ∃ c, evs = [Event.exploring c, Event.visited c] := by
  intro st evs st' hst
  unfold jpsStep at hst
  split at hst
  all_goals try split at hst
  all_goals try split at hst
  all_goals try split at hst
  all_goals try split at hst
  all_goals try split at hst
  all_goals try split at hst
  all_goals try split at hst
  all_goals try split at hst
  all_goals try split at hst
  all_goals try split at hst
  all_goals try split at hst
  all_goals try split at hst
  all_goals
    first
      | (simp at hst
         done)
      | (simp only [StepRes.cont.injEq] at hst
         first
           | exact Or.inl hst.1.symm
           | exact Or.inl hst.1
           | exact Or.inr ⟨_, hst.1.symm⟩
           | exact Or.inr ⟨_, hst.1⟩)

theorem jpsStep_done_shape (w h : Int) (e : Coord) :
    ∀ st evs, jpsStep w h e st = StepRes.done evs →
      evs = [Event.noPath] ∨ (∃ p, evs = [Event.found p]) ∨
        ∃ c p, evs = [Event.exploring c, Event.found p] := by
  intro st evs hst
  unfold jpsStep at hst
  split at hst
  all_goals try split at hst
  all_goals try split at hst
  all_goals try split at hst
  all_goals try split at hst
  all_goals try split at hst
  all_goals try split at hst
  all_goals try split at hst
  all_goals try split at hst
  all_goals try split at hst
  all_goals try split at hst
  all_goals try split at hst
  all_goals try split at hst
  all_goals
    first
      | (simp at hst
         done)
      | (simp only [StepRes.done.injEq] at hst
         first
           | exact Or.inl hst.symm
           | exact Or.inl hst
           | exact Or.inr (Or.inr ⟨_, _, hst.symm⟩)
           | exact Or.inr (Or.inr ⟨_, _, hst⟩))

theorem bidirStep_cont_shape (w h : Int) :
    ∀ st evs st', bidirStep w h st = StepRes.cont evs st' →
      evs = [] ∨ ∃ c, evs = [Event.exploring c, Event.visited c] := by
  intro st evs st' hst
  unfold bidirStep at hst
  split at hst
  all_goals try split at hst
  all_goals try split at hst
  all_goals try split at hst
  all_goals try split at hst
  all_goals try split at hst
  all_goals try split at hst
  all_goals try split at hst
  all_goals try split at hst
  all_goals try split at hst
  all_goals try split at hst
  all_goals try split at hst
  all_goals try split at hst
  all_goals
    first
      | (simp at hst
         done)
      | (simp only [StepRes.cont.injEq] at hst
         first
           | exact Or.inl hst.1.symm
           | exact Or.inl hst.1
           | exact Or.inr ⟨_, hst.1.symm⟩
           | exact Or.inr ⟨_, hst.1⟩)

theorem bidirStep_done_shape (w h : Int) :
    ∀ st evs, bidirStep w h st = StepRes.done evs →
      evs = [Event.noPath] ∨ (∃ p, evs = [Event.found p]) ∨
        ∃ c p, evs = [Event.exploring c, Event.found p] := by
  intro st evs hst
  unfold bidirStep at hst
  split at hst
  all_goals try split at hst
  all_goals try split at hst
  all_goals try split at hst
  all_goals try split at hst
  all_goals try split at hst
  all_goals try split at hst
  all_goals try split at hst
  all_goals try split at hst
  all_goals try split at hst
  all_goals try split at hst
  all_goals try split at hst
  all_goals try split at hst
  all_goals
    first
      | (simp at hst
         done)
      | (simp only [StepRes.done.injEq] at hst
         first
           | exact Or.inl hst.symm
           | exact Or.inl hst
           | exact Or.inr (Or.inr ⟨_, _, hst.symm⟩)
           | exact Or.inr (Or.inr ⟨_, _, hst⟩))

theorem rwStep_cont_shape (w h : Int) (e : Coord) (rb : Nat → Bool) (rc : Nat → Nat) :
    ∀ st evs st', rwStep w h e rb rc st = StepRes.cont evs st' →
      evs = [] ∨ ∃ c, evs = [Event.exploring c, Event.visited c] := by
  intro st evs st' hst
  unfold rwStep at hst
  split at hst
  · simp at hst
  · by_cases hce : st.cur = e
    · rw [if_pos hce] at hst
      split at hst <;> simp at hst
    · rw [if_neg hce] at hst
      dsimp only [] at hst
      split at hst
      · simp at hst
      · simp only [StepRes.cont.injEq] at hst
        exact Or.inr ⟨_, hst.1.symm⟩

theorem rwStep_done_shape (w h : Int) (e : Coord) (rb : Nat → Bool) (rc : Nat → Nat) :
    ∀ st evs, rwStep w h e rb rc st = StepRes.done evs →
      evs = [Event.noPath] ∨ (∃ p, evs = [Event.found p]) ∨
        ∃ c p, evs = [Event.exploring c, Event.found p] := by
  intro st evs hst
  unfold rwStep at hst
  split at hst
  · simp only [StepRes.done.injEq] at hst
    exact Or.inl hst.symm
  · by_cases hce : st.cur = e
    · rw [if_pos hce] at hst
      split at hst
      · simp only [StepRes.done.injEq] at hst
        exact Or.inr (Or.inr ⟨_, _, hst.symm⟩)
      · simp at hst
    · rw [if_neg hce] at hst
      dsimp only [] at hst
      split at hst <;> simp at hst

theorem runFrom_succ_fst {σ : Type} (step : σ → StepRes σ) (n : Nat) (s : σ) :
    (runFrom step (n + 1) s).1 =
      (match step s with
       | StepRes.cont evs s' => evs ++ (runFrom step n s').1
       | StepRes.done evs => evs
       | StepRes.crash evs => evs) := by
  cases hstep : step s <;> simp [runFrom, hstep]

theorem claim5_amended (x y w h : Int) :
    getNeighbors x y w h =
      ([(x, y + 1), (x + 1, y), (x, y - 1), (x - 1, y)] : List Coord).filter
        (fun n => inBoundsB w h n) := by
  have e1 : ((x + (0 : Int), y + (1 : Int)) : Coord) = (x, y + 1) := by
    refine Prod.ext ?_ ?_ <;> simp
  have e2 : ((x + (1 : Int), y + (0 : Int)) : Coord) = (x + 1, y) := by
    refine Prod.ext ?_ ?_ <;> simp
  have e3 : ((x + (0 : Int), y + (-1 : Int)) : Coord) = (x, y - 1) := by
    refine Prod.ext ?_ ?_ <;> simp <;> ring
  have e4 : ((x + (-1 : Int), y + (0 : Int)) : Coord) = (x - 1, y) := by
    refine Prod.ext ?_ ?_ <;> simp <;> ring
  simp only [getNeighbors, directions, List.filterMap_cons, List.filterMap_nil,
    List.filter_cons, List.filter_nil, e1, e2, e3, e4]
  split_ifs <;> simp

set_option maxHeartbeats 1000000 in
theorem claim4_amended (cur goal d : Coord) (w h : Int) (vis : List Coord)
    (p : Coord) (hd : d ∈ directions)
    (hp : jump cur d goal w h vis = some p) :
    1 ≤ manhattan cur p ∧ manhattan cur p ≤ 4 ∧ inBoundsB w h p = true ∧
      (p.1 = cur.1 ∨ p.2 = cur.2) := by
  simp only [directions, List.mem_cons, List.not_mem_nil, or_false] at hd
  rcases hd with rfl | rfl | rfl | rfl <;>
    (unfold jump at hp
     dsimp only [] at hp
     split_ifs at hp <;> injection hp with hX <;>
       (subst hX
        refine ⟨?_, ?_, by assumption, ?_⟩ <;>
          (simp [manhattan]
           try omega)))

theorem claim3_amended (fuel : Nat) (w h : Int) (s e : Coord)
    (rb : Nat → Bool) (rc : Nat → Nat) (hf : 1 ≤ fuel) :
    (bfsRun fuel w h s e).1.head? = some (Event.exploring s) ∧
    (dfsRun fuel w h s e).1.head? = some (Event.exploring s) ∧
    (dijkstraRun fuel w h s e).1.head? = some (Event.exploring s) ∧
    (astarRun fuel w h s e).1.head? = some (Event.exploring s) ∧
    (greedyRun fuel w h s e).1.head? = some (Event.exploring s) ∧
    (jpsRun fuel w h s e).1.head? = some (Event.exploring s) ∧
    (s ≠ e → (bidirRun fuel w h s e).1.head? = some (Event.exploring s)) ∧
    (0 < (w * h * 2).toNat →
      (rwRun w h s e rb rc).1.head? = some (Event.exploring s)) := by
  obtain ⟨n, rfl⟩ : ∃ n, fuel = n + 1 := ⟨fuel - 1, by omega⟩
  refine ⟨?_, ?_, ?_, ?_, ?_, ?_, ?_, ?_⟩
  · rw [bfsRun, runFrom_succ_fst]
    by_cases hse : s = e
    · subst hse
      simp [bfsStep, bfsInit, reconstruct, alookup]
    · simp [bfsStep, bfsInit, hse]
  · rw [dfsRun, runFrom_succ_fst]
    by_cases hse : s = e
    · subst hse
      simp [dfsStep, dfsInit, reconstruct, alookup]
    · simp [dfsStep, dfsInit, hse]
  · rw [dijkstraRun, runFrom_succ_fst]
    by_cases hse : s = e
    · subst hse
      simp [dijkstraStep, dijkstraInit, reconstruct, alookup]
    · simp [dijkstraStep, dijkstraInit, hse]
  · rw [astarRun, runFrom_succ_fst]
    by_cases hse : s = e
    · subst hse
      simp [astarStep, astarInit, reconstruct, alookup]
    · simp [astarStep, astarInit, hse]
  · rw [greedyRun, runFrom_succ_fst]
    by_cases hse : s = e
    · subst hse
      simp [greedyStep, greedyInit, reconstruct, alookup]
    · simp [greedyStep, greedyInit, hse]
  · rw [jpsRun, runFrom_succ_fst]
    by_cases hse : s = e
    · subst hse
      simp [jpsStep, jpsInit, reconstruct, alookup, densify]
    · simp [jpsStep, jpsInit, hse]
  · intro hse
    rw [bidirRun, if_neg hse, runFrom_succ_fst]
    simp [bidirStep, bidirInit, hse]
  · intro hcap
    obtain ⟨m, hm⟩ : ∃ m, (w * h * 2).toNat = m + 1 := ⟨(w * h * 2).toNat - 1, by omega⟩
    rw [rwRun, hm, runFrom_succ_fst]
    by_cases hse : s = e
    · subst hse
      simp [rwStep, rwInit, hm, reconstruct, alookup]
    · simp only [rwStep, rwInit, hm]
      rw [if_neg hse]
      split
      · rename_i evs s' heq
        split at heq
        · exact absurd heq (by simp)
        · simp only [StepRes.cont.injEq] at heq
          obtain ⟨he, hs'⟩ := heq
          simp [← he]
      · rename_i evs heq
        split at heq <;> simp at heq
      · rename_i evs heq
        split at heq
        · simp only [StepRes.crash.injEq] at heq
          simp [← heq]
        · simp at heq

/-! ## Greedy best-first: expansion uniqueness -/

theorem exploredOf_append (a b : List Event) :
    exploredOf (a ++ b) = exploredOf a ++ exploredOf b := by
  simp [exploredOf]

theorem greedyExpand_visited (e cur : Coord) :
    ∀ l st, (greedyExpand e cur l st).visited = st.visited := by
  intro l
  induction l with
  | nil => intro st; rfl
  | cons n t ih =>
    intro st
    by_cases hv : n ∈ st.visited
    · simp [greedyExpand, hv, ih]
    · simp [greedyExpand, hv, ih]

theorem greedy_explored_aux (w h : Int) (e : Coord) :
    ∀ fuel st,
      (∀ c ∈ exploredOf (runFrom (greedyStep w h e) fuel st).1, c ∉ st.visited) ∧
        (exploredOf (runFrom (greedyStep w h e) fuel st).1).Nodup := by
  intro fuel
  induction fuel with
  | zero => simp [runFrom, exploredOf]
  | succ n ih =>
    intro st
    obtain ⟨pq, vis, par, log⟩ := st
    cases pq with
    | nil =>
      have hstep : greedyStep w h e ⟨[], vis, par, log⟩ =
          StepRes.done [Event.noPath] := rfl
      rw [runFrom, hstep]
      simp [exploredOf, exploringCoord]
    | cons kv rest =>
      obtain ⟨k, cur⟩ := kv
      by_cases hv : cur ∈ vis
      · have hstep : greedyStep w h e ⟨(k, cur) :: rest, vis, par, log⟩ =
            StepRes.cont [] ⟨rest, vis, par, log⟩ := by
          simp [greedyStep, hv]
        rw [runFrom, hstep]
        simpa using ih ⟨rest, vis, par, log⟩
      · by_cases hce : cur = e
        · subst hce
          rcases hrec : reconstruct (par.length + 1) par cur with _ | p
          · have hstep : greedyStep w h cur ⟨(k, cur) :: rest, vis, par, log⟩ =
                StepRes.crash [Event.exploring cur] := by
              simp [greedyStep, hv, hrec]
            rw [runFrom, hstep]
            simp [exploredOf, exploringCoord, hv]
          · have hstep : greedyStep w h cur ⟨(k, cur) :: rest, vis, par, log⟩ =
                StepRes.done [Event.exploring cur, Event.found p] := by
              simp [greedyStep, hv, hrec]
            rw [runFrom, hstep]
            simp [exploredOf, exploringCoord, hv]
        · have hstep : greedyStep w h e ⟨(k, cur) :: rest, vis, par, log⟩ =
              StepRes.cont [Event.exploring cur, Event.visited cur]
                (greedyExpand e cur (getNeighbors cur.1 cur.2 w h)
                  ⟨rest, cur :: vis, par, log⟩) := by
            simp [greedyStep, hv, hce]
          rw [runFrom, hstep]
          have ih' := ih (greedyExpand e cur (getNeighbors cur.1 cur.2 w h)
            ⟨rest, cur :: vis, par, log⟩)
          rw [greedyExpand_visited] at ih'
          constructor
          · intro c hc
            simp only [exploredOf_append] at hc
            simp only [exploredOf, exploringCoord, List.filterMap_cons,
              List.filterMap_nil, List.mem_append, List.mem_cons,
              List.not_mem_nil, or_false] at hc
            rcases hc with rfl | hc
            · exact hv
            · have := ih'.1 c hc
              simp at this
              exact this.2
          · simp only [exploredOf_append]
            simp only [exploredOf, exploringCoord, List.filterMap_cons,
              List.filterMap_nil]
            refine List.Nodup.cons ?_ ih'.2
            intro hmem
            try simp only [List.nil_append] at hmem
            have := ih'.1 cur hmem
            simp at this

/-! ## The claims -/

/-- C1 (code bug): the spec's 3×3 wall scenario must end in `NoPath`, but no
`find_path` accepts an obstacle set (main.py even passes one that the
signatures do not declare), so BFS walks straight through the wall cell
(1, 2) and terminates with `Found`, never emitting `NoPath`. -/
theorem claim1_wall_scenario :
    (bfsRun 12 3 3 (0, 0) (2, 2)).2 = Status.terminated ∧
    (bfsRun 12 3 3 (0, 0) (2, 2)).1.getLast? =
      some (Event.found [(0, 0), (0, 1), (0, 2), (1, 2), (2, 2)]) ∧
    Event.noPath ∉ (bfsRun 12 3 3 (0, 0) (2, 2)).1 ∧
    (1, 2) ∈ ([(1, 0), (1, 1), (1, 2)] : List Coord) := by
  decide

/-- C2: every search entry point is a function of start, end, width, height
and the injected randomness alone — obstacle sets are not parameters of any
run function, so any two obstacle lists yield identical event sequences. -/
theorem claim2_obstacle_independence (obs1 obs2 : List Coord) (fuel : Nat)
    (w h : Int) (s e : Coord) (rb : Nat → Bool) (rc : Nat → Nat) :
    bfsRun fuel w h s e = bfsRun fuel w h s e ∧
    dfsRun fuel w h s e = dfsRun fuel w h s e ∧
    dijkstraRun fuel w h s e = dijkstraRun fuel w h s e ∧
    astarRun fuel w h s e = astarRun fuel w h s e ∧
    greedyRun fuel w h s e = greedyRun fuel w h s e ∧
    jpsRun fuel w h s e = jpsRun fuel w h s e ∧
    bidirRun fuel w h s e = bidirRun fuel w h s e ∧
    rwRun w h s e rb rc = rwRun w h s e rb rc :=
  ⟨rfl, rfl, rfl, rfl, rfl, rfl, rfl, rfl⟩

/-- C3 counterexample: an out-of-bounds start (5,5) on a 3×3 grid is not
rejected — BFS runs to completion and emits three events, so rejection
does not happen before any event is emitted. -/
theorem claim3_counterexample :
    bfsRun 4 3 3 (5, 5) (0, 0) =
      ([Event.exploring (5, 5), Event.visited (5, 5), Event.noPath],
        Status.terminated) ∧
    (bfsRun 4 3 3 (5, 5) (0, 0)).1 ≠ [] := by
  decide

/-- C4 counterexample: a jump from (0,0) upward on a 10×10 grid with a far
goal lands on (0,4), Manhattan distance 4 — more than the claimed 3. -/
theorem claim4_counterexample :
    jump (0, 0) (0, 1) (9, 9) 10 10 [] = some (0, 4) ∧
    manhattan (0, 0) ((0 : Int), (4 : Int)) = 4 ∧
    ¬ manhattan (0, 0) ((0 : Int), (4 : Int)) ≤ 3 := by
  decide

/-- C4 witness: the amended jump bound at a concrete scan. -/
theorem claim4_witness :
    1 ≤ manhattan (0, 0) ((0 : Int), (4 : Int)) ∧
    manhattan (0, 0) ((0 : Int), (4 : Int)) ≤ 4 ∧
    inBoundsB 3 9 ((0 : Int), (4 : Int)) = true ∧
    (((0 : Int), (4 : Int)).1 = ((0 : Int), (0 : Int)).1 ∨
      ((0 : Int), (4 : Int)).2 = ((0 : Int), (0 : Int)).2) :=
  claim4_amended (0, 0) (5, 5) (0, 1) 3 9 [] (0, 4) (by decide) (by decide)

/-- C5 counterexample: at (0,0) on a 2×2 grid the source enumerator yields
[(0,1),(1,0)] while the spec's δ order (1,0),(0,1),(-1,0),(0,-1) would
yield [(1,0),(0,1)]. -/
theorem claim5_counterexample :
    getNeighbors 0 0 2 2 = [(0, 1), (1, 0)] ∧
    specNeighbors 0 0 2 2 = [(1, 0), (0, 1)] ∧
    getNeighbors 0 0 2 2 ≠ specNeighbors 0 0 2 2 := by
  decide

/-- C6 counterexample: in the greedy run on the 3×3 grid from (0,0) to
(2,2), coordinate (1,1) is pushed onto the priority queue twice. -/
theorem claim6_counterexample :
    ((iterState (greedyStep 3 3 (2, 2)) 12 (greedyInit (0, 0))).pushLog.count
      ((1, 1) : Coord)) = 2 := by
  decide

/-- C6 (amended): greedy may push a coordinate several times (each
discovering expansion re-pushes it and overwrites its parent), but the
visited check at pop guarantees each coordinate is expanded — emitted as
`Exploring` — at most once per run. -/
theorem claim6_amended (fuel : Nat) (w h : Int) (s e : Coord) :
    (exploredOf (greedyRun fuel w h s e).1).Nodup :=
  (greedy_explored_aux w h e fuel (greedyInit s)).2

/-- C7 counterexample: bidirectional search on a 3×1 corridor emits
`Visited` for the goal (2,0) (the backward front expands the goal first),
so `Visited` is not skipped for the goal coordinate. -/
theorem claim7_counterexample :
    Event.visited (2, 0) ∈ (bidirRun 12 3 1 (0, 0) (2, 0)).1 ∧
    (bidirRun 12 3 1 (0, 0) (2, 0)).2 = Status.terminated ∧
    (bidirRun 12 3 1 (0, 0) (2, 0)).1.getLast? =
      some (Event.found [(0, 0), (1, 0), (2, 0)]) := by
  decide

/-- C7 (amended): every terminating run's event sequence is zero or more
`Exploring c`/`Visited c` pairs followed by exactly one terminal — `NoPath`,
or `Found` possibly preceded by the final coordinate's lone `Exploring`;
each `Visited` follows its own coordinate's `Exploring` immediately.
(`Visited` is not in general once-per-coordinate, and bidirectional search
may emit `Visited` for the goal.) -/
theorem claim7_event_shape (fuel : Nat) (w h : Int) (s e : Coord)
    (rb : Nat → Bool) (rc : Nat → Nat) :
    ((bfsRun fuel w h s e).2 = Status.terminated →
      shapeOk (bfsRun fuel w h s e).1 = true) ∧
    ((dfsRun fuel w h s e).2 = Status.terminated →
      shapeOk (dfsRun fuel w h s e).1 = true) ∧
    ((dijkstraRun fuel w h s e).2 = Status.terminated →
      shapeOk (dijkstraRun fuel w h s e).1 = true) ∧
    ((astarRun fuel w h s e).2 = Status.terminated →
      shapeOk (astarRun fuel w h s e).1 = true) ∧
    ((greedyRun fuel w h s e).2 = Status.terminated →
      shapeOk (greedyRun fuel w h s e).1 = true) ∧
    ((jpsRun fuel w h s e).2 = Status.terminated →
      shapeOk (jpsRun fuel w h s e).1 = true) ∧
    ((bidirRun fuel w h s e).2 = Status.terminated →
      shapeOk (bidirRun fuel w h s e).1 = true) ∧
    ((rwRun w h s e rb rc).2 = Status.terminated →
      shapeOk (rwRun w h s e rb rc).1 = true) := by
  refine ⟨?_, ?_, ?_, ?_, ?_, ?_, ?_, ?_⟩
  · exact fun ht => runFrom_shape _ (bfsStep_cont_shape w h e)
      (bfsStep_done_shape w h e) fuel (bfsInit s) ht
  · exact fun ht => runFrom_shape _ (dfsStep_cont_shape w h e)
      (dfsStep_done_shape w h e) fuel (dfsInit s) ht
  · exact fun ht => runFrom_shape _ (dijkstraStep_cont_shape w h e)
      (dijkstraStep_done_shape w h e) fuel (dijkstraInit s) ht
  · exact fun ht => runFrom_shape _ (astarStep_cont_shape w h e)
      (astarStep_done_shape w h e) fuel (astarInit s) ht
  · exact fun ht => runFrom_shape _ (greedyStep_cont_shape w h e)
      (greedyStep_done_shape w h e) fuel (greedyInit s) ht
  · exact fun ht => runFrom_shape _ (jpsStep_cont_shape w h e)
      (jpsStep_done_shape w h e) fuel (jpsInit s) ht
  · intro ht
    by_cases hse : s = e
    · simp [bidirRun, hse, shapeOk]
    · have harr : bidirRun fuel w h s e =
          runFrom (bidirStep w h) fuel (bidirInit s e) := by
        simp [bidirRun, hse]
      rw [harr] at ht ⊢
      exact runFrom_shape _ (bidirStep_cont_shape w h)
        (bidirStep_done_shape w h) fuel (bidirInit s e) ht
  · exact fun ht => runFrom_shape _ (rwStep_cont_shape w h e rb rc)
      (rwStep_done_shape w h e rb rc) ((w * h * 2).toNat + 1) (rwInit w h s) ht

/-- C7 witness: all eight shapes at a concrete terminated run. -/
theorem claim7_witness :
    shapeOk (bfsRun 12 2 2 (0, 0) (1, 1)).1 = true ∧
    shapeOk (dfsRun 12 2 2 (0, 0) (1, 1)).1 = true ∧
    shapeOk (dijkstraRun 12 2 2 (0, 0) (1, 1)).1 = true ∧
    shapeOk (astarRun 12 2 2 (0, 0) (1, 1)).1 = true ∧
    shapeOk (greedyRun 12 2 2 (0, 0) (1, 1)).1 = true ∧
    shapeOk (jpsRun 12 2 2 (0, 0) (1, 1)).1 = true ∧
    shapeOk (bidirRun 12 2 2 (0, 0) (1, 1)).1 = true ∧
    shapeOk (rwRun 2 2 (0, 0) (1, 1) (fun _ => true) (fun _ => 0)).1 = true := by
  have t := claim7_event_shape 12 2 2 (0, 0) (1, 1) (fun _ => true) (fun _ => 0)
  exact ⟨t.1 (by decide), t.2.1 (by decide), t.2.2.1 (by decide),
    t.2.2.2.1 (by decide), t.2.2.2.2.1 (by decide), t.2.2.2.2.2.1 (by decide),
    t.2.2.2.2.2.2.1 (by decide), t.2.2.2.2.2.2.2 (by decide)⟩

/-- C3 witness: the amended no-validation behaviour at the malformed start
(5,5) on a 3×3 grid. -/
theorem claim3_witness :
    (bfsRun 1 3 3 (5, 5) (0, 0)).1.head? = some (Event.exploring (5, 5)) ∧
    (dfsRun 1 3 3 (5, 5) (0, 0)).1.head? = some (Event.exploring (5, 5)) ∧
    (dijkstraRun 1 3 3 (5, 5) (0, 0)).1.head? = some (Event.exploring (5, 5)) ∧
    (astarRun 1 3 3 (5, 5) (0, 0)).1.head? = some (Event.exploring (5, 5)) ∧
    (greedyRun 1 3 3 (5, 5) (0, 0)).1.head? = some (Event.exploring (5, 5)) ∧
    (jpsRun 1 3 3 (5, 5) (0, 0)).1.head? = some (Event.exploring (5, 5)) ∧
    (bidirRun 1 3 3 (5, 5) (0, 0)).1.head? = some (Event.exploring (5, 5)) ∧
    (rwRun 3 3 (5, 5) (0, 0) (fun _ => true) (fun _ => 0)).1.head? =
      some (Event.exploring (5, 5)) := by
  have t := claim3_amended 1 3 3 (5, 5) (0, 0) (fun _ => true) (fun _ => 0)
    (by decide)
  exact ⟨t.1, t.2.1, t.2.2.1, t.2.2.2.1, t.2.2.2.2.1, t.2.2.2.2.2.1,
    t.2.2.2.2.2.2.1 (by decide), t.2.2.2.2.2.2.2 (by decide)⟩

/-! ## More basic lemmas for path soundness -/

theorem alookup_cons_self {β : Type} {k : Coord} {b : β} {t : List (Coord × β)} :
    alookup ((k, b) :: t) k = some b := by
  simp [alookup]

theorem alookup_cons_ne {β : Type} {k c : Coord} {b : β} {t : List (Coord × β)}
    (h : k ≠ c) : alookup ((k, b) :: t) c = alookup t c := by
  simp [alookup, h]

theorem chainL_nodes_dom {par : ParentMap} {s v : Coord} {l : List Coord}
    (h : ChainL par s v l) : ∀ x ∈ l, alookup par x ≠ none := by
  induction h with
  | base hb => intro x hx; simp at hx; subst hx; simp [hb]
  | step u v l hv hadj hc ih =>
    intro x hx
    rcases List.mem_append.mp hx with hx | hx
    · exact ih x hx
    · simp at hx
      subst hx
      simp [hv]

theorem walkGet_of_chainL {par : ParentMap} {s v : Coord} {l : List Coord}
    (h : ChainL par s v l) :
    ∀ fuel, l.length ≤ fuel → walkGet fuel par v = l.reverse := by
  induction h with
  | base hb =>
    intro fuel hf
    match fuel, hf with
    | n + 1, _ => simp [walkGet, hb]
  | step u v l hv hadj hc ih =>
    intro fuel hf
    simp at hf
    match fuel, hf with
    | n + 1, hf => simp [walkGet, hv, ih n (by omega)]

theorem pyChoice_mem {l : List Coord} {i : Nat} {x : Coord}
    (h : pyChoice l i = some x) : x ∈ l := by
  unfold pyChoice at h
  exact List.get?_mem h

theorem pyChoice_eq_none {l : List Coord} {i : Nat}
    (h : pyChoice l i = none) : l = [] := by
  unfold pyChoice at h
  cases l with
  | nil => rfl
  | cons a t =>
    have hlt : i % (a :: t).length < (a :: t).length :=
      Nat.mod_lt _ (by simp)
    rw [List.get?_eq_get hlt] at h
    simp at h

theorem mem_insertSorted {α : Type} (le : α → α → Bool) (a x : α) :
    ∀ l : List α, x ∈ insertSorted le a l → x = a ∨ x ∈ l := by
  intro l
  induction l with
  | nil => intro hx; simpa [insertSorted] using hx
  | cons b t ih =>
    intro hx
    unfold insertSorted at hx
    split at hx
    · rcases List.mem_cons.mp hx with rfl | hx
      · exact Or.inl rfl
      · exact Or.inr hx
    · rcases List.mem_cons.mp hx with rfl | hx
      · exact Or.inr (by simp)
      · rcases ih hx with rfl | hx
        · exact Or.inl rfl
        · exact Or.inr (by simp [hx])

/-- Generic soundness of `Found` payloads: if the invariant is preserved by
`cont` steps (which yield no `Found`), and every terminal `Found` payload
from an invariant state satisfies `P`, then every `Found` payload of a run
from an invariant state satisfies `P`. -/
theorem run_found_sound {σ : Type} (step : σ → StepRes σ) (Inv : σ → Prop)
    (P : List Coord → Prop)
    (hcont : ∀ st evs st', Inv st → step st = StepRes.cont evs st' →
      Inv st' ∧ ∀ p, Event.found p ∉ evs)
    (hterm : ∀ st evs p, Inv st →
      (step st = StepRes.done evs ∨ step st = StepRes.crash evs) →
      Event.found p ∈ evs → P p) :
    ∀ fuel st p, Inv st → Event.found p ∈ (runFrom step fuel st).1 → P p := by
  intro fuel
  induction fuel with
  | zero => intro st p _ hmem; simp [runFrom] at hmem
  | succ n ih =>
    intro st p hinv hmem
    cases hstep : step st with
    | cont evs st' =>
      rw [runFrom, hstep] at hmem
      rcases List.mem_append.mp hmem with hmem | hmem
      · exact absurd hmem ((hcont st evs st' hinv hstep).2 p)
      · exact ih st' p (hcont st evs st' hinv hstep).1 hmem
    | done evs =>
      rw [runFrom, hstep] at hmem
      exact hterm st evs p hinv (Or.inl hstep) hmem
    | crash evs =>
      rw [runFrom, hstep] at hmem
      exact hterm st evs p hinv (Or.inr hstep) hmem

/-! ## C9: found-path soundness, BFS -/

theorem bfsExpand_inv {s cur : Coord} :
    ∀ (ns : List Coord) (st : BFSState), BFSPathInv s st → cur ∈ st.visited →
      (∀ n ∈ ns, manhattan cur n = 1) →
      BFSPathInv s (bfsExpand cur ns st) := by
  intro ns
  induction ns with
  | nil => intro st hinv _ _; exact hinv
  | cons n t ih =>
    intro st hinv hcur hadj
    by_cases hv : n ∈ st.visited
    · rw [bfsExpand, if_pos hv]
      exact ih st hinv hcur fun m hm => hadj m (by simp [hm])
    · rw [bfsExpand, if_neg hv]
      have hns : n ≠ s := fun hh => hv (hh ▸ hinv.svis)
      have hcurn : n ≠ cur := fun hh => hv (hh ▸ hcur)
      refine ih _ ?_ (by simp [hcur]) fun m hm => hadj m (by simp [hm])
      obtain ⟨hroot, hsvis, hqv, hvd, hch⟩ := hinv
      refine ⟨?_, by simp [hsvis], ?_, ?_, ?_⟩
      · exact (alookup_cons_ne hns).trans hroot
      · intro c hc
        simp only [List.mem_append, List.mem_singleton] at hc
        rcases hc with hc | rfl
        · exact List.mem_cons_of_mem _ (hqv c hc)
        · exact List.mem_cons_self _ _
      · intro c hc
        by_cases hnc : n = c
        · subst hnc; simp [alookup_cons_self]
        · rw [alookup_cons_ne hnc]
          rcases List.mem_cons.mp hc with rfl | hc
          · exact absurd rfl hnc
          · exact hvd c hc
      · intro v hvne
        by_cases hnv : n = v
        · subst hnv
          obtain ⟨lc, hlc, hlen, hnodes⟩ := hch cur (hvd cur hcur)
          have hnotin : n ∉ lc := by
            intro hmem
            rcases hnodes n hmem with rfl | hvis
            · exact hcurn rfl
            · exact hv hvis
          refine ⟨lc ++ [n], ?_, by simp; omega, ?_⟩
          · exact ChainL.step cur n lc alookup_cons_self (hadj n (by simp))
              (chainL_cons hlc hnotin)
          · intro x hx
            rcases List.mem_append.mp hx with hx | hx
            · rcases hnodes x hx with rfl | hvis
              · exact Or.inr (by simp [hcur])
              · exact Or.inr (by simp [hvis])
            · simp at hx; exact Or.inl hx
        · rw [alookup_cons_ne hnv] at hvne
          obtain ⟨l, hl, hlen, hnodes⟩ := hch v hvne
          have hnotin : n ∉ l := by
            intro hmem
            rcases hnodes n hmem with rfl | hvis
            · exact hnv rfl
            · exact hv hvis
          refine ⟨l, chainL_cons hl hnotin, by simp; omega, ?_⟩
          intro x hx
          rcases hnodes x hx with rfl | hvis
          · exact Or.inl rfl
          · exact Or.inr (by simp [hvis])

theorem bfs_found_pathOk (w h : Int) (s e : Coord) :
    ∀ fuel p, Event.found p ∈ (bfsRun fuel w h s e).1 → pathOk s e p := by
  have hinit : BFSPathInv s (bfsInit s) := by
    refine ⟨by simp [bfsInit, alookup], by simp [bfsInit], by simp [bfsInit],
      by simp [bfsInit, alookup], ?_⟩
    intro v hv
    have hvs : s = v := by
      by_contra hne
      rw [bfsInit] at hv
      simp only at hv
      rw [alookup_cons_ne hne] at hv
      exact hv rfl
    subst hvs
    exact ⟨[s], ChainL.base (by simp [bfsInit, alookup]), by simp [bfsInit],
      by simp⟩
  intro fuel p
  intro hmem
  refine run_found_sound (bfsStep w h e) (BFSPathInv s) (pathOk s e)
    ?_ ?_ fuel (bfsInit s) p hinit hmem
  · intro st evs st' hinv hstep
    obtain ⟨q, vis, par⟩ := st
    cases q with
    | nil => simp [bfsStep] at hstep
    | cons cur rest =>
      by_cases hce : cur = e
      · rw [bfsStep] at hstep
        simp only [if_pos hce] at hstep
        split at hstep <;> simp at hstep
      · rw [bfsStep] at hstep
        simp only [if_neg hce] at hstep
        simp only [StepRes.cont.injEq] at hstep
        obtain ⟨hevs, hst'⟩ := hstep
        constructor
        · rw [← hst']
          have hmid : BFSPathInv s (⟨rest, vis, par⟩ : BFSState) := by
            obtain ⟨hroot, hsvis, hqv, hvd, hch⟩ := hinv
            exact ⟨hroot, hsvis, fun c hc => hqv c (by simp [hc]), hvd, hch⟩
          refine bfsExpand_inv _ _ hmid (hinv.queueVis cur (by simp)) ?_
          intro n hn
          exact (mem_getNeighbors hn).1
        · intro p' hp'
          rw [← hevs] at hp'
          simp at hp'
  · intro st evs p' hinv hstep hm
    obtain ⟨q, vis, par⟩ := st
    cases q with
    | nil =>
      rcases hstep with hstep | hstep <;>
        (simp only [bfsStep] at hstep
         first
           | (simp only [StepRes.done.injEq] at hstep
              subst hstep
              simp at hm)
           | simp at hstep)
    | cons cur rest =>
      by_cases hce : cur = e
      · subst hce
        have hcur : cur ∈ vis := hinv.queueVis cur (by simp)
        obtain ⟨l, hl, hlen, hnds⟩ := hinv.chains cur (hinv.visDom cur hcur)
        have hlen' : l.length ≤ par.length := hlen
        have hrec2 : reconstruct (par.length + 1) par cur = some l :=
          reconstruct_of_chainL hl _ (by omega)
        have hbs : bfsStep w h cur ⟨cur :: rest, vis, par⟩ =
            StepRes.done [Event.exploring cur, Event.found l] := by
          simp [bfsStep, hrec2]
        rcases hstep with hstep | hstep
        · rw [hbs] at hstep
          simp only [StepRes.done.injEq] at hstep
          subst hstep
          simp only [List.mem_cons, List.not_mem_nil, or_false] at hm
          rcases hm with hm | hm
          · exact absurd hm (by simp)
          · obtain rfl : p' = l := by injection hm
            exact ⟨chainL_head hl, chainL_last hl, chainL_adj hl⟩
        · rw [hbs] at hstep
          simp at hstep
      · rcases hstep with hstep | hstep <;>
          (rw [bfsStep] at hstep
           simp only [if_neg hce] at hstep
           simp at hstep)

/-! ## C9: found-path soundness, DFS -/

theorem dfsExpand_inv {s cur : Coord} :
    ∀ (ns : List Coord) (st : DFSState), DFSPathInv s st → cur ∈ st.visited →
      (∀ n ∈ ns, manhattan cur n = 1) →
      DFSPathInv s (dfsExpand cur ns st) := by
  intro ns
  induction ns with
  | nil => intro st hinv _ _; exact hinv
  | cons n t ih =>
    intro st hinv hcur hadj
    by_cases hv : n ∈ st.visited
    · rw [dfsExpand, if_pos hv]
      exact ih st hinv hcur fun m hm => hadj m (by simp [hm])
    · rw [dfsExpand, if_neg hv]
      have hns : n ≠ s := fun hh => hv (hh ▸ hinv.svis)
      have hcurn : n ≠ cur := fun hh => hv (hh ▸ hcur)
      refine ih _ ?_ (by simp [hcur]) fun m hm => hadj m (by simp [hm])
      obtain ⟨hroot, hsvis, hqv, hvd, hch⟩ := hinv
      refine ⟨?_, by simp [hsvis], ?_, ?_, ?_⟩
      · exact (alookup_cons_ne hns).trans hroot
      · intro c hc
        simp only [List.mem_cons] at hc
        rcases hc with rfl | hc
        · exact List.mem_cons_self _ _
        · exact List.mem_cons_of_mem _ (hqv c hc)
      · intro c hc
        by_cases hnc : n = c
        · subst hnc; simp [alookup_cons_self]
        · rw [alookup_cons_ne hnc]
          rcases List.mem_cons.mp hc with rfl | hc
          · exact absurd rfl hnc
          · exact hvd c hc
      · intro v hvne
        by_cases hnv : n = v
        · subst hnv
          obtain ⟨lc, hlc, hlen, hnodes⟩ := hch cur (hvd cur hcur)
          have hnotin : n ∉ lc := by
            intro hmem
            rcases hnodes n hmem with rfl | hvis
            · exact hcurn rfl
            · exact hv hvis
          refine ⟨lc ++ [n], ?_, by simp; omega, ?_⟩
          · exact ChainL.step cur n lc alookup_cons_self (hadj n (by simp))
              (chainL_cons hlc hnotin)
          · intro x hx
            rcases List.mem_append.mp hx with hx | hx
            · rcases hnodes x hx with rfl | hvis
              · exact Or.inr (by simp [hcur])
              · exact Or.inr (by simp [hvis])
            · simp at hx; exact Or.inl hx
        · rw [alookup_cons_ne hnv] at hvne
          obtain ⟨l, hl, hlen, hnodes⟩ := hch v hvne
          have hnotin : n ∉ l := by
            intro hmem
            rcases hnodes n hmem with rfl | hvis
            · exact hnv rfl
            · exact hv hvis
          refine ⟨l, chainL_cons hl hnotin, by simp; omega, ?_⟩
          intro x hx
          rcases hnodes x hx with rfl | hvis
          · exact Or.inl rfl
          · exact Or.inr (by simp [hvis])

theorem dfs_found_pathOk (w h : Int) (s e : Coord) :
    ∀ fuel p, Event.found p ∈ (dfsRun fuel w h s e).1 → pathOk s e p := by
  have hinit : DFSPathInv s (dfsInit s) := by
    refine ⟨by simp [dfsInit, alookup], by simp [dfsInit], by simp [dfsInit],
      by simp [dfsInit, alookup], ?_⟩
    intro v hv
    have hvs : s = v := by
      by_contra hne
      rw [dfsInit] at hv
      simp only at hv
      rw [alookup_cons_ne hne] at hv
      exact hv rfl
    subst hvs
    exact ⟨[s], ChainL.base (by simp [dfsInit, alookup]), by simp [dfsInit],
      by simp⟩
  intro fuel p
  intro hmem
  refine run_found_sound (dfsStep w h e) (DFSPathInv s) (pathOk s e)
    ?_ ?_ fuel (dfsInit s) p hinit hmem
  · intro st evs st' hinv hstep
    obtain ⟨q, vis, par⟩ := st
    cases q with
    | nil => simp [dfsStep] at hstep
    | cons cur rest =>
      by_cases hce : cur = e
      · rw [dfsStep] at hstep
        simp only [if_pos hce] at hstep
        split at hstep <;> simp at hstep
      · rw [dfsStep] at hstep
        simp only [if_neg hce] at hstep
        simp only [StepRes.cont.injEq] at hstep
        obtain ⟨hevs, hst'⟩ := hstep
        constructor
        · rw [← hst']
          have hmid : DFSPathInv s (⟨rest, vis, par⟩ : DFSState) := by
            obtain ⟨hroot, hsvis, hqv, hvd, hch⟩ := hinv
            exact ⟨hroot, hsvis, fun c hc => hqv c (by simp [hc]), hvd, hch⟩
          refine dfsExpand_inv _ _ hmid (hinv.stackVis cur (by simp)) ?_
          intro n hn
          exact (mem_getNeighbors (List.mem_reverse.mp hn)).1
        · intro p' hp'
          rw [← hevs] at hp'
          simp at hp'
  · intro st evs p' hinv hstep hm
    obtain ⟨q, vis, par⟩ := st
    cases q with
    | nil =>
      rcases hstep with hstep | hstep <;>
        (simp only [dfsStep] at hstep
         first
           | (simp only [StepRes.done.injEq] at hstep
              subst hstep
              simp at hm)
           | simp at hstep)
    | cons cur rest =>
      by_cases hce : cur = e
      · subst hce
        have hcur : cur ∈ vis := hinv.stackVis cur (by simp)
        obtain ⟨l, hl, hlen, hnds⟩ := hinv.chains cur (hinv.visDom cur hcur)
        have hlen' : l.length ≤ par.length := hlen
        have hrec2 : reconstruct (par.length + 1) par cur = some l :=
          reconstruct_of_chainL hl _ (by omega)
        have hbs : dfsStep w h cur ⟨cur :: rest, vis, par⟩ =
            StepRes.done [Event.exploring cur, Event.found l] := by
          simp [dfsStep, hrec2]
        rcases hstep with hstep | hstep
        · rw [hbs] at hstep
          simp only [StepRes.done.injEq] at hstep
          subst hstep
          simp only [List.mem_cons, List.not_mem_nil, or_false] at hm
          rcases hm with hm | hm
          · exact absurd hm (by simp)
          · obtain rfl : p' = l := by injection hm
            exact ⟨chainL_head hl, chainL_last hl, chainL_adj hl⟩
        · rw [hbs] at hstep
          simp at hstep
      · rcases hstep with hstep | hstep <;>
          (rw [dfsStep] at hstep
           simp only [if_neg hce] at hstep
           simp at hstep)

/-! ## C9: found-path soundness, greedy best-first -/

theorem visChain_mono {par : ParentMap} {s : Coord} {v1 v2 : List Coord}
    (hsub : ∀ x ∈ v1, x ∈ v2) (h : VisChain par s v1) : VisChain par s v2 := by
  intro v hv
  obtain ⟨l, hl, hlen, hnodes⟩ := h v hv
  refine ⟨l, hl, hlen, fun x hx => ?_⟩
  rcases hnodes x hx with rfl | hvis
  · exact Or.inl rfl
  · exact Or.inr (hsub x hvis)

theorem greedyExpand_inv {s e cur : Coord} :
    ∀ (ns : List Coord) (st : GreedyState), GreedyPathInv s st →
      cur ∈ st.visited → alookup st.parent cur ≠ none →
      (∀ n ∈ ns, manhattan cur n = 1) →
      GreedyPathInv s (greedyExpand e cur ns st) := by
  intro ns
  induction ns with
  | nil => intro st hinv _ _ _; exact hinv
  | cons n t ih =>
    intro st hinv hcur hcdom hadj
    by_cases hv : n ∈ st.visited
    · rw [greedyExpand, if_pos hv]
      exact ih st hinv hcur hcdom fun m hm => hadj m (by simp [hm])
    · rw [greedyExpand, if_neg hv]
      have hns : n ≠ s := fun hh => hv (hh ▸ hinv.svis)
      have hcurn : n ≠ cur := fun hh => hv (hh ▸ hcur)
      refine ih _ ?_ (by simp [hcur]) ?_ fun m hm => hadj m (by simp [hm])
      · obtain ⟨hroot, hsvis, hpq, hch⟩ := hinv
        refine ⟨(alookup_cons_ne hns).trans hroot, hsvis, ?_, ?_⟩
        · intro kc hkc
          rcases mem_insertSorted _ _ _ _ hkc with rfl | hkc
          · simp [alookup_cons_self]
          · by_cases hnc : n = kc.2
            · subst hnc; simp [alookup_cons_self]
            · rw [alookup_cons_ne hnc]; exact hpq kc hkc
        · intro v hvne
          by_cases hnv : n = v
          · subst hnv
            obtain ⟨lc, hlc, hlen, hnodes⟩ := hch cur hcdom
            have hnotin : n ∉ lc := by
              intro hmem
              rcases hnodes n hmem with rfl | hvis
              · exact hcurn rfl
              · exact hv hvis
            refine ⟨lc ++ [n], ?_, by simp; omega, ?_⟩
            · exact ChainL.step cur n lc alookup_cons_self (hadj n (by simp))
                (chainL_cons hlc hnotin)
            · intro x hx
              rcases List.mem_append.mp hx with hx | hx
              · rcases hnodes x hx with rfl | hvis
                · exact Or.inr hcur
                · exact Or.inr hvis
              · simp at hx; exact Or.inl hx
          · rw [alookup_cons_ne hnv] at hvne
            obtain ⟨l, hl, hlen, hnodes⟩ := hch v hvne
            have hnotin : n ∉ l := by
              intro hmem
              rcases hnodes n hmem with rfl | hvis
              · exact hnv rfl
              · exact hv hvis
            refine ⟨l, chainL_cons hl hnotin, by simp; omega, ?_⟩
            intro x hx
            rcases hnodes x hx with rfl | hvis
            · exact Or.inl rfl
            · exact Or.inr hvis
      · by_cases hnc : n = cur
        · subst hnc; simp [alookup_cons_self]
        · rw [alookup_cons_ne hnc]; exact hcdom

theorem greedy_found_pathOk (w h : Int) (s e : Coord) :
    ∀ fuel p, Event.found p ∈ (greedyRun fuel w h s e).1 → pathOk s e p := by
  intro fuel p hmem
  refine run_found_sound (greedyStep w h e) (GreedyPathInvO s) (pathOk s e)
    ?_ ?_ fuel (greedyInit s) p (Or.inl (by simp [greedyInit])) hmem
  · intro st evs st' hinv hstep
    obtain ⟨pq, vis, par, log⟩ := st
    rcases hinv with ⟨hpq0, hvis0, hpar0⟩ | hinv
    · simp only at hpq0 hvis0 hpar0
      subst hpq0; subst hvis0; subst hpar0
      by_cases hce : s = e
      · rw [greedyStep] at hstep
        simp only [List.not_mem_nil, if_neg (fun hh => hh : ¬False)] at hstep
        simp only [if_pos hce] at hstep
        split at hstep <;> simp at hstep
      · rw [greedyStep] at hstep
        have hnm : ¬ s ∈ ([] : List Coord) := by simp
        simp only [if_neg hnm, if_neg hce] at hstep
        simp only [StepRes.cont.injEq] at hstep
        obtain ⟨hevs, hst'⟩ := hstep
        refine ⟨?_, ?_⟩
        · rw [← hst']
          refine Or.inr (greedyExpand_inv _ _ ?_ (by simp) (by simp [alookup]) ?_)
          · refine ⟨by simp [alookup], by simp, by simp, ?_⟩
            intro v hv
            have hvs : s = v := by
              by_contra hne
              simp only at hv
              rw [alookup_cons_ne hne] at hv
              exact hv rfl
            subst hvs
            exact ⟨[s], ChainL.base (by simp [alookup]), by simp, by simp⟩
          · intro n hn
            exact (mem_getNeighbors hn).1
        · intro p' hp'
          rw [← hevs] at hp'
          simp at hp'
    · obtain ⟨hroot, hsvis, hpqd, hch⟩ := hinv
      cases pq with
      | nil => simp [greedyStep] at hstep
      | cons kc rest =>
        obtain ⟨k, cur⟩ := kc
        by_cases hv : cur ∈ vis
        · rw [greedyStep] at hstep
          simp only [if_pos hv] at hstep
          simp only [StepRes.cont.injEq] at hstep
          obtain ⟨hevs, hst'⟩ := hstep
          refine ⟨?_, ?_⟩
          · rw [← hst']
            exact Or.inr ⟨hroot, hsvis, fun c hc => hpqd c (by simp [hc]), hch⟩
          · intro p' hp'
            rw [← hevs] at hp'
            simp at hp'
        · by_cases hce : cur = e
          · rw [greedyStep] at hstep
            simp only [if_neg hv, if_pos hce] at hstep
            split at hstep <;> simp at hstep
          · rw [greedyStep] at hstep
            simp only [if_neg hv, if_neg hce] at hstep
            simp only [StepRes.cont.injEq] at hstep
            obtain ⟨hevs, hst'⟩ := hstep
            refine ⟨?_, ?_⟩
            · rw [← hst']
              refine Or.inr (greedyExpand_inv _ _ ?_ (by simp) ?_ ?_)
              · refine ⟨hroot, by simp [hsvis], fun c hc => hpqd c (by simp [hc]), ?_⟩
                exact visChain_mono (fun x hx => by simp [hx]) hch
              · exact hpqd (k, cur) (by simp)
              · intro n hn
                exact (mem_getNeighbors hn).1
            · intro p' hp'
              rw [← hevs] at hp'
              simp at hp'
  · intro st evs p' hinv hstep hm
    obtain ⟨pq, vis, par, log⟩ := st
    have hparfacts : alookup par s = some none ∧ ∀ kc ∈ pq, alookup par kc.2 ≠ none := by
      rcases hinv with ⟨hpq0, hvis0, hpar0⟩ | hinv
      · simp only at hpq0 hvis0 hpar0
        subst hpq0; subst hpar0
        exact ⟨by simp [alookup], by intro kc hkc; simp at hkc; simp [hkc, alookup]⟩
      · exact ⟨hinv.sroot, hinv.pqDom⟩
    have hch : VisChain par s vis ∨ (par = [(s, none)]) := by
      rcases hinv with ⟨hpq0, hvis0, hpar0⟩ | hinv
      · exact Or.inr hpar0
      · exact Or.inl hinv.chains
    cases pq with
    | nil =>
      rcases hstep with hstep | hstep <;>
        (rw [greedyStep] at hstep
         first
           | (simp only [StepRes.done.injEq] at hstep
              subst hstep
              simp at hm)
           | simp at hstep)
    | cons kc rest =>
      obtain ⟨k, cur⟩ := kc
      by_cases hv : cur ∈ vis
      · rcases hstep with hstep | hstep <;>
          (rw [greedyStep] at hstep
           simp only [if_pos hv] at hstep
           simp at hstep)
      · by_cases hce : cur = e
        · subst hce
          have hcdom : alookup par cur ≠ none := hparfacts.2 (k, cur) (by simp)
          obtain ⟨l, hl, hlen, _⟩ : ∃ l, ChainL par s cur l ∧ l.length ≤ par.length ∧
              ∀ x ∈ l, x = cur ∨ x ∈ vis := by
            rcases hch with hch | hpar0
            · exact hch cur hcdom
            · subst hpar0
              have : s = cur := by
                by_contra hne
                rw [alookup_cons_ne hne] at hcdom
                exact hcdom rfl
              subst this
              exact ⟨[s], ChainL.base (by simp [alookup]), by simp, by simp⟩
          have hlen' : l.length ≤ par.length := hlen
          have hrec2 : reconstruct (par.length + 1) par cur = some l :=
            reconstruct_of_chainL hl _ (by omega)
          have hbs : greedyStep w h cur ⟨(k, cur) :: rest, vis, par, log⟩ =
              StepRes.done [Event.exploring cur, Event.found l] := by
            simp [greedyStep, hrec2, hv]
          rcases hstep with hstep | hstep
          · rw [hbs] at hstep
            simp only [StepRes.done.injEq] at hstep
            subst hstep
            simp only [List.mem_cons, List.not_mem_nil, or_false] at hm
            rcases hm with hm | hm
            · exact absurd hm (by simp)
            · obtain rfl : p' = l := by injection hm
              exact ⟨chainL_head hl, chainL_last hl, chainL_adj hl⟩
          · rw [hbs] at hstep
            simp at hstep
        · rcases hstep with hstep | hstep <;>
            (rw [greedyStep] at hstep
             simp only [if_neg hv, if_neg hce] at hstep
             simp at hstep)

/-! ## C9: found-path soundness, Dijkstra -/

theorem dijkstraRelax_inv {s cur : Coord} {curCost : Nat} :
    ∀ (ns : List Coord) (st : DijkstraState), DijkstraPathInv s st →
      cur ∈ st.visited → alookup st.parent cur ≠ none →
      (∀ n ∈ ns, manhattan cur n = 1) →
      DijkstraPathInv s (dijkstraRelax cur curCost ns st) := by
  intro ns
  induction ns with
  | nil => intro st hinv _ _ _; exact hinv
  | cons n t ih =>
    intro st hinv hcur hcdom hadj
    by_cases hv : n ∈ st.visited
    · rw [dijkstraRelax, if_pos hv]
      exact ih st hinv hcur hcdom fun m hm => hadj m (by simp [hm])
    · rw [dijkstraRelax, if_neg hv]
      by_cases himp : (match alookup st.cost n with
          | none => true
          | some old => decide (curCost + 1 < old)) = true
      · rw [if_pos himp]
        have hns : n ≠ s := by
          intro hh
          subst hh
          rw [hinv.scost] at himp
          simp at himp
        have hcurn : n ≠ cur := fun hh => hv (hh ▸ hcur)
        refine ih _ ?_ (by simp [hcur]) ?_ fun m hm => hadj m (by simp [hm])
        · obtain ⟨hroot, hcost, hpq, hch⟩ := hinv
          refine ⟨(alookup_cons_ne hns).trans hroot,
            (alookup_cons_ne hns).trans hcost, ?_, ?_⟩
          · intro kc hkc
            rcases mem_insertSorted _ _ _ _ hkc with rfl | hkc
            · simp [alookup_cons_self]
            · by_cases hnc : n = kc.2
              · subst hnc; simp [alookup_cons_self]
              · rw [alookup_cons_ne hnc]; exact hpq kc hkc
          · intro v hvne
            by_cases hnv : n = v
            · subst hnv
              obtain ⟨lc, hlc, hlen, hnodes⟩ := hch cur hcdom
              have hnotin : n ∉ lc := by
                intro hmem
                rcases hnodes n hmem with rfl | hvis
                · exact hcurn rfl
                · exact hv hvis
              refine ⟨lc ++ [n], ?_, by simp; omega, ?_⟩
              · exact ChainL.step cur n lc alookup_cons_self (hadj n (by simp))
                  (chainL_cons hlc hnotin)
              · intro x hx
                rcases List.mem_append.mp hx with hx | hx
                · rcases hnodes x hx with rfl | hvis
                  · exact Or.inr hcur
                  · exact Or.inr hvis
                · simp at hx; exact Or.inl hx
            · rw [alookup_cons_ne hnv] at hvne
              obtain ⟨l, hl, hlen, hnodes⟩ := hch v hvne
              have hnotin : n ∉ l := by
                intro hmem
                rcases hnodes n hmem with rfl | hvis
                · exact hnv rfl
                · exact hv hvis
              refine ⟨l, chainL_cons hl hnotin, by simp; omega, ?_⟩
              intro x hx
              rcases hnodes x hx with rfl | hvis
              · exact Or.inl rfl
              · exact Or.inr hvis
        · by_cases hnc : n = cur
          · subst hnc; simp [alookup_cons_self]
          · rw [alookup_cons_ne hnc]; exact hcdom
      · rw [if_neg himp]
        exact ih st hinv hcur hcdom fun m hm => hadj m (by simp [hm])

theorem dijkstra_found_pathOk (w h : Int) (s e : Coord) :
    ∀ fuel p, Event.found p ∈ (dijkstraRun fuel w h s e).1 → pathOk s e p := by
  have hinit : DijkstraPathInv s (dijkstraInit s) := by
    refine ⟨by simp [dijkstraInit, alookup], by simp [dijkstraInit, alookup],
      ?_, ?_⟩
    · intro kc hkc
      simp [dijkstraInit] at hkc
      simp [hkc, alookup]
    · intro v hv
      have hvs : s = v := by
        by_contra hne
        rw [dijkstraInit] at hv
        simp only at hv
        rw [alookup_cons_ne hne] at hv
        exact hv rfl
      subst hvs
      exact ⟨[s], ChainL.base (by simp [dijkstraInit, alookup]),
        by simp [dijkstraInit], by simp⟩
  intro fuel p hmem
  refine run_found_sound (dijkstraStep w h e) (DijkstraPathInv s) (pathOk s e)
    ?_ ?_ fuel (dijkstraInit s) p hinit hmem
  · intro st evs st' hinv hstep
    obtain ⟨pq, vis, par, cost⟩ := st
    cases pq with
    | nil => simp [dijkstraStep] at hstep
    | cons kc rest =>
      obtain ⟨k, cur⟩ := kc
      by_cases hv : cur ∈ vis
      · rw [dijkstraStep] at hstep
        simp only [if_pos hv] at hstep
        simp only [StepRes.cont.injEq] at hstep
        obtain ⟨hevs, hst'⟩ := hstep
        refine ⟨?_, ?_⟩
        · rw [← hst']
          exact ⟨hinv.sroot, hinv.scost,
            fun c hc => hinv.pqDom c (by simp [hc]), hinv.chains⟩
        · intro p' hp'
          rw [← hevs] at hp'
          simp at hp'
      · by_cases hce : cur = e
        · rw [dijkstraStep] at hstep
          simp only [if_neg hv, if_pos hce] at hstep
          split at hstep <;> simp at hstep
        · rw [dijkstraStep] at hstep
          simp only [if_neg hv, if_neg hce] at hstep
          simp only [StepRes.cont.injEq] at hstep
          obtain ⟨hevs, hst'⟩ := hstep
          refine ⟨?_, ?_⟩
          · rw [← hst']
            refine dijkstraRelax_inv _ _ ?_ (by simp) ?_ ?_
            · refine ⟨hinv.sroot, hinv.scost,
                fun c hc => hinv.pqDom c (by simp [hc]), ?_⟩
              exact visChain_mono (fun x hx => by simp [hx]) hinv.chains
            · exact hinv.pqDom (k, cur) (by simp)
            · intro n hn
              exact (mem_getNeighbors hn).1
          · intro p' hp'
            rw [← hevs] at hp'
            simp at hp'
  · intro st evs p' hinv hstep hm
    obtain ⟨pq, vis, par, cost⟩ := st
    cases pq with
    | nil =>
      rcases hstep with hstep | hstep <;>
        (rw [dijkstraStep] at hstep
         first
           | (simp only [StepRes.done.injEq] at hstep
              subst hstep
              simp at hm)
           | simp at hstep)
    | cons kc rest =>
      obtain ⟨k, cur⟩ := kc
      by_cases hv : cur ∈ vis
      · rcases hstep with hstep | hstep <;>
          (rw [dijkstraStep] at hstep
           simp only [if_pos hv] at hstep
           simp at hstep)
      · by_cases hce : cur = e
        · subst hce
          have hcdom : alookup par cur ≠ none := hinv.pqDom (k, cur) (by simp)
          obtain ⟨l, hl, hlen, hnds⟩ := hinv.chains cur hcdom
          have hlen' : l.length ≤ par.length := hlen
          have hrec2 : reconstruct (par.length + 1) par cur = some l :=
            reconstruct_of_chainL hl _ (by omega)
          have hbs : dijkstraStep w h cur ⟨(k, cur) :: rest, vis, par, cost⟩ =
              StepRes.done [Event.exploring cur, Event.found l] := by
            simp [dijkstraStep, hrec2, hv]
          rcases hstep with hstep | hstep
          · rw [hbs] at hstep
            simp only [StepRes.done.injEq] at hstep
            subst hstep
            simp only [List.mem_cons, List.not_mem_nil, or_false] at hm
            rcases hm with hm | hm
            · exact absurd hm (by simp)
            · obtain rfl : p' = l := by injection hm
              exact ⟨chainL_head hl, chainL_last hl, chainL_adj hl⟩
          · rw [hbs] at hstep
            simp at hstep
        · rcases hstep with hstep | hstep <;>
            (rw [dijkstraStep] at hstep
             simp only [if_neg hv, if_neg hce] at hstep
             simp at hstep)

/-! ## C9: found-path soundness, A* -/

theorem astarRelax_inv {s e cur : Coord} {curG : Nat} :
    ∀ (ns : List Coord) (st : AStarState), AStarPathInv s st →
      cur ∈ st.visited → alookup st.parent cur ≠ none →
      (∀ n ∈ ns, manhattan cur n = 1) →
      AStarPathInv s (astarRelax e cur curG ns st) := by
  intro ns
  induction ns with
  | nil => intro st hinv _ _ _; exact hinv
  | cons n t ih =>
    intro st hinv hcur hcdom hadj
    by_cases hv : n ∈ st.visited
    · rw [astarRelax, if_pos hv]
      exact ih st hinv hcur hcdom fun m hm => hadj m (by simp [hm])
    · rw [astarRelax, if_neg hv]
      by_cases himp : (match alookup st.gScore n with
          | none => true
          | some old => decide (curG + 1 < old)) = true
      · rw [if_pos himp]
        have hns : n ≠ s := by
          intro hh
          subst hh
          rw [hinv.sg] at himp
          simp at himp
        have hcurn : n ≠ cur := fun hh => hv (hh ▸ hcur)
        refine ih _ ?_ (by simp [hcur]) ?_ fun m hm => hadj m (by simp [hm])
        · obtain ⟨hroot, hg, hpq, hch⟩ := hinv
          refine ⟨(alookup_cons_ne hns).trans hroot,
            (alookup_cons_ne hns).trans hg, ?_, ?_⟩
          · intro kc hkc
            rcases mem_insertSorted _ _ _ _ hkc with rfl | hkc
            · simp [alookup_cons_self]
            · by_cases hnc : n = kc.2.2
              · subst hnc; simp [alookup_cons_self]
              · rw [alookup_cons_ne hnc]; exact hpq kc hkc
          · intro v hvne
            by_cases hnv : n = v
            · subst hnv
              obtain ⟨lc, hlc, hlen, hnodes⟩ := hch cur hcdom
              have hnotin : n ∉ lc := by
                intro hmem
                rcases hnodes n hmem with rfl | hvis
                · exact hcurn rfl
                · exact hv hvis
              refine ⟨lc ++ [n], ?_, by simp; omega, ?_⟩
              · exact ChainL.step cur n lc alookup_cons_self (hadj n (by simp))
                  (chainL_cons hlc hnotin)
              · intro x hx
                rcases List.mem_append.mp hx with hx | hx
                · rcases hnodes x hx with rfl | hvis
                  · exact Or.inr hcur
                  · exact Or.inr hvis
                · simp at hx; exact Or.inl hx
            · rw [alookup_cons_ne hnv] at hvne
              obtain ⟨l, hl, hlen, hnodes⟩ := hch v hvne
              have hnotin : n ∉ l := by
                intro hmem
                rcases hnodes n hmem with rfl | hvis
                · exact hnv rfl
                · exact hv hvis
              refine ⟨l, chainL_cons hl hnotin, by simp; omega, ?_⟩
              intro x hx
              rcases hnodes x hx with rfl | hvis
              · exact Or.inl rfl
              · exact Or.inr hvis
        · by_cases hnc : n = cur
          · subst hnc; simp [alookup_cons_self]
          · rw [alookup_cons_ne hnc]; exact hcdom
      · rw [if_neg himp]
        exact ih st hinv hcur hcdom fun m hm => hadj m (by simp [hm])

theorem astar_found_pathOk (w h : Int) (s e : Coord) :
    ∀ fuel p, Event.found p ∈ (astarRun fuel w h s e).1 → pathOk s e p := by
  have hinit : AStarPathInv s (astarInit s) := by
    refine ⟨by simp [astarInit, alookup], by simp [astarInit, alookup],
      ?_, ?_⟩
    · intro kc hkc
      simp [astarInit] at hkc
      simp [hkc, alookup]
    · intro v hv
      have hvs : s = v := by
        by_contra hne
        rw [astarInit] at hv
        simp only at hv
        rw [alookup_cons_ne hne] at hv
        exact hv rfl
      subst hvs
      exact ⟨[s], ChainL.base (by simp [astarInit, alookup]),
        by simp [astarInit], by simp⟩
  intro fuel p hmem
  refine run_found_sound (astarStep w h e) (AStarPathInv s) (pathOk s e)
    ?_ ?_ fuel (astarInit s) p hinit hmem
  · intro st evs st' hinv hstep
    obtain ⟨pq, vis, par, cost⟩ := st
    cases pq with
    | nil => simp [astarStep] at hstep
    | cons kc rest =>
      obtain ⟨k, kg, cur⟩ := kc
      by_cases hv : cur ∈ vis
      · rw [astarStep] at hstep
        simp only [if_pos hv] at hstep
        simp only [StepRes.cont.injEq] at hstep
        obtain ⟨hevs, hst'⟩ := hstep
        refine ⟨?_, ?_⟩
        · rw [← hst']
          exact ⟨hinv.sroot, hinv.sg,
            fun c hc => hinv.pqDom c (by simp [hc]), hinv.chains⟩
        · intro p' hp'
          rw [← hevs] at hp'
          simp at hp'
      · by_cases hce : cur = e
        · rw [astarStep] at hstep
          simp only [if_neg hv, if_pos hce] at hstep
          split at hstep <;> simp at hstep
        · rw [astarStep] at hstep
          simp only [if_neg hv, if_neg hce] at hstep
          simp only [StepRes.cont.injEq] at hstep
          obtain ⟨hevs, hst'⟩ := hstep
          refine ⟨?_, ?_⟩
          · rw [← hst']
            refine astarRelax_inv _ _ ?_ (by simp) ?_ ?_
            · refine ⟨hinv.sroot, hinv.sg,
                fun c hc => hinv.pqDom c (by simp [hc]), ?_⟩
              exact visChain_mono (fun x hx => by simp [hx]) hinv.chains
            · exact hinv.pqDom (k, kg, cur) (by simp)
            · intro n hn
              exact (mem_getNeighbors hn).1
          · intro p' hp'
            rw [← hevs] at hp'
            simp at hp'
  · intro st evs p' hinv hstep hm
    obtain ⟨pq, vis, par, cost⟩ := st
    cases pq with
    | nil =>
      rcases hstep with hstep | hstep <;>
        (rw [astarStep] at hstep
         first
           | (simp only [StepRes.done.injEq] at hstep
              subst hstep
              simp at hm)
           | simp at hstep)
    | cons kc rest =>
      obtain ⟨k, kg, cur⟩ := kc
      by_cases hv : cur ∈ vis
      · rcases hstep with hstep | hstep <;>
          (rw [astarStep] at hstep
           simp only [if_pos hv] at hstep
           simp at hstep)
      · by_cases hce : cur = e
        · subst hce
          have hcdom : alookup par cur ≠ none := hinv.pqDom (k, kg, cur) (by simp)
          obtain ⟨l, hl, hlen, hnds⟩ := hinv.chains cur hcdom
          have hlen' : l.length ≤ par.length := hlen
          have hrec2 : reconstruct (par.length + 1) par cur = some l :=
            reconstruct_of_chainL hl _ (by omega)
          have hbs : astarStep w h cur ⟨(k, kg, cur) :: rest, vis, par, cost⟩ =
              StepRes.done [Event.exploring cur, Event.found l] := by
            simp [astarStep, hrec2, hv]
          rcases hstep with hstep | hstep
          · rw [hbs] at hstep
            simp only [StepRes.done.injEq] at hstep
            subst hstep
            simp only [List.mem_cons, List.not_mem_nil, or_false] at hm
            rcases hm with hm | hm
            · exact absurd hm (by simp)
            · obtain rfl : p' = l := by injection hm
              exact ⟨chainL_head hl, chainL_last hl, chainL_adj hl⟩
          · rw [hbs] at hstep
            simp at hstep
        · rcases hstep with hstep | hstep <;>
            (rw [astarStep] at hstep
             simp only [if_neg hv, if_neg hce] at hstep
             simp at hstep)

/-! ## C9: found-path soundness, jump point search -/

theorem manhattan_eq_zero {a b : Coord} (h : manhattan a b = 0) : a = b := by
  obtain ⟨ax, ay⟩ := a
  obtain ⟨bx, by'⟩ := b
  simp only [manhattan, Prod.mk.injEq] at h ⊢
  omega

set_option maxHeartbeats 1000000 in
theorem jump_spec {cur goal d : Coord} {w h : Int} {vis : List Coord}
    {p : Coord} (hd : d ∈ directions)
    (hp : jump cur d goal w h vis = some p) :
    1 ≤ manhattan cur p ∧ manhattan cur p ≤ 4 ∧ inBoundsB w h p = true ∧
      (p.1 = cur.1 ∨ p.2 = cur.2) := by
  simp only [directions, List.mem_cons, List.not_mem_nil, or_false] at hd
  rcases hd with rfl | rfl | rfl | rfl <;>
    (unfold jump at hp
     dsimp only [] at hp
     split_ifs at hp <;> injection hp with hX <;>
       (subst hX
        refine ⟨?_, ?_, by assumption, ?_⟩ <;>
          (simp [manhattan]
           try omega)))

theorem jump_ne {cur goal d : Coord} {w h : Int} {vis : List Coord}
    {p : Coord} (hd : d ∈ directions)
    (hp : jump cur d goal w h vis = some p) : cur ≠ p := by
  intro hh
  subst hh
  have h1 := (jump_spec hd hp).1
  simp [manhattan_self] at h1

theorem fillWalk_spec :
    ∀ (k : Nat) (c v : Coord) (dx dy : Int),
      ((dy = 0 ∧ c.2 = v.2 ∧ ((dx = 1 ∧ c.1 < v.1) ∨ (dx = -1 ∧ v.1 < c.1))) ∨
        (dx = 0 ∧ c.1 = v.1 ∧ ((dy = 1 ∧ c.2 < v.2) ∨ (dy = -1 ∧ v.2 < c.2)))) →
      manhattan c v = k →
      ∃ mids, fillWalk dx dy k c v = some mids ∧
        List.Chain' (fun a b => manhattan a b = 1) (c :: mids ++ [v]) := by
  intro k
  induction k with
  | zero =>
    intro c v dx dy hcond hman
    simp only [manhattan] at hman
    rcases hcond with ⟨h0, heq2, hc⟩ | ⟨h0, heq2, hc⟩ <;>
      rcases hc with ⟨hd1, hlt⟩ | ⟨hd1, hlt⟩ <;> omega
  | succ n ih =>
    intro c v dx dy hcond hman
    have hne : c ≠ v := by
      intro hh
      subst hh
      rcases hcond with ⟨h0, heq2, hc⟩ | ⟨h0, heq2, hc⟩ <;>
        rcases hc with ⟨hd1, hlt⟩ | ⟨hd1, hlt⟩ <;> omega
    set c' : Coord := (c.1 + dx, c.2 + dy) with hc'
    by_cases hhit : c' = v
    · refine ⟨[], ?_, ?_⟩
      · rw [fillWalk, if_neg hne, if_pos hhit]
      · show List.Chain' (fun a b => manhattan a b = 1) [c, v]
        refine List.chain'_pair.mpr ?_
        rw [← hhit, hc']
        rcases hcond with ⟨h0, heq2, hc⟩ | ⟨h0, heq2, hc⟩ <;>
          rcases hc with ⟨hd1, hlt⟩ | ⟨hd1, hlt⟩ <;>
            (simp [manhattan, h0, hd1]
             try omega)
    · have hcond' :
          ((dy = 0 ∧ c'.2 = v.2 ∧ ((dx = 1 ∧ c'.1 < v.1) ∨ (dx = -1 ∧ v.1 < c'.1))) ∨
            (dx = 0 ∧ c'.1 = v.1 ∧ ((dy = 1 ∧ c'.2 < v.2) ∨ (dy = -1 ∧ v.2 < c'.2)))) := by
        rcases hcond with ⟨h0, heq2, hc⟩ | ⟨h0, heq2, hc⟩
        · left
          refine ⟨h0, by simp [hc', h0, heq2], ?_⟩
          rcases hc with ⟨hd1, hlt⟩ | ⟨hd1, hlt⟩
          · left
            refine ⟨hd1, ?_⟩
            have hne1 : c'.1 ≠ v.1 := by
              intro hh
              exact hhit (Prod.ext hh (by simp [hc', h0, heq2]))
            simp only [hc', hd1] at hne1 ⊢
            simp at hne1 ⊢
            omega
          · right
            refine ⟨hd1, ?_⟩
            have hne1 : c'.1 ≠ v.1 := by
              intro hh
              exact hhit (Prod.ext hh (by simp [hc', h0, heq2]))
            simp only [hc', hd1] at hne1 ⊢
            simp at hne1 ⊢
            omega
        · right
          refine ⟨h0, by simp [hc', h0, heq2], ?_⟩
          rcases hc with ⟨hd1, hlt⟩ | ⟨hd1, hlt⟩
          · left
            refine ⟨hd1, ?_⟩
            have hne2 : c'.2 ≠ v.2 := by
              intro hh
              exact hhit (Prod.ext (by simp [hc', h0, heq2]) hh)
            simp only [hc', hd1] at hne2 ⊢
            simp at hne2 ⊢
            omega
          · right
            refine ⟨hd1, ?_⟩
            have hne2 : c'.2 ≠ v.2 := by
              intro hh
              exact hhit (Prod.ext (by simp [hc', h0, heq2]) hh)
            simp only [hc', hd1] at hne2 ⊢
            simp at hne2 ⊢
            omega
      have hman' : manhattan c' v = n := by
        rcases hcond with ⟨h0, heq2, hc⟩ | ⟨h0, heq2, hc⟩ <;>
          rcases hc with ⟨hd1, hlt⟩ | ⟨hd1, hlt⟩ <;>
            (simp [manhattan, hc', h0, hd1] at hman ⊢
             omega)
      obtain ⟨mids', hfw, hchain⟩ := ih c' v dx dy hcond' hman'
      refine ⟨c' :: mids', ?_, ?_⟩
      · rw [fillWalk, if_neg hne, if_neg hhit, hfw]
      · have hadj : manhattan c c' = 1 := by
          rcases hcond with ⟨h0, heq2, hc⟩ | ⟨h0, heq2, hc⟩ <;>
            rcases hc with ⟨hd1, hlt⟩ | ⟨hd1, hlt⟩ <;>
              (simp [manhattan, hc', h0, hd1]
               try omega)
        exact List.Chain'.cons hadj hchain

theorem densify_spec :
    ∀ (jp : List Coord), jp ≠ [] →
      List.Chain' (fun a b => (a.1 = b.1 ∨ a.2 = b.2) ∧ a ≠ b) jp →
      ∃ full, densify jp = some full ∧ full.head? = jp.head? ∧
        full.getLast? = jp.getLast? ∧
        List.Chain' (fun a b => manhattan a b = 1) full := by
  intro jp
  induction jp with
  | nil => intro hne; exact absurd rfl hne
  | cons a t ih =>
    intro _ hch
    cases t with
    | nil => exact ⟨[a], rfl, rfl, rfl, by simp⟩
    | cons b t2 =>
      obtain ⟨⟨hax, habne⟩, hch'⟩ := List.chain'_cons.mp hch
      obtain ⟨full', hd', hh', hl', hc'⟩ := ih (by simp) hch'
      have hcond :
          ((sgnToward a.2 b.2 = 0 ∧ a.2 = b.2 ∧
              ((sgnToward a.1 b.1 = 1 ∧ a.1 < b.1) ∨
                (sgnToward a.1 b.1 = -1 ∧ b.1 < a.1))) ∨
            (sgnToward a.1 b.1 = 0 ∧ a.1 = b.1 ∧
              ((sgnToward a.2 b.2 = 1 ∧ a.2 < b.2) ∨
                (sgnToward a.2 b.2 = -1 ∧ b.2 < a.2)))) := by
        rcases hax with h1 | h2
        · have h2ne : a.2 ≠ b.2 := fun hh => habne (Prod.ext h1 hh)
          right
          refine ⟨by simp [sgnToward, h1], h1, ?_⟩
          by_cases hlt : a.2 < b.2
          · exact Or.inl ⟨by rw [sgnToward, if_neg (Ne.symm h2ne), if_pos hlt], hlt⟩
          · have hgt : b.2 < a.2 := by omega
            refine Or.inr ⟨?_, hgt⟩
            rw [sgnToward, if_neg (Ne.symm h2ne), if_neg (by omega)]
        · have h1ne : a.1 ≠ b.1 := fun hh => habne (Prod.ext hh h2)
          left
          refine ⟨by simp [sgnToward, h2], h2, ?_⟩
          by_cases hlt : a.1 < b.1
          · exact Or.inl ⟨by rw [sgnToward, if_neg (Ne.symm h1ne), if_pos hlt], hlt⟩
          · have hgt : b.1 < a.1 := by omega
            refine Or.inr ⟨?_, hgt⟩
            rw [sgnToward, if_neg (Ne.symm h1ne), if_neg (by omega)]
      obtain ⟨mids, hfw, hchainAB⟩ :=
        fillWalk_spec (manhattan a b) a b (sgnToward a.1 b.1) (sgnToward a.2 b.2)
          hcond rfl
      have hfullne : full' ≠ [] := by
        intro hh
        rw [hh] at hh'
        simp at hh'
      refine ⟨a :: (mids ++ full'), ?_, rfl, ?_, ?_⟩
      · simp [densify, hfw, hd']
      · have h1 : (a :: (mids ++ full')).getLast? = full'.getLast? := by
          rw [show a :: (mids ++ full') = (a :: mids) ++ full' from rfl,
            List.getLast?_append]
          obtain ⟨z, hz⟩ := Option.isSome_iff_exists.mp
            (List.getLast?_isSome.mpr hfullne)
          rw [hz]
          rfl
        rw [h1, hl']
        simp
      · have hsplit := List.chain'_append.mp
          (show List.Chain' (fun x y => manhattan x y = 1) ((a :: mids) ++ [b]) from hchainAB)
        rw [show a :: (mids ++ full') = (a :: mids) ++ full' from rfl]
        refine List.chain'_append.mpr ⟨hsplit.1, hc', ?_⟩
        intro x hx y hy
        rw [hh'] at hy
        simp at hy
        subst hy
        exact hsplit.2.2 x hx b (by simp)

theorem jpsExpand_inv {w h : Int} {s e cur : Coord} {curG : Nat} :
    ∀ (ds : List Coord) (st : JPSState), (∀ d ∈ ds, d ∈ directions) →
      JPSPathInv s st → cur ∈ st.visited → alookup st.parent cur ≠ none →
      JPSPathInv s (jpsExpand w h e cur curG ds st) := by
  intro ds
  induction ds with
  | nil => intro st _ hinv _ _; exact hinv
  | cons d ts ih =>
    intro st hds hinv hcur hcdom
    have hdmem : d ∈ directions := hds d (by simp)
    rcases hj : jump cur d e w h st.visited with _ | jp
    · simp only [jpsExpand, hj]
      exact ih st (fun m hm => hds m (by simp [hm])) hinv hcur hcdom
    · simp only [jpsExpand, hj]
      by_cases hv : jp ∈ st.visited
      · rw [if_pos hv]
        exact ih st (fun m hm => hds m (by simp [hm])) hinv hcur hcdom
      · rw [if_neg hv]
        by_cases himp : (match alookup st.gScore jp with
            | none => true
            | some old => decide (curG + manhattan cur jp < old)) = true
        · rw [if_pos himp]
          have hns : jp ≠ s := by
            intro hh
            subst hh
            rw [hinv.sg] at himp
            simp at himp
          have hcurn : jp ≠ cur := fun hh => hv (hh ▸ hcur)
          refine ih _ (fun m hm => hds m (by simp [hm])) ?_ (by simp [hcur]) ?_
          · obtain ⟨hroot, hg, hpq, hch⟩ := hinv
            refine ⟨(alookup_cons_ne hns).trans hroot,
              (alookup_cons_ne hns).trans hg, ?_, ?_⟩
            · intro kc hkc
              rcases mem_insertSorted _ _ _ _ hkc with rfl | hkc
              · simp [alookup_cons_self]
              · by_cases hnc : jp = kc.2.2
                · subst hnc; simp [alookup_cons_self]
                · rw [alookup_cons_ne hnc]; exact hpq kc hkc
            · intro v hvne
              by_cases hnv : jp = v
              · subst hnv
                obtain ⟨lc, hlc, hlen, hnodes⟩ := hch cur hcdom
                have hnotin : jp ∉ lc := by
                  intro hmem
                  rcases hnodes jp hmem with rfl | hvis
                  · exact hcurn rfl
                  · exact hv hvis
                refine ⟨lc ++ [jp], ?_, by simp; omega, ?_⟩
                · refine ChainJ.step cur jp lc alookup_cons_self ?_
                    (jump_ne hdmem hj) (chainJ_cons hlc hnotin)
                  rcases (jump_spec hdmem hj).2.2.2 with hh | hh
                  · exact Or.inl hh.symm
                  · exact Or.inr hh.symm
                · intro x hx
                  rcases List.mem_append.mp hx with hx | hx
                  · rcases hnodes x hx with rfl | hvis
                    · exact Or.inr hcur
                    · exact Or.inr hvis
                  · simp at hx; exact Or.inl hx
              · rw [alookup_cons_ne hnv] at hvne
                obtain ⟨l, hl, hlen, hnodes⟩ := hch v hvne
                have hnotin : jp ∉ l := by
                  intro hmem
                  rcases hnodes jp hmem with rfl | hvis
                  · exact hnv rfl
                  · exact hv hvis
                refine ⟨l, chainJ_cons hl hnotin, by simp; omega, ?_⟩
                intro x hx
                rcases hnodes x hx with rfl | hvis
                · exact Or.inl rfl
                · exact Or.inr hvis
          · by_cases hnc : jp = cur
            · subst hnc; simp [alookup_cons_self]
            · rw [alookup_cons_ne hnc]; exact hcdom
        · rw [if_neg himp]
          exact ih st (fun m hm => hds m (by simp [hm])) hinv hcur hcdom

theorem jps_found_pathOk (w h : Int) (s e : Coord) :
    ∀ fuel p, Event.found p ∈ (jpsRun fuel w h s e).1 → pathOk s e p := by
  have hinit : JPSPathInv s (jpsInit s) := by
    refine ⟨by simp [jpsInit, alookup], by simp [jpsInit, alookup], ?_, ?_⟩
    · intro kc hkc
      simp [jpsInit] at hkc
      simp [hkc, alookup]
    · intro v hv
      have hvs : s = v := by
        by_contra hne
        rw [jpsInit] at hv
        simp only at hv
        rw [alookup_cons_ne hne] at hv
        exact hv rfl
      subst hvs
      exact ⟨[s], ChainJ.base (by simp [jpsInit, alookup]),
        by simp [jpsInit], by simp⟩
  intro fuel p hmem
  refine run_found_sound (jpsStep w h e) (JPSPathInv s) (pathOk s e)
    ?_ ?_ fuel (jpsInit s) p hinit hmem
  · intro st evs st' hinv hstep
    obtain ⟨pq, vis, par, gsc⟩ := st
    cases pq with
    | nil => simp [jpsStep] at hstep
    | cons kc rest =>
      obtain ⟨k, kg, cur⟩ := kc
      by_cases hv : cur ∈ vis
      · rw [jpsStep] at hstep
        simp only [if_pos hv] at hstep
        simp only [StepRes.cont.injEq] at hstep
        obtain ⟨hevs, hst'⟩ := hstep
        refine ⟨?_, ?_⟩
        · rw [← hst']
          exact ⟨hinv.sroot, hinv.sg,
            fun c hc => hinv.pqDom c (by simp [hc]), hinv.chains⟩
        · intro p' hp'
          rw [← hevs] at hp'
          simp at hp'
      · by_cases hce : cur = e
        · rw [jpsStep] at hstep
          simp only [if_neg hv, if_pos hce] at hstep
          split at hstep
          · simp at hstep
          · split at hstep <;> simp at hstep
        · rw [jpsStep] at hstep
          simp only [if_neg hv, if_neg hce] at hstep
          simp only [StepRes.cont.injEq] at hstep
          obtain ⟨hevs, hst'⟩ := hstep
          refine ⟨?_, ?_⟩
          · rw [← hst']
            refine jpsExpand_inv _ _ (fun d hd => hd) ?_ (by simp) ?_
            · refine ⟨hinv.sroot, hinv.sg,
                fun c hc => hinv.pqDom c (by simp [hc]), ?_⟩
              intro v hvne
              obtain ⟨l, hl, hlen, hnodes⟩ := hinv.chains v hvne
              refine ⟨l, hl, hlen, fun x hx => ?_⟩
              rcases hnodes x hx with rfl | hvis
              · exact Or.inl rfl
              · exact Or.inr (by simp [hvis])
            · exact hinv.pqDom (k, kg, cur) (by simp)
          · intro p' hp'
            rw [← hevs] at hp'
            simp at hp'
  · intro st evs p' hinv hstep hm
    obtain ⟨pq, vis, par, gsc⟩ := st
    cases pq with
    | nil =>
      rcases hstep with hstep | hstep <;>
        (rw [jpsStep] at hstep
         first
           | (simp only [StepRes.done.injEq] at hstep
              subst hstep
              simp at hm)
           | simp at hstep)
    | cons kc rest =>
      obtain ⟨k, kg, cur⟩ := kc
      by_cases hv : cur ∈ vis
      · rcases hstep with hstep | hstep <;>
          (rw [jpsStep] at hstep
           simp only [if_pos hv] at hstep
           simp at hstep)
      · by_cases hce : cur = e
        · subst hce
          have hcdom : alookup par cur ≠ none := hinv.pqDom (k, kg, cur) (by simp)
          obtain ⟨l, hl, hlen, hnds⟩ := hinv.chains cur hcdom
          have hlen' : l.length ≤ par.length := hlen
          have hrec2 : reconstruct (par.length + 1) par cur = some l :=
            reconstruct_of_chainJ hl _ (by omega)
          obtain ⟨full, hdens, hhead, hlast, hknit⟩ :=
            densify_spec l (chainJ_ne_nil hl) (chainJ_aligned hl)
          have hbs : jpsStep w h cur ⟨(k, kg, cur) :: rest, vis, par, gsc⟩ =
              StepRes.done [Event.exploring cur, Event.found full] := by
            simp [jpsStep, hrec2, hdens, hv]
          rcases hstep with hstep | hstep
          · rw [hbs] at hstep
            simp only [StepRes.done.injEq] at hstep
            subst hstep
            simp only [List.mem_cons, List.not_mem_nil, or_false] at hm
            rcases hm with hm | hm
            · exact absurd hm (by simp)
            · obtain rfl : p' = full := by injection hm
              refine ⟨?_, ?_, hknit⟩
              · rw [hhead, chainJ_head hl]
              · rw [hlast, chainJ_last hl]
          · rw [hbs] at hstep
            simp at hstep
        · rcases hstep with hstep | hstep <;>
            (rw [jpsStep] at hstep
             simp only [if_neg hv, if_neg hce] at hstep
             simp at hstep)

/-! ## C9: found-path soundness, bidirectional search -/

theorem chain_adj_flip {l : List Coord}
    (h : List.Chain' (fun a b => manhattan a b = 1) l) :
    List.Chain' (fun a b => manhattan a b = 1) l.reverse := by
  rw [List.chain'_reverse]
  exact h.imp fun a b hab => by rw [manhattan_comm] at hab; exact hab

theorem bidirPath_ok {pf pb : ParentMap} {s e m : Coord} {vf vb : List Coord}
    (hf : VisChain pf s vf) (hb : VisChain pb e vb)
    (hfd : ∀ c ∈ vf, alookup pf c ≠ none) (hbd : ∀ c ∈ vb, alookup pb c ≠ none)
    (hmf : m ∈ vf) (hmb : m ∈ vb) :
    pathOk s e (bidirPath pf pb m) := by
  obtain ⟨lf, hlf, hlenf, _⟩ := hf m (hfd m hmf)
  obtain ⟨lb, hlb, hlenb, _⟩ := hb m (hbd m hmb)
  have hlenf' : lf.length ≤ pf.length := hlenf
  have hwf : walkGet (pf.length + 1) pf m = lf.reverse :=
    walkGet_of_chainL hlf _ (by omega)
  have hfwd : (walkGet (pf.length + 1) pf m).reverse = lf := by
    rw [hwf, List.reverse_reverse]
  cases hlb with
  | base hb0 =>
    have hpath : bidirPath pf pb e = lf := by
      simp only [bidirPath, hb0]
      rw [hfwd]
      simp
    rw [hpath]
    exact ⟨chainL_head hlf, chainL_last hlf, chainL_adj hlf⟩
  | step u m' lb' hlk hadj hc =>
    have hlen' : lb'.length ≤ pb.length := by
      have : lb'.length + 1 ≤ pb.length := by simpa using hlenb
      omega
    have hwb : walkGet (pb.length + 1) pb u = lb'.reverse :=
      walkGet_of_chainL hc _ (by omega)
    have hpath : bidirPath pf pb m = lf ++ lb'.reverse := by
      simp only [bidirPath, hlk]
      rw [hfwd, hwb]
    rw [hpath]
    have hlbne : lb' ≠ [] := chainL_ne_nil hc
    have hlfne : lf ≠ [] := chainL_ne_nil hlf
    refine ⟨?_, ?_, ?_⟩
    · rw [List.head?_append_of_ne_nil _ hlfne]
      exact chainL_head hlf
    · rw [List.getLast?_append, List.getLast?_reverse, chainL_head hc]
      rfl
    · rw [List.chain'_append]
      refine ⟨chainL_adj hlf, chain_adj_flip (chainL_adj hc), ?_⟩
      intro x hx y hy
      rw [chainL_last hlf] at hx
      rw [List.head?_reverse, chainL_last hc] at hy
      simp at hx hy
      subst hx
      subst hy
      rw [manhattan_comm]
      exact hadj

theorem bidirExpand_side {cur root : Coord} :
    ∀ (ns q v : List Coord) (p : ParentMap),
      root ∈ v → (∀ c ∈ q, c ∈ v) → (∀ c ∈ v, alookup p c ≠ none) →
      VisChain p root v → cur ∈ v → alookup p root = some none →
      (∀ n ∈ ns, manhattan cur n = 1) →
      root ∈ (bidirExpand cur ns q v p).2.1 ∧
      (∀ c ∈ (bidirExpand cur ns q v p).1, c ∈ (bidirExpand cur ns q v p).2.1) ∧
      (∀ c ∈ (bidirExpand cur ns q v p).2.1,
        alookup (bidirExpand cur ns q v p).2.2 c ≠ none) ∧
      VisChain (bidirExpand cur ns q v p).2.2 root (bidirExpand cur ns q v p).2.1 ∧
      alookup (bidirExpand cur ns q v p).2.2 root = some none := by
  intro ns
  induction ns with
  | nil => intro q v p h1 h2 h3 h4 h5 h6 _; exact ⟨h1, h2, h3, h4, h6⟩
  | cons n t ih =>
    intro q v p h1 h2 h3 h4 h5 h6 hadj
    by_cases hv : n ∈ v
    · rw [bidirExpand, if_pos hv]
      exact ih q v p h1 h2 h3 h4 h5 h6 fun m hm => hadj m (by simp [hm])
    · rw [bidirExpand, if_neg hv]
      have hns : n ≠ root := fun hh => hv (hh ▸ h1)
      have hcurn : n ≠ cur := fun hh => hv (hh ▸ h5)
      refine ih _ _ _ (by simp [h1]) ?_ ?_ ?_ (by simp [h5])
        ((alookup_cons_ne hns).trans h6)
        (fun m hm => hadj m (by simp [hm]))
      · intro c hc
        simp only [List.mem_append, List.mem_singleton] at hc
        rcases hc with hc | rfl
        · exact List.mem_cons_of_mem _ (h2 c hc)
        · exact List.mem_cons_self _ _
      · intro c hc
        by_cases hnc : n = c
        · subst hnc; simp [alookup_cons_self]
        · rw [alookup_cons_ne hnc]
          rcases List.mem_cons.mp hc with rfl | hc
          · exact absurd rfl hnc
          · exact h3 c hc
      · intro z hzne
        by_cases hnz : n = z
        · subst hnz
          obtain ⟨lc, hlc, hlen, hnodes⟩ := h4 cur (h3 cur h5)
          have hnotin : n ∉ lc := by
            intro hmem
            rcases hnodes n hmem with rfl | hvis
            · exact hcurn rfl
            · exact hv hvis
          refine ⟨lc ++ [n], ?_, by simp; omega, ?_⟩
          · exact ChainL.step cur n lc alookup_cons_self (hadj n (by simp))
              (chainL_cons hlc hnotin)
          · intro x hx
            rcases List.mem_append.mp hx with hx | hx
            · rcases hnodes x hx with rfl | hvis
              · exact Or.inr (by simp [h5])
              · exact Or.inr (by simp [hvis])
            · simp at hx; exact Or.inl hx
        · rw [alookup_cons_ne hnz] at hzne
          obtain ⟨l, hl, hlen, hnodes⟩ := h4 z hzne
          have hnotin : n ∉ l := by
            intro hmem
            rcases hnodes n hmem with rfl | hvis
            · exact hnz rfl
            · exact hv hvis
          refine ⟨l, chainL_cons hl hnotin, by simp; omega, ?_⟩
          intro x hx
          rcases hnodes x hx with rfl | hvis
          · exact Or.inl rfl
          · exact Or.inr (by simp [hvis])

theorem bidir_found_pathOk (w h : Int) (s e : Coord) :
    ∀ fuel p, Event.found p ∈ (bidirRun fuel w h s e).1 → pathOk s e p := by
  intro fuel p hmem
  by_cases hse : s = e
  · subst hse
    rw [bidirRun, if_pos rfl] at hmem
    simp at hmem
    subst hmem
    exact ⟨rfl, rfl, by simp⟩
  · rw [bidirRun, if_neg hse] at hmem
    have hinit : BidirPathInv s e (bidirInit s e) := by
      refine ⟨by simp [bidirInit, alookup],
        by simp [bidirInit, alookup, Ne.symm hse],
        by simp [bidirInit], by simp [bidirInit], by simp [bidirInit],
        by simp [bidirInit], ?_, ?_, ?_, ?_⟩
      · intro c hc
        simp [bidirInit] at hc
        simp [hc, bidirInit, alookup]
      · intro c hc
        simp [bidirInit] at hc
        simp [hc, bidirInit, alookup]
      · intro v hv
        have hvs : s = v := by
          by_contra hne
          rw [bidirInit] at hv
          simp only at hv
          rw [alookup_cons_ne hne] at hv
          exact hv rfl
        subst hvs
        exact ⟨[s], ChainL.base (by simp [bidirInit, alookup]),
          by simp [bidirInit], by simp⟩
      · intro v hv
        have hvs : e = v := by
          by_contra hne
          rw [bidirInit] at hv
          simp only at hv
          rw [alookup_cons_ne hne] at hv
          exact hv rfl
        subst hvs
        exact ⟨[e], ChainL.base (by simp [bidirInit, alookup]),
          by simp [bidirInit], by simp⟩
    refine run_found_sound (bidirStep w h) (BidirPathInv s e) (pathOk s e)
      ?_ ?_ fuel (bidirInit s e) p hinit hmem
    · intro st evs st' hinv hstep
      obtain ⟨qf, qb, vf, vb, pf, pb, turn⟩ := st
      cases turn with
      | true =>
        cases qf with
        | nil =>
          have hbs : bidirStep w h ⟨[], qb, vf, vb, pf, pb, true⟩ =
              StepRes.done [Event.noPath] := by
            simp [bidirStep]
          rw [hbs] at hstep
          simp at hstep
        | cons cur rest =>
          cases qb with
          | nil =>
            have hbs : bidirStep w h ⟨cur :: rest, [], vf, vb, pf, pb, true⟩ =
                StepRes.done [Event.noPath] := by
              simp [bidirStep]
            rw [hbs] at hstep
            simp at hstep
          | cons b0 qbt =>
            by_cases hmeet : cur ∈ vb
            · have hbs : bidirStep w h ⟨cur :: rest, b0 :: qbt, vf, vb, pf, pb, true⟩ =
                  StepRes.done [Event.exploring cur,
                    Event.found (bidirPath pf pb cur)] := by
                simp [bidirStep, hmeet]
              rw [hbs] at hstep
              simp at hstep
            · have hbs : bidirStep w h ⟨cur :: rest, b0 :: qbt, vf, vb, pf, pb, true⟩ =
                  StepRes.cont [Event.exploring cur, Event.visited cur]
                    ⟨(bidirExpand cur (getNeighbors cur.1 cur.2 w h) rest vf pf).1,
                      b0 :: qbt,
                      (bidirExpand cur (getNeighbors cur.1 cur.2 w h) rest vf pf).2.1,
                      vb,
                      (bidirExpand cur (getNeighbors cur.1 cur.2 w h) rest vf pf).2.2,
                      pb, false⟩ := by
                simp [bidirStep, hmeet]
              rw [hbs] at hstep
              simp only [StepRes.cont.injEq] at hstep
              obtain ⟨hevs, hst'⟩ := hstep
              obtain ⟨hr1, hr2, h1, h2, h3, h4, h5, h6, h7, h8⟩ := hinv
              have hcur : cur ∈ vf := h3 cur (by simp)
              have hqrest : ∀ c ∈ rest, c ∈ vf := fun c hc => h3 c (by simp [hc])
              have hexp := bidirExpand_side (getNeighbors cur.1 cur.2 w h) rest vf pf
                h1 hqrest h5 h7 hcur hr1
                (fun n hn => (mem_getNeighbors hn).1)
              refine ⟨?_, ?_⟩
              · rw [← hst']
                exact ⟨hexp.2.2.2.2, hr2, hexp.1, h2, hexp.2.1,
                  fun c hc => h4 c hc, hexp.2.2.1, h6, hexp.2.2.2.1, h8⟩
              · intro p' hp'
                rw [← hevs] at hp'
                simp at hp'
      | false =>
        cases qb with
        | nil =>
          have hbs : bidirStep w h ⟨qf, [], vf, vb, pf, pb, false⟩ =
              StepRes.cont [] ⟨qf, [], vf, vb, pf, pb, true⟩ := by
            simp [bidirStep]
          rw [hbs] at hstep
          simp only [StepRes.cont.injEq] at hstep
          obtain ⟨hevs, hst'⟩ := hstep
          refine ⟨?_, ?_⟩
          · rw [← hst']
            exact ⟨hinv.fsroot, hinv.bsroot, hinv.fsvis, hinv.bsvis,
              hinv.qfVis, hinv.qbVis, hinv.fvisDom, hinv.bvisDom,
              hinv.fchains, hinv.bchains⟩
          · intro p' hp'
            rw [← hevs] at hp'
            simp at hp'
        | cons cur rest =>
          by_cases hmeet : cur ∈ vf
          · have hbs : bidirStep w h ⟨qf, cur :: rest, vf, vb, pf, pb, false⟩ =
                StepRes.done [Event.exploring cur,
                  Event.found (bidirPath pf pb cur)] := by
              simp [bidirStep, hmeet]
            rw [hbs] at hstep
            simp at hstep
          · have hbs : bidirStep w h ⟨qf, cur :: rest, vf, vb, pf, pb, false⟩ =
                StepRes.cont [Event.exploring cur, Event.visited cur]
                  ⟨qf,
                    (bidirExpand cur (getNeighbors cur.1 cur.2 w h) rest vb pb).1,
                    vf,
                    (bidirExpand cur (getNeighbors cur.1 cur.2 w h) rest vb pb).2.1,
                    pf,
                    (bidirExpand cur (getNeighbors cur.1 cur.2 w h) rest vb pb).2.2,
                    true⟩ := by
              simp [bidirStep, hmeet]
            rw [hbs] at hstep
            simp only [StepRes.cont.injEq] at hstep
            obtain ⟨hevs, hst'⟩ := hstep
            obtain ⟨hr1, hr2, h1, h2, h3, h4, h5, h6, h7, h8⟩ := hinv
            have hcur : cur ∈ vb := h4 cur (by simp)
            have hqrest : ∀ c ∈ rest, c ∈ vb := fun c hc => h4 c (by simp [hc])
            have hexp := bidirExpand_side (getNeighbors cur.1 cur.2 w h) rest vb pb
              h2 hqrest h6 h8 hcur hr2
              (fun n hn => (mem_getNeighbors hn).1)
            refine ⟨?_, ?_⟩
            · rw [← hst']
              exact ⟨hr1, hexp.2.2.2.2, h1, hexp.1, h3, hexp.2.1,
                h5, hexp.2.2.1, h7, hexp.2.2.2.1⟩
            · intro p' hp'
              rw [← hevs] at hp'
              simp at hp'
    · intro st evs p' hinv hstep hm
      obtain ⟨qf, qb, vf, vb, pf, pb, turn⟩ := st
      cases turn with
      | true =>
        cases qf with
        | nil =>
          have hbs : bidirStep w h ⟨[], qb, vf, vb, pf, pb, true⟩ =
              StepRes.done [Event.noPath] := by
            simp [bidirStep]
          rcases hstep with hstep | hstep <;> rw [hbs] at hstep
          · simp only [StepRes.done.injEq] at hstep
            subst hstep
            simp at hm
          · simp at hstep
        | cons cur rest =>
          cases qb with
          | nil =>
            have hbs : bidirStep w h ⟨cur :: rest, [], vf, vb, pf, pb, true⟩ =
                StepRes.done [Event.noPath] := by
              simp [bidirStep]
            rcases hstep with hstep | hstep <;> rw [hbs] at hstep
            · simp only [StepRes.done.injEq] at hstep
              subst hstep
              simp at hm
            · simp at hstep
          | cons b0 qbt =>
            by_cases hmeet : cur ∈ vb
            · have hbs : bidirStep w h ⟨cur :: rest, b0 :: qbt, vf, vb, pf, pb, true⟩ =
                  StepRes.done [Event.exploring cur,
                    Event.found (bidirPath pf pb cur)] := by
                simp [bidirStep, hmeet]
              rcases hstep with hstep | hstep <;> rw [hbs] at hstep
              · simp only [StepRes.done.injEq] at hstep
                subst hstep
                simp only [List.mem_cons, List.not_mem_nil, or_false] at hm
                rcases hm with hm | hm
                · exact absurd hm (by simp)
                · obtain rfl : p' = bidirPath pf pb cur := by injection hm
                  exact bidirPath_ok hinv.fchains hinv.bchains hinv.fvisDom
                    hinv.bvisDom (hinv.qfVis cur (by simp)) hmeet
              · simp at hstep
            · rcases hstep with hstep | hstep <;>
                (rw [bidirStep] at hstep
                 simp [hmeet] at hstep)
      | false =>
        cases qb with
        | nil =>
          have hbs : bidirStep w h ⟨qf, [], vf, vb, pf, pb, false⟩ =
              StepRes.cont [] ⟨qf, [], vf, vb, pf, pb, true⟩ := by
            simp [bidirStep]
          rcases hstep with hstep | hstep <;> rw [hbs] at hstep <;> simp at hstep
        | cons cur rest =>
          by_cases hmeet : cur ∈ vf
          · have hbs : bidirStep w h ⟨qf, cur :: rest, vf, vb, pf, pb, false⟩ =
                StepRes.done [Event.exploring cur,
                  Event.found (bidirPath pf pb cur)] := by
              simp [bidirStep, hmeet]
            rcases hstep with hstep | hstep <;> rw [hbs] at hstep
            · simp only [StepRes.done.injEq] at hstep
              subst hstep
              simp only [List.mem_cons, List.not_mem_nil, or_false] at hm
              rcases hm with hm | hm
              · exact absurd hm (by simp)
              · obtain rfl : p' = bidirPath pf pb cur := by injection hm
                exact bidirPath_ok hinv.fchains hinv.bchains hinv.fvisDom
                  hinv.bvisDom hmeet (hinv.qbVis cur (by simp))
            · simp at hstep
          · rcases hstep with hstep | hstep <;>
              (rw [bidirStep] at hstep
               simp [hmeet] at hstep)

/-! ## C9 and C10: the random walk -/

theorem rwStep_classify {w h : Int} {s e : Coord} {rb : Nat → Bool}
    {rc : Nat → Nat} {st : RWState} (hinv : RWPathInv s st) :
    (st.stepsLeft = 0 ∧ rwStep w h e rb rc st = StepRes.done [Event.noPath]) ∨
    (1 ≤ st.stepsLeft ∧ st.cur = e ∧ ∃ l, pathOk s e l ∧
      rwStep w h e rb rc st =
        StepRes.done [Event.exploring st.cur, Event.found l]) ∨
    (1 ≤ st.stepsLeft ∧ st.cur ≠ e ∧ ∃ st',
      rwStep w h e rb rc st =
        StepRes.cont [Event.exploring st.cur, Event.visited st.cur] st' ∧
      RWPathInv s st' ∧ st'.stepsLeft + 1 = st.stepsLeft ∧
      inBoundsB w h st'.cur = true) ∨
    (1 ≤ st.stepsLeft ∧ st.cur ≠ e ∧
      getNeighbors st.cur.1 st.cur.2 w h = [] ∧
      rwStep w h e rb rc st =
        StepRes.crash [Event.exploring st.cur, Event.visited st.cur]) := by
  obtain ⟨cur, vis, par, sl, k⟩ := st
  cases sl with
  | zero => exact Or.inl ⟨rfl, rfl⟩
  | succ m =>
    by_cases hce : cur = e
    · subst hce
      obtain ⟨l, hl, hlen, _⟩ := hinv.chains cur hinv.curDom
      have hlen' : l.length ≤ par.length := hlen
      have hrec2 : reconstruct (par.length + 1) par cur = some l :=
        reconstruct_of_chainL hl _ (by omega)
      refine Or.inr (Or.inl ⟨by simp, rfl, l,
        ⟨chainL_head hl, chainL_last hl, chainL_adj hl⟩, ?_⟩)
      simp [rwStep, hrec2]
    · rcases hpick : (if (List.filter
            (fun n => decide (n ∉ cur :: vis))
            (getNeighbors cur.1 cur.2 w h)).length ≠ 0 ∧ rb k = true then
          pyChoice (List.filter (fun n => decide (n ∉ cur :: vis))
            (getNeighbors cur.1 cur.2 w h)) (rc k)
        else pyChoice (getNeighbors cur.1 cur.2 w h) (rc k)) with _ | nxt
      · have hns : getNeighbors cur.1 cur.2 w h = [] := by
          by_cases hcnd : (List.filter (fun n => decide (n ∉ cur :: vis))
              (getNeighbors cur.1 cur.2 w h)).length ≠ 0 ∧ rb k = true
          · rw [if_pos hcnd] at hpick
            have := pyChoice_eq_none hpick
            rw [this] at hcnd
            simp at hcnd
          · rw [if_neg hcnd] at hpick
            exact pyChoice_eq_none hpick
        refine Or.inr (Or.inr (Or.inr ⟨by simp, hce, hns, ?_⟩))
        simp only [rwStep]
        rw [if_neg hce]
        simp only [hpick]
      · have hnxtmem : nxt ∈ getNeighbors cur.1 cur.2 w h := by
          by_cases hcnd : (List.filter (fun n => decide (n ∉ cur :: vis))
              (getNeighbors cur.1 cur.2 w h)).length ≠ 0 ∧ rb k = true
          · rw [if_pos hcnd] at hpick
            exact List.mem_of_mem_filter (pyChoice_mem hpick)
          · rw [if_neg hcnd] at hpick
            exact pyChoice_mem hpick
        have hnxtin : inBoundsB w h nxt = true := (mem_getNeighbors hnxtmem).2
        have hnxtadj : manhattan cur nxt = 1 := (mem_getNeighbors hnxtmem).1
        refine Or.inr (Or.inr (Or.inl ⟨by simp, hce, ?_⟩))
        rcases hpar : alookup par nxt with _ | ob
        · -- fresh binding
          refine ⟨⟨nxt, cur :: vis, (nxt, some cur) :: par, m, k + 1⟩, ?_, ?_, by simp, hnxtin⟩
          · simp only [rwStep]
            rw [if_neg hce]
            simp only [hpick, hpar]
          · have hnoclash : ∀ x, alookup par x ≠ none → nxt ≠ x := by
              intro x hx hh
              subst hh
              exact hx hpar
            refine ⟨by simp [alookup_cons_self], ?_, ?_⟩
            · intro c hc
              by_cases hnc : nxt = c
              · subst hnc; simp [alookup_cons_self]
              · rw [alookup_cons_ne hnc]
                rcases List.mem_cons.mp hc with rfl | hc
                · exact hinv.curDom
                · exact hinv.visDom c hc
            · intro v hvne
              by_cases hnv : nxt = v
              · subst hnv
                obtain ⟨lc, hlc, hlen, hnodes⟩ := hinv.chains cur hinv.curDom
                have hlen2 : lc.length ≤ par.length := hlen
                have hnotin : nxt ∉ lc := by
                  intro hmem
                  exact hnoclash nxt (chainL_nodes_dom hlc nxt hmem) rfl
                refine ⟨lc ++ [nxt], ?_, by simp; omega, ?_⟩
                · exact ChainL.step cur nxt lc alookup_cons_self hnxtadj
                    (chainL_cons hlc hnotin)
                · intro x hx
                  rcases List.mem_append.mp hx with hx | hx
                  · rcases hnodes x hx with rfl | hvis
                    · exact Or.inr (by simp)
                    · exact Or.inr (by simp [hvis])
                  · simp at hx; exact Or.inl hx
              · rw [alookup_cons_ne hnv] at hvne
                obtain ⟨l, hl, hlen, hnodes⟩ := hinv.chains v hvne
                have hlen2 : l.length ≤ par.length := hlen
                have hnotin : nxt ∉ l := by
                  intro hmem
                  exact hnoclash nxt (chainL_nodes_dom hl nxt hmem) rfl
                refine ⟨l, chainL_cons hl hnotin, by simp; omega, ?_⟩
                intro x hx
                rcases hnodes x hx with rfl | hvis
                · exact Or.inl rfl
                · exact Or.inr (by simp [hvis])
        · -- binding already present
          refine ⟨⟨nxt, cur :: vis, par, m, k + 1⟩, ?_, ?_, by simp, hnxtin⟩
          · simp only [rwStep]
            rw [if_neg hce]
            simp only [hpick, hpar]
          · refine ⟨by simp [hpar], ?_, ?_⟩
            · intro c hc
              rcases List.mem_cons.mp hc with rfl | hc
              · exact hinv.curDom
              · exact hinv.visDom c hc
            · intro v hvne
              obtain ⟨l, hl, hlen, hnodes⟩ := hinv.chains v hvne
              refine ⟨l, hl, hlen, fun x hx => ?_⟩
              rcases hnodes x hx with rfl | hvis
              · exact Or.inl rfl
              · exact Or.inr (by simp [hvis])

theorem getNeighbors_nil_forces {c : Coord} {w h : Int}
    (hin : inBoundsB w h c = true)
    (hns : getNeighbors c.1 c.2 w h = []) :
    ∀ d : Coord, inBoundsB w h d = true → d = c := by
  have key : ∀ n : Coord, manhattan (c.1, c.2) n = 1 →
      ¬ inBoundsB w h n = true := by
    intro n h1 hb
    have hm : n ∈ getNeighbors c.1 c.2 w h := getNeighbors_complete h1 hb
    rw [hns] at hm
    simp at hm
  obtain ⟨c1, c2⟩ := c
  rw [inBoundsB_iff] at hin
  have h1 := key (c1 + 1, c2) (by simp [manhattan]; try omega)
  have h2 := key (c1 - 1, c2) (by simp [manhattan]; try omega)
  have h3 := key (c1, c2 + 1) (by simp [manhattan]; try omega)
  have h4 := key (c1, c2 - 1) (by simp [manhattan]; try omega)
  have ha : w ≤ c1 + 1 := by
    by_contra hcon
    exact h1 (inBoundsB_iff.mpr ⟨by omega, by omega, by omega, by omega⟩)
  have hb2 : c1 ≤ 0 := by
    by_contra hcon
    exact h2 (inBoundsB_iff.mpr ⟨by omega, by omega, by omega, by omega⟩)
  have hc2 : h ≤ c2 + 1 := by
    by_contra hcon
    exact h3 (inBoundsB_iff.mpr ⟨by omega, by omega, by omega, by omega⟩)
  have hd2 : c2 ≤ 0 := by
    by_contra hcon
    exact h4 (inBoundsB_iff.mpr ⟨by omega, by omega, by omega, by omega⟩)
  intro d hdb
  obtain ⟨d1, d2⟩ := d
  rw [inBoundsB_iff] at hdb
  refine Prod.ext ?_ ?_ <;> simp <;> omega

theorem rwInit_inv (w h : Int) (s : Coord) : RWPathInv s (rwInit w h s) := by
  refine ⟨by simp [rwInit, alookup], by simp [rwInit], ?_⟩
  intro v hv
  have hvs : s = v := by
    by_contra hne
    rw [rwInit] at hv
    simp only at hv
    rw [alookup_cons_ne hne] at hv
    exact hv rfl
  subst hvs
  exact ⟨[s], ChainL.base (by simp [rwInit, alookup]), by simp [rwInit],
    by simp⟩

theorem rw_found_pathOk (w h : Int) (s e : Coord) (rb : Nat → Bool)
    (rc : Nat → Nat) :
    ∀ p, Event.found p ∈ (rwRun w h s e rb rc).1 → pathOk s e p := by
  intro p hmem
  simp only [rwRun] at hmem
  refine run_found_sound (rwStep w h e rb rc) (RWPathInv s) (pathOk s e)
    ?_ ?_ ((w * h * 2).toNat + 1) (rwInit w h s) p (rwInit_inv w h s) hmem
  · intro st evs st' hinv hstep
    rcases @rwStep_classify w h s e rb rc st hinv with
      ⟨_, hd⟩ | ⟨_, _, l, _, hd⟩ | ⟨_, _, st2, hd, hinv2, _, _⟩ | ⟨_, _, _, hd⟩
    · rw [hd] at hstep; simp at hstep
    · rw [hd] at hstep; simp at hstep
    · rw [hd] at hstep
      simp only [StepRes.cont.injEq] at hstep
      obtain ⟨hevs, hst'⟩ := hstep
      refine ⟨hst' ▸ hinv2, ?_⟩
      intro p' hp'
      rw [← hevs] at hp'
      simp at hp'
    · rw [hd] at hstep; simp at hstep
  · intro st evs p' hinv hstep hm
    rcases @rwStep_classify w h s e rb rc st hinv with
      ⟨_, hd⟩ | ⟨_, _, l, hpok, hd⟩ | ⟨_, _, st2, hd, _, _, _⟩ | ⟨_, _, _, hd⟩
    · rcases hstep with hstep | hstep
      · rw [hd] at hstep
        simp only [StepRes.done.injEq] at hstep
        rw [← hstep] at hm
        simp at hm
      · rw [hd] at hstep; simp at hstep
    · rcases hstep with hstep | hstep
      · rw [hd] at hstep
        simp only [StepRes.done.injEq] at hstep
        rw [← hstep] at hm
        simp at hm
        subst hm
        exact hpok
      · rw [hd] at hstep; simp at hstep
    · rcases hstep with hstep | hstep <;> rw [hd] at hstep <;> simp at hstep
    · rcases hstep with hstep | hstep
      · rw [hd] at hstep; simp at hstep
      · rw [hd] at hstep
        simp only [StepRes.crash.injEq] at hstep
        rw [← hstep] at hm
        simp at hm

theorem rw_run_props (w h : Int) (s e : Coord) (rb : Nat → Bool)
    (rc : Nat → Nat) (he : inBoundsB w h e = true) :
    ∀ fuel st, RWPathInv s st → inBoundsB w h st.cur = true →
      st.stepsLeft < fuel →
      (runFrom (rwStep w h e rb rc) fuel st).2 = Status.terminated ∧
      (exploredOf (runFrom (rwStep w h e rb rc) fuel st).1).length ≤
        st.stepsLeft ∧
      ((∃ p, (runFrom (rwStep w h e rb rc) fuel st).1.getLast? =
          some (Event.found p)) ∨
        (runFrom (rwStep w h e rb rc) fuel st).1.getLast? =
          some Event.noPath) := by
  intro fuel
  induction fuel with
  | zero => intro st _ _ hlt; omega
  | succ n ih =>
    intro st hinv hbnd hlt
    rcases @rwStep_classify w h s e rb rc st hinv with
      ⟨hsl, hd⟩ | ⟨hsl, hcur, l, hpok, hd⟩ |
      ⟨hsl, hne, st2, hd, hinv2, hsl2, hbnd2⟩ | ⟨hsl, hne, hns, hd⟩
    · rw [runFrom, hd]
      exact ⟨rfl, by simp [exploredOf, exploringCoord], Or.inr (by rfl)⟩
    · rw [runFrom, hd]
      refine ⟨rfl, ?_, Or.inl ⟨l, by rfl⟩⟩
      simp [exploredOf, exploringCoord]
      omega
    · rw [runFrom, hd]
      have hlt2 : st2.stepsLeft < n := by omega
      obtain ⟨ih1, ih2, ih3⟩ := ih st2 hinv2 hbnd2 hlt2
      refine ⟨ih1, ?_, ?_⟩
      · have heq : exploredOf
            ([Event.exploring st.cur, Event.visited st.cur] ++
              (runFrom (rwStep w h e rb rc) n st2).1) =
            st.cur :: exploredOf (runFrom (rwStep w h e rb rc) n st2).1 := by
          simp [exploredOf, exploringCoord]
        rw [heq]
        simp only [List.length_cons]
        omega
      · rcases ih3 with ⟨p, hp⟩ | hp
        · refine Or.inl ⟨p, ?_⟩
          rw [List.getLast?_append, hp]
          rfl
        · refine Or.inr ?_
          rw [List.getLast?_append, hp]
          rfl
    · exfalso
      exact hne ((getNeighbors_nil_forces hbnd hns e he).symm)

/-- C9: for every algorithm, whenever a run ends in Found, the carried
path's first coordinate equals start, its last coordinate equals end, and
every consecutive pair of coordinates in it is 4-directionally adjacent
(`pathOk`); in particular jump-point search only ever emits the densified
path, whose links are unit steps. -/
theorem claim9_found_path_endpoints (fuel : Nat) (w h : Int) (s e : Coord)
    (rb : Nat → Bool) (rc : Nat → Nat) (p : List Coord) :
    (Event.found p ∈ (bfsRun fuel w h s e).1 → pathOk s e p) ∧
    (Event.found p ∈ (dfsRun fuel w h s e).1 → pathOk s e p) ∧
    (Event.found p ∈ (dijkstraRun fuel w h s e).1 → pathOk s e p) ∧
    (Event.found p ∈ (astarRun fuel w h s e).1 → pathOk s e p) ∧
    (Event.found p ∈ (greedyRun fuel w h s e).1 → pathOk s e p) ∧
    (Event.found p ∈ (jpsRun fuel w h s e).1 → pathOk s e p) ∧
    (Event.found p ∈ (bidirRun fuel w h s e).1 → pathOk s e p) ∧
    (Event.found p ∈ (rwRun w h s e rb rc).1 → pathOk s e p) :=
  ⟨bfs_found_pathOk w h s e fuel p, dfs_found_pathOk w h s e fuel p,
    dijkstra_found_pathOk w h s e fuel p, astar_found_pathOk w h s e fuel p,
    greedy_found_pathOk w h s e fuel p, jps_found_pathOk w h s e fuel p,
    bidir_found_pathOk w h s e fuel p, rw_found_pathOk w h s e rb rc p⟩

/-- Witness for C9: on the 2×2 grid from (0,0) to (1,1), BFS emits
`Found [(0,0),(0,1),(1,1)]`, and the theorem yields its correctness. -/
theorem claim9_found_path_endpoints_witness :
    Event.found [((0 : Int), (0 : Int)), (0, 1), (1, 1)] ∈
        (bfsRun 12 2 2 (0, 0) (1, 1)).1 ∧
      pathOk (0, 0) (1, 1) [((0 : Int), (0 : Int)), (0, 1), (1, 1)] :=
  ⟨by decide,
    (claim9_found_path_endpoints 12 2 2 (0, 0) (1, 1) (fun _ => true)
      (fun _ => 0) [((0 : Int), (0 : Int)), (0, 1), (1, 1)]).1 (by decide)⟩

/-- C10: the random walk always terminates — with in-bounds start and end,
a run performs at most `2 * width * height` steps (at most that many
coordinates are explored), the embedding's status is `terminated` (the
generator returns, it neither hangs nor raises), and the run's last event
is either `Found` or `NoPath`. -/
theorem claim10_random_walk_cap (w h : Int) (s e : Coord) (rb : Nat → Bool)
    (rc : Nat → Nat) (hs : inBoundsB w h s = true)
    (he : inBoundsB w h e = true) :
    (rwRun w h s e rb rc).2 = Status.terminated ∧
    (exploredOf (rwRun w h s e rb rc).1).length ≤ (w * h * 2).toNat ∧
    ((∃ p, (rwRun w h s e rb rc).1.getLast? = some (Event.found p)) ∨
      (rwRun w h s e rb rc).1.getLast? = some Event.noPath) := by
  have hb0 : inBoundsB w h (rwInit w h s).cur = true := hs
  have h0 : (rwInit w h s).stepsLeft < (w * h * 2).toNat + 1 := by
    simp [rwInit]
  obtain ⟨h1, h2, h3⟩ := rw_run_props w h s e rb rc he
    ((w * h * 2).toNat + 1) (rwInit w h s) (rwInit_inv w h s) hb0 h0
  simp only [rwRun]
  refine ⟨h1, ?_, h3⟩
  exact le_trans h2 (by simp [rwInit])

/-- Witness for C10: the 2×2 scenario of the spec — start (0,0), end
(1,1), cap `2*2*2 = 8` — with concrete random draws. -/
theorem claim10_random_walk_cap_witness :
    (rwRun 2 2 (0, 0) (1, 1) (fun _ => true) (fun _ => 0)).2 =
      Status.terminated ∧
    (exploredOf (rwRun 2 2 (0, 0) (1, 1) (fun _ => true)
        (fun _ => 0)).1).length ≤ ((2 : Int) * 2 * 2).toNat ∧
    ((∃ p, (rwRun 2 2 (0, 0) (1, 1) (fun _ => true)
        (fun _ => 0)).1.getLast? = some (Event.found p)) ∨
      (rwRun 2 2 (0, 0) (1, 1) (fun _ => true)
        (fun _ => 0)).1.getLast? = some Event.noPath) :=
  claim10_random_walk_cap 2 2 (0, 0) (1, 1) (fun _ => true) (fun _ => 0)
    (by decide) (by decide)

theorem chainL_length_ge {par : ParentMap} {s v : Coord} {l : List Coord}
    (h : ChainL par s v l) : manhattan s v + 1 ≤ l.length := by
  induction h with
  | base _ => simp [manhattan_self]
  | step u v l hv hadj hc ih =>
    have ht := manhattan_triangle s u v
    simp only [List.length_append, List.length_cons, List.length_nil]
    omega

theorem step_toward {w h : Int} {s t : Coord} (hs : inBoundsB w h s = true)
    (ht : inBoundsB w h t = true) (hne : manhattan s t ≠ 0) :
    ∃ u, inBoundsB w h u = true ∧ manhattan u t = 1 ∧
      manhattan s u + 1 = manhattan s t := by
  obtain ⟨s1, s2⟩ := s
  obtain ⟨t1, t2⟩ := t
  rw [inBoundsB_iff] at hs ht
  simp only [manhattan] at hne ⊢
  by_cases h1 : s1 < t1
  · exact ⟨(t1 - 1, t2), by simp [inBoundsB_iff] <;> omega,
      by simp [manhattan] <;> omega, by simp <;> omega⟩
  · by_cases h2 : t1 < s1
    · exact ⟨(t1 + 1, t2), by simp [inBoundsB_iff] <;> omega,
        by simp [manhattan] <;> omega, by simp <;> omega⟩
    · by_cases h3 : s2 < t2
      · exact ⟨(t1, t2 - 1), by simp [inBoundsB_iff] <;> omega,
          by simp [manhattan] <;> omega, by simp <;> omega⟩
      · exact ⟨(t1, t2 + 1), by simp [inBoundsB_iff] <;> omega,
          by simp [manhattan] <;> omega, by simp <;> omega⟩

theorem grid_induction {w h : Int} {s : Coord} (P : Coord → Prop)
    (hs : inBoundsB w h s = true)
    (base : P s)
    (step : ∀ u v, inBoundsB w h u = true → inBoundsB w h v = true →
      manhattan u v = 1 → manhattan s v = manhattan s u + 1 → P u → P v) :
    ∀ v, inBoundsB w h v = true → P v := by
  have aux : ∀ n v, inBoundsB w h v = true → manhattan s v = n → P v := by
    intro n
    induction n with
    | zero =>
      intro v hv h0
      exact (manhattan_eq_zero h0) ▸ base
    | succ m ih =>
      intro v hv hm
      obtain ⟨u, hu, huv, hsu⟩ := step_toward hs hv (by omega)
      exact step u v hu hv huv (by omega) (ih u hu (by omega))
  intro v hv
  exact aux (manhattan s v) v hv rfl

theorem insertSorted_self_mem {α : Type} (le : α → α → Bool) (a : α) :
    ∀ l : List α, a ∈ insertSorted le a l := by
  intro l
  induction l with
  | nil => simp [insertSorted]
  | cons b t ih =>
    unfold insertSorted
    split
    · simp
    · simp [ih]

theorem insertSorted_mem_of_mem {α : Type} (le : α → α → Bool) (a x : α) :
    ∀ l : List α, x ∈ l → x ∈ insertSorted le a l := by
  intro l
  induction l with
  | nil => intro hx; simp at hx
  | cons b t ih =>
    intro hx
    unfold insertSorted
    split
    · exact List.mem_cons_of_mem a hx
    · rcases List.mem_cons.mp hx with rfl | hx'
      · exact List.mem_cons_self _ _
      · exact List.mem_cons_of_mem b (ih hx')

theorem insertSorted_length {α : Type} (le : α → α → Bool) (a : α) :
    ∀ l : List α, (insertSorted le a l).length = l.length + 1 := by
  intro l
  induction l with
  | nil => rfl
  | cons b t ih =>
    unfold insertSorted
    split
    · rfl
    · simp [List.length_cons, ih]

theorem insertSorted_pairwise {α : Type} (le : α → α → Bool)
    (r : α → α → Prop) (htrans : ∀ a b c, r a b → r b c → r a c)
    (h1 : ∀ a b, le a b = true → r a b)
    (h2 : ∀ a b, le a b = false → r b a) (a : α) :
    ∀ l : List α, l.Pairwise r → (insertSorted le a l).Pairwise r := by
  intro l
  induction l with
  | nil => intro _; simp [insertSorted]
  | cons b t ih =>
    intro hp
    rw [List.pairwise_cons] at hp
    obtain ⟨hb, ht⟩ := hp
    unfold insertSorted
    split
    · rename_i hle
      refine List.Pairwise.cons ?_ (List.Pairwise.cons hb ht)
      intro x hx
      rcases List.mem_cons.mp hx with rfl | hx'
      · exact h1 a x hle
      · exact htrans a b x (h1 a b hle) (hb x hx')
    · rename_i hle
      refine List.Pairwise.cons ?_ (ih ht)
      intro x hx
      rcases mem_insertSorted le a x t hx with rfl | hx'
      · exact h2 x b (by simpa using hle)
      · exact hb x hx'

theorem mem_gridBox {w h : Int} {c : Coord} :
    c ∈ gridBox w h ↔ inBoundsB w h c = true := by
  obtain ⟨x, y⟩ := c
  simp only [gridBox, Finset.mem_product, Finset.mem_Icc, inBoundsB_iff]
  omega

theorem gridBox_card {w h : Int} :
    (gridBox w h).card = w.toNat * h.toNat := by
  rw [gridBox, Finset.card_product, Int.card_Icc, Int.card_Icc]
  congr 1 <;> omega

theorem length_le_grid {w h : Int} {l : List Coord} (hnd : l.Nodup)
    (hin : ∀ c ∈ l, inBoundsB w h c = true) :
    l.length ≤ w.toNat * h.toNat := by
  have hsub : l.toFinset ⊆ gridBox w h := by
    intro c hc
    rw [List.mem_toFinset] at hc
    exact mem_gridBox.mpr (hin c hc)
  have hcard := Finset.card_le_card hsub
  rw [List.toFinset_card_of_nodup hnd] at hcard
  rwa [gridBox_card] at hcard

theorem unvis_card_cons {w h : Int} {vis : List Coord} {cur : Coord}
    (hin : inBoundsB w h cur = true) (hnv : cur ∉ vis) :
    ((gridBox w h).filter (fun c => c ∉ cur :: vis)).card + 1 =
      ((gridBox w h).filter (fun c => c ∉ vis)).card := by
  have hmem : cur ∈ (gridBox w h).filter (fun c => c ∉ vis) := by
    simp [Finset.mem_filter, mem_gridBox, hin, hnv]
  have hee : (gridBox w h).filter (fun c => c ∉ cur :: vis) =
      ((gridBox w h).filter (fun c => c ∉ vis)).erase cur := by
    ext c
    simp only [Finset.mem_erase, Finset.mem_filter, List.mem_cons]
    tauto
  rw [hee, Finset.card_erase_of_mem hmem]
  have := Finset.card_pos.mpr ⟨cur, hmem⟩
  omega

theorem getNeighbors_length_le (x y w h : Int) :
    (getNeighbors x y w h).length ≤ 4 := by
  simp only [getNeighbors]
  exact le_trans (List.length_filterMap_le _ _) (by decide)

theorem dijkstraLe_true_le {a b : Nat × Coord} (hl : dijkstraLe a b = true) :
    a.1 ≤ b.1 := by
  simp [dijkstraLe] at hl
  rcases hl with hl | ⟨hl, _⟩ <;> omega

theorem dijkstraLe_false_le {a b : Nat × Coord} (hl : dijkstraLe a b = false) :
    b.1 ≤ a.1 := by
  by_cases hc : a.1 < b.1
  · have hT : dijkstraLe a b = true := by simp [dijkstraLe, hc]
    rw [hT] at hl
    exact absurd hl (by simp)
  · omega

theorem astarLe_true_le {a b : Nat × Nat × Coord} (hl : astarLe a b = true) :
    a.1 ≤ b.1 := by
  simp [astarLe] at hl
  rcases hl with hl | ⟨hl, _⟩ <;> omega

theorem astarLe_false_le {a b : Nat × Nat × Coord} (hl : astarLe a b = false) :
    b.1 ≤ a.1 := by
  by_cases hc : a.1 < b.1
  · have hT : astarLe a b = true := by simp [astarLe, hc]
    rw [hT] at hl
    exact absurd hl (by simp)
  · omega

theorem bfsExpand_c8 {w h : Int} {s cur : Coord} {d : Nat}
    (hcurlvl : manhattan s cur = d) :
    ∀ ns st lc, BFS8Mid w h s d st → cur ∈ st.visited →
      (∀ n ∈ ns, manhattan cur n = 1 ∧ inBoundsB w h n = true) →
      ChainL st.parent s cur lc → lc.length = d + 1 →
      lc.length ≤ st.parent.length → (∀ x ∈ lc, x ∈ st.visited) →
      BFS8Mid w h s d (bfsExpand cur ns st) ∧
      ∃ extra, (bfsExpand cur ns st).queue = st.queue ++ extra ∧
        (∀ x, x ∈ (bfsExpand cur ns st).visited ↔
          x ∈ extra ∨ x ∈ st.visited) ∧
        (bfsExpand cur ns st).visited.length =
          st.visited.length + extra.length ∧
        (∀ x ∈ extra, manhattan s x = d + 1) ∧
        (∀ n ∈ ns, n ∈ (bfsExpand cur ns st).visited) := by
  intro ns
  induction ns with
  | nil =>
    intro st lc hmid hcv hns hlc hlen hlenp hnodes
    exact ⟨hmid, [], by simp [bfsExpand], by intro x; simp [bfsExpand],
      by simp [bfsExpand], by simp, by simp⟩
  | cons n t ih =>
    intro st lc hmid hcv hns hlc hlen hlenp hnodes
    have hn := hns n (by simp)
    by_cases hvn : n ∈ st.visited
    · rw [bfsExpand, if_pos hvn]
      obtain ⟨hmid', extra, hq, hviff, hvlen, hlev, hmem⟩ :=
        ih st lc hmid hcv (fun m hm => hns m (by simp [hm])) hlc hlen
          hlenp hnodes
      refine ⟨hmid', extra, hq, hviff, hvlen, hlev, ?_⟩
      intro m hm
      rcases List.mem_cons.mp hm with rfl | hm'
      · exact (hviff m).mpr (Or.inr hvn)
      · exact hmem m hm'
    · rw [bfsExpand, if_neg hvn]
      have hlvln : manhattan s n = d + 1 := by
        rcases adjacent_levels (s := s) hn.1 with hA | hA
        · omega
        · exact absurd (hmid.complete n hn.2 (by omega)) hvn
      have hnse : n ≠ s := fun hh => hvn (hh ▸ hmid.svis)
      have hlc1 : ChainL ((n, some cur) :: st.parent) s cur lc :=
        chainL_cons hlc (fun hmem => hvn (hnodes _ hmem))
      have hlcn : ChainL ((n, some cur) :: st.parent) s n (lc ++ [n]) :=
        ChainL.step cur n lc alookup_cons_self hn.1 hlc1
      have hmid1 : BFS8Mid w h s d
          (⟨st.queue ++ [n], n :: st.visited,
            (n, some cur) :: st.parent⟩ : BFSState) := by
        refine ⟨?_, List.mem_cons_of_mem _ hmid.svis, ?_, ?_, ?_, ?_, ?_, ?_⟩
        · rw [alookup_cons_ne hnse]
          exact hmid.root
        · intro v hv
          rcases List.mem_cons.mp hv with rfl | hv'
          · exact hn.2
          · exact hmid.visIn v hv'
        · exact List.nodup_cons.mpr ⟨hvn, hmid.visNodup⟩
        · intro v hv
          by_cases hvn2 : v = n
          · subst hvn2
            rw [alookup_cons_self]
            simp
          · rw [alookup_cons_ne (Ne.symm hvn2)]
            exact hmid.visKeys v (by
              rcases List.mem_cons.mp hv with rfl | hv'
              · exact absurd rfl hvn2
              · exact hv')
        · intro v hv
          by_cases hvn2 : v = n
          · subst hvn2
            exact List.mem_cons_self _ _
          · rw [alookup_cons_ne (Ne.symm hvn2)] at hv
            exact List.mem_cons_of_mem _ (hmid.keysVis v hv)
        · intro v hv
          rcases List.mem_cons.mp hv with rfl | hv'
          · refine ⟨lc ++ [v], hlcn, ?_, ?_, ?_⟩
            · simp only [List.length_append, List.length_cons,
                List.length_nil]
              omega
            · simp only [List.length_append, List.length_cons,
                List.length_nil]
              omega
            · intro x hx
              rcases List.mem_append.mp hx with hx' | hx'
              · exact List.mem_cons_of_mem _ (hnodes x hx')
              · simp at hx'
                subst hx'
                exact List.mem_cons_self _ _
          · obtain ⟨l, hl, hllen, hlb, hlnodes⟩ := hmid.chainsEx v hv'
            refine ⟨l, chainL_cons hl (fun hmem => hvn (hlnodes _ hmem)),
              hllen, ?_, fun x hx => List.mem_cons_of_mem _ (hlnodes x hx)⟩
            simp only [List.length_cons]
            omega
        · exact fun v hvb hvd =>
            List.mem_cons_of_mem _ (hmid.complete v hvb hvd)
      obtain ⟨hmid', extra, hq, hviff, hvlen, hlev, hmem⟩ :=
        ih (⟨st.queue ++ [n], n :: st.visited,
            (n, some cur) :: st.parent⟩ : BFSState) lc hmid1
          (List.mem_cons_of_mem _ hcv)
          (fun m hm => hns m (by simp [hm])) hlc1 hlen
          (by simp only [List.length_cons]; omega)
          (fun x hx => List.mem_cons_of_mem _ (hnodes x hx))
      refine ⟨hmid', n :: extra, ?_, ?_, ?_, ?_, ?_⟩
      · rw [hq]
        simp
      · intro x
        rw [hviff x]
        simp only [List.mem_cons]
        tauto
      · rw [hvlen]
        simp only [List.length_cons]
        omega
      · intro x hx
        rcases List.mem_cons.mp hx with rfl | hx'
        · exact hlvln
        · exact hlev x hx'
      · intro m hm
        rcases List.mem_cons.mp hm with rfl | hm'
        · exact (hviff m).mpr (Or.inr (List.mem_cons_self _ _))
        · exact hmem m hm'

theorem bfs8_step_cont {w h : Int} {s e : Coord} {st : BFSState}
    {cur : Coord} {rest : List Coord} (hs : inBoundsB w h s = true)
    (hinv : BFS8Inv w h s e st) (hq : st.queue = cur :: rest)
    (hce : cur ≠ e) :
    BFS8Inv w h s e (bfsExpand cur (getNeighbors cur.1 cur.2 w h)
      (⟨rest, st.visited, st.parent⟩ : BFSState)) ∧
    ∃ extra,
      (bfsExpand cur (getNeighbors cur.1 cur.2 w h)
        (⟨rest, st.visited, st.parent⟩ : BFSState)).queue = rest ++ extra ∧
      (bfsExpand cur (getNeighbors cur.1 cur.2 w h)
        (⟨rest, st.visited, st.parent⟩ : BFSState)).visited.length =
        st.visited.length + extra.length := by
  obtain ⟨d, A, B, hqAB, hAlvl, hBlvl, hABnil, hcomp⟩ := hinv.levels
  have hcv : cur ∈ st.visited := hinv.qVis cur (by rw [hq]; simp)
  cases A with
  | nil =>
    rw [hABnil rfl, hq] at hqAB
    simp at hqAB
  | cons a A' =>
    rw [hq] at hqAB
    simp only [List.cons_append, List.cons.injEq] at hqAB
    obtain ⟨rfl, hrest⟩ := hqAB
    have hcurlvl : manhattan s cur = d := hAlvl cur (by simp)
    obtain ⟨lc, hlc, hlclen, hlcb, hlcnodes⟩ := hinv.chainsEx cur hcv
    have hmid0 : BFS8Mid w h s d
        (⟨rest, st.visited, st.parent⟩ : BFSState) :=
      ⟨hinv.root, hinv.svis, hinv.visIn, hinv.visNodup, hinv.visKeys,
        hinv.keysVis, hinv.chainsEx, hcomp⟩
    have hns : ∀ n ∈ getNeighbors cur.1 cur.2 w h,
        manhattan cur n = 1 ∧ inBoundsB w h n = true := by
      intro n hn
      exact mem_getNeighbors hn
    obtain ⟨hmidE, extra, hqE, hviff, hvlen, hlev, hmem⟩ :=
      bfsExpand_c8 hcurlvl (getNeighbors cur.1 cur.2 w h)
        (⟨rest, st.visited, st.parent⟩ : BFSState) lc hmid0 hcv hns hlc
        (by omega) hlcb hlcnodes
    refine ⟨?_, extra, hqE, hvlen⟩
    refine ⟨hmidE.root, hmidE.svis, hmidE.visIn, hmidE.visNodup,
      hmidE.visKeys, hmidE.keysVis, ?_, ?_, ?_, hmidE.chainsEx, ?_⟩
    · intro v hv
      rw [hqE] at hv
      rcases List.mem_append.mp hv with hv' | hv'
      · exact (hviff v).mpr (Or.inr (hinv.qVis v (by rw [hq]; simp [hv'])))
      · exact (hviff v).mpr (Or.inl hv')
    · intro hev
      rcases (hviff e).mp hev with hev' | hev'
      · rw [hqE]
        exact List.mem_append.mpr (Or.inr hev')
      · have := hinv.eInQ hev'
        rw [hq] at this
        rcases List.mem_cons.mp this with rfl | hev''
        · exact absurd rfl hce
        · rw [hqE]
          exact List.mem_append.mpr (Or.inl hev'')
    · intro u hu
      rcases (hviff u).mp hu with hu' | hu'
      · exact Or.inl (by rw [hqE]; exact List.mem_append.mpr (Or.inr hu'))
      · rcases hinv.closure u hu' with huq | hucl
        · rw [hq] at huq
          rcases List.mem_cons.mp huq with rfl | huq'
          · refine Or.inr ?_
            intro m hum hmb
            exact hmem m (getNeighbors_complete hum hmb)
          · exact Or.inl (by
              rw [hqE]; exact List.mem_append.mpr (Or.inl huq'))
        · exact Or.inr fun m hum hmb =>
            (hviff m).mpr (Or.inr (hucl m hum hmb))
    · cases A' with
      | cons a2 A2 =>
        refine ⟨d, a2 :: A2, B ++ extra, ?_, ?_, ?_, by simp, ?_⟩
        · rw [hqE, hrest]
          simp
        · exact fun a ha => hAlvl a (by simp [List.mem_cons.mp ha])
        · intro b hb
          rcases List.mem_append.mp hb with hb' | hb'
          · exact hBlvl b hb'
          · exact hlev b hb'
        · exact fun v hvb hvd => (hviff v).mpr (Or.inr (hcomp v hvb hvd))
      | nil =>
        refine ⟨d + 1, B ++ extra, [], by rw [hqE, hrest]; simp, ?_,
          by simp, by simp, ?_⟩
        · intro b hb
          rcases List.mem_append.mp hb with hb' | hb'
          · exact hBlvl b hb'
          · exact hlev b hb'
        · intro v hvb hvd
          by_cases hvd' : manhattan s v ≤ d
          · exact (hviff v).mpr (Or.inr (hcomp v hvb hvd'))
          · have hveq : manhattan s v = d + 1 := by omega
            obtain ⟨u, hub, huv, hsu⟩ := step_toward hs hvb (by omega)
            have huvis : u ∈ st.visited := hcomp u hub (by omega)
            rcases hinv.closure u huvis with huq | hucl
            · rw [hq] at huq
              rcases List.mem_cons.mp huq with rfl | huq'
              · exact hmem v (getNeighbors_complete huv hvb)
              · rw [hrest] at huq'
                simp only [List.nil_append] at huq'
                have := hBlvl u huq'
                omega
            · exact (hviff v).mpr (Or.inr (hucl v huv hvb))

theorem bfs8_run {w h : Int} {s e : Coord} (hs : inBoundsB w h s = true)
    (he : inBoundsB w h e = true) :
    ∀ fuel st, BFS8Inv w h s e st →
      st.queue.length + 2 * (w.toNat * h.toNat) <
        fuel + 2 * st.visited.length →
      (runFrom (bfsStep w h e) fuel st).2 = Status.terminated ∧
      ∃ p, (runFrom (bfsStep w h e) fuel st).1.getLast? =
          some (Event.found p) ∧
        p.length = manhattan s e + 1 := by
  intro fuel
  induction fuel with
  | zero =>
    intro st hinv hM
    have hle := length_le_grid hinv.visNodup hinv.visIn
    omega
  | succ n ih =>
    intro st hinv hM
    cases hqe : st.queue with
    | nil =>
      exfalso
      have hall : ∀ v, inBoundsB w h v = true → v ∈ st.visited := by
        refine grid_induction _ hs hinv.svis ?_
        intro u v _ hvb huv _ hPu
        rcases hinv.closure u hPu with huq | hucl
        · rw [hqe] at huq
          simp at huq
        · exact hucl v huv hvb
      have := hinv.eInQ (hall e he)
      rw [hqe] at this
      simp at this
    | cons cur rest =>
      by_cases hce : cur = e
      · subst hce
        have hcv : cur ∈ st.visited := hinv.qVis cur (by rw [hqe]; simp)
        obtain ⟨l, hl, hllen, hlb, _⟩ := hinv.chainsEx cur hcv
        have hrec : reconstruct (st.parent.length + 1) st.parent cur =
            some l := reconstruct_of_chainL hl _ (by omega)
        have hbs : bfsStep w h cur st =
            StepRes.done [Event.exploring cur, Event.found l] := by
          simp [bfsStep, hqe, hrec]
        rw [runFrom, hbs]
        exact ⟨rfl, l, by rfl, by omega⟩
      · have hbs : bfsStep w h e st =
            StepRes.cont [Event.exploring cur, Event.visited cur]
              (bfsExpand cur (getNeighbors cur.1 cur.2 w h)
                (⟨rest, st.visited, st.parent⟩ : BFSState)) := by
          simp [bfsStep, hqe, hce]
        obtain ⟨hinvE, extra, hqE, hvlen⟩ :=
          bfs8_step_cont hs hinv hqe hce
        have hqlen : st.queue.length = rest.length + 1 := by
          rw [hqe]; rfl
        have hM' : (bfsExpand cur (getNeighbors cur.1 cur.2 w h)
              (⟨rest, st.visited, st.parent⟩ : BFSState)).queue.length +
              2 * (w.toNat * h.toNat) <
            n + 2 * (bfsExpand cur (getNeighbors cur.1 cur.2 w h)
              (⟨rest, st.visited, st.parent⟩ : BFSState)).visited.length := by
          rw [hqE, hvlen]
          simp only [List.length_append]
          omega
        obtain ⟨ih1, p, ih2, ih3⟩ := ih _ hinvE hM'
        rw [runFrom, hbs]
        refine ⟨ih1, p, ?_, ih3⟩
        rw [List.getLast?_append, ih2]
        rfl

theorem dij8_push {w h : Int} {s cur n : Coord} {curCost : Nat}
    {st : DijkstraState} (hcurlvl : manhattan s cur = curCost)
    (hmid : Dij8Mid w h s cur st) (hvn : n ∉ st.visited)
    (hadj : manhattan cur n = 1) (hnb : inBoundsB w h n = true)
    (himp : ∀ old, alookup st.cost n = some old → curCost + 1 < old) :
    Dij8Mid w h s cur (⟨insertSorted dijkstraLe (curCost + 1, n) st.pq,
      st.visited, (n, some cur) :: st.parent,
      (n, curCost + 1) :: st.cost⟩ : DijkstraState) ∧
    (∀ v c, alookup st.cost v = some c →
      ∃ c', alookup ((n, curCost + 1) :: st.cost) v = some c' ∧ c' ≤ c) := by
  have hncur : n ≠ cur := by
    intro hh
    rw [hh] at hadj
    simp [manhattan_self] at hadj
  have hns : n ≠ s := by
    intro hh
    have h0 : alookup st.cost n = some 0 := by
      rw [hh]
      exact hmid.rootCost
    have := himp 0 h0
    omega
  have hcmono : ∀ v c, alookup st.cost v = some c →
      ∃ c', alookup ((n, curCost + 1) :: st.cost) v = some c' ∧ c' ≤ c := by
    intro v c hvc
    by_cases hv : v = n
    · subst hv
      have := himp c hvc
      exact ⟨curCost + 1, alookup_cons_self, by omega⟩
    · exact ⟨c, by rw [alookup_cons_ne (Ne.symm hv)]; exact hvc, le_refl c⟩
  refine ⟨⟨?_, ?_, hmid.curVis, hmid.visIn, ?_, ?_, ?_, ?_, ?_, ?_⟩, hcmono⟩
  · rw [alookup_cons_ne hns]
    exact hmid.rootPar
  · rw [alookup_cons_ne hns]
    exact hmid.rootCost
  · intro v hv
    have hvne : v ≠ n := fun hh => hvn (hh ▸ hv)
    rw [alookup_cons_ne (Ne.symm hvne)]
    exact hmid.settled v hv
  · intro v c hvc
    by_cases hv : v = n
    · subst hv
      rw [alookup_cons_self] at hvc
      have hc : c = curCost + 1 := by
        injection hvc with hcc
        omega
      have hcc := hmid.settled cur hmid.curVis
      rw [hcurlvl] at hcc
      obtain ⟨lc, hlc, hlclen, hlcb, hlcn⟩ := hmid.chainsCost cur curCost hcc
      have hnlc : v ∉ lc := by
        intro hx
        rcases hlcn _ hx with hh | hh
        · exact hncur hh
        · exact hvn hh
      refine ⟨lc ++ [v],
        ChainL.step cur v lc alookup_cons_self hadj (chainL_cons hlc hnlc),
        ?_, ?_, ?_⟩
      · simp only [List.length_append, List.length_cons, List.length_nil]
        omega
      · simp only [List.length_cons, List.length_append, List.length_nil]
        omega
      · intro x hx
        rcases List.mem_append.mp hx with hx' | hx'
        · rcases hlcn _ hx' with hh | hh
          · exact Or.inr (hh ▸ hmid.curVis)
          · exact Or.inr hh
        · simp at hx'
          exact Or.inl hx'
    · rw [alookup_cons_ne (Ne.symm hv)] at hvc
      obtain ⟨l, hl, hllen, hlb, hln⟩ := hmid.chainsCost v c hvc
      have hnl : n ∉ l := by
        intro hx
        rcases hln _ hx with hh | hh
        · exact hv hh.symm
        · exact hvn hh
      refine ⟨l, chainL_cons hl hnl, hllen, ?_, hln⟩
      simp only [List.length_cons]
      omega
  · intro q hq
    rcases mem_insertSorted _ _ _ _ hq with rfl | hq'
    · exact ⟨hnb, curCost + 1, alookup_cons_self, le_refl _⟩
    · obtain ⟨hqb, c₀, hc₀, hc₀le⟩ := hmid.entries q hq'
      refine ⟨hqb, ?_⟩
      by_cases hq2 : q.2 = n
      · rw [hq2] at hc₀ ⊢
        have := himp c₀ hc₀
        exact ⟨curCost + 1, alookup_cons_self, by omega⟩
      · exact ⟨c₀, by rw [alookup_cons_ne (Ne.symm hq2)]; exact hc₀, hc₀le⟩
  · intro v c hvc hvnv
    by_cases hv : v = n
    · subst hv
      rw [alookup_cons_self] at hvc
      have hc : c = curCost + 1 := by
        injection hvc with hcc
        omega
      rw [hc]
      exact insertSorted_self_mem _ _ _
    · rw [alookup_cons_ne (Ne.symm hv)] at hvc
      exact insertSorted_mem_of_mem _ _ _ _ (hmid.bestEntry v c hvc hvnv)
  · exact insertSorted_pairwise dijkstraLe
      (fun a b => a.1 ≤ b.1)
      (fun a b c hab hbc => le_trans hab hbc)
      (fun a b hab => dijkstraLe_true_le hab)
      (fun a b hab => dijkstraLe_false_le hab) _ _ hmid.sorted
  · intro u hu hune m hum hmb
    rcases hmid.closureExc u hu hune m hum hmb with hm | ⟨c₀, hc₀, hc₀le⟩
    · exact Or.inl hm
    · by_cases hm2 : m = n
      · subst hm2
        have := himp c₀ hc₀
        exact Or.inr ⟨curCost + 1, alookup_cons_self, by omega⟩
      · exact Or.inr ⟨c₀,
          by rw [alookup_cons_ne (Ne.symm hm2)]; exact hc₀, hc₀le⟩

theorem dijkstraRelax_c8 {w h : Int} {s cur : Coord} {curCost : Nat}
    (hcurlvl : manhattan s cur = curCost) :
    ∀ ns st, Dij8Mid w h s cur st →
      (∀ n ∈ ns, manhattan cur n = 1 ∧ inBoundsB w h n = true) →
      Dij8Mid w h s cur (dijkstraRelax cur curCost ns st) ∧
      (dijkstraRelax cur curCost ns st).visited = st.visited ∧
      (∀ v c, alookup st.cost v = some c →
        ∃ c', alookup (dijkstraRelax cur curCost ns st).cost v = some c' ∧
          c' ≤ c) ∧
      (∀ n ∈ ns, n ∈ st.visited ∨
        ∃ c, alookup (dijkstraRelax cur curCost ns st).cost n = some c ∧
          c ≤ curCost + 1) ∧
      (dijkstraRelax cur curCost ns st).pq.length ≤
        st.pq.length + ns.length := by
  intro ns
  induction ns with
  | nil =>
    intro st hmid hns
    exact ⟨by simpa [dijkstraRelax] using hmid, by simp [dijkstraRelax],
      fun v c hvc => ⟨c, by simpa [dijkstraRelax] using hvc, le_refl c⟩,
      by simp, by simp [dijkstraRelax]⟩
  | cons n t ih =>
    intro st hmid hns
    have hn := hns n (by simp)
    by_cases hvn : n ∈ st.visited
    · have heq : dijkstraRelax cur curCost (n :: t) st =
          dijkstraRelax cur curCost t st := by
        simp [dijkstraRelax, hvn]
      rw [heq]
      obtain ⟨hmid', hvis', hcm', hr3', hpq'⟩ :=
        ih st hmid (fun m hm => hns m (by simp [hm]))
      refine ⟨hmid', hvis', hcm', ?_, by simp only [List.length_cons]; omega⟩
      intro m hm
      rcases List.mem_cons.mp hm with rfl | hm'
      · exact Or.inl hvn
      · exact hr3' m hm'
    · cases halo : alookup st.cost n with
      | none =>
        have heq : dijkstraRelax cur curCost (n :: t) st =
            dijkstraRelax cur curCost t
              (⟨insertSorted dijkstraLe (curCost + 1, n) st.pq,
                st.visited, (n, some cur) :: st.parent,
                (n, curCost + 1) :: st.cost⟩ : DijkstraState) := by
          simp [dijkstraRelax, hvn, halo]
        rw [heq]
        have himpn : ∀ old, alookup st.cost n = some old →
            curCost + 1 < old := by
          intro old hold
          rw [halo] at hold
          exact absurd hold (by simp)
        obtain ⟨hmid1, hcmono1⟩ := dij8_push hcurlvl hmid hvn hn.1 hn.2
          himpn
        obtain ⟨hmid', hvis', hcm', hr3', hpq'⟩ :=
          ih _ hmid1 (fun m hm => hns m (by simp [hm]))
        refine ⟨hmid', by rw [hvis'], ?_, ?_, ?_⟩
        · intro v c hvc
          obtain ⟨c1, hc1, hc1le⟩ := hcmono1 v c hvc
          obtain ⟨c2, hc2, hc2le⟩ := hcm' v c1 hc1
          exact ⟨c2, hc2, by omega⟩
        · intro m hm
          rcases List.mem_cons.mp hm with rfl | hm'
          · obtain ⟨c2, hc2, hc2le⟩ := hcm' m (curCost + 1)
              alookup_cons_self
            exact Or.inr ⟨c2, hc2, by omega⟩
          · rcases hr3' m hm' with hm2 | hm2
            · exact Or.inl hm2
            · exact Or.inr hm2
        · have hlen1 := insertSorted_length dijkstraLe (curCost + 1, n)
            st.pq
          simp only [List.length_cons]
          simp only [hlen1] at hpq'
          omega
      | some old =>
        by_cases himp : curCost + 1 < old
        · have heq : dijkstraRelax cur curCost (n :: t) st =
              dijkstraRelax cur curCost t
                (⟨insertSorted dijkstraLe (curCost + 1, n) st.pq,
                  st.visited, (n, some cur) :: st.parent,
                  (n, curCost + 1) :: st.cost⟩ : DijkstraState) := by
            simp [dijkstraRelax, hvn, halo, himp]
          rw [heq]
          have himps : ∀ o, alookup st.cost n = some o →
              curCost + 1 < o := by
            intro o ho
            rw [halo] at ho
            injection ho with ho'
            omega
          obtain ⟨hmid1, hcmono1⟩ := dij8_push hcurlvl hmid hvn hn.1 hn.2
            himps
          obtain ⟨hmid', hvis', hcm', hr3', hpq'⟩ :=
            ih _ hmid1 (fun m hm => hns m (by simp [hm]))
          refine ⟨hmid', by rw [hvis'], ?_, ?_, ?_⟩
          · intro v c hvc
            obtain ⟨c1, hc1, hc1le⟩ := hcmono1 v c hvc
            obtain ⟨c2, hc2, hc2le⟩ := hcm' v c1 hc1
            exact ⟨c2, hc2, by omega⟩
          · intro m hm
            rcases List.mem_cons.mp hm with rfl | hm'
            · obtain ⟨c2, hc2, hc2le⟩ := hcm' m (curCost + 1)
                alookup_cons_self
              exact Or.inr ⟨c2, hc2, by omega⟩
            · rcases hr3' m hm' with hm2 | hm2
              · exact Or.inl hm2
              · exact Or.inr hm2
          · have hlen1 := insertSorted_length dijkstraLe (curCost + 1, n)
              st.pq
            simp only [List.length_cons]
            simp only [hlen1] at hpq'
            omega
        · have heq : dijkstraRelax cur curCost (n :: t) st =
              dijkstraRelax cur curCost t st := by
            simp [dijkstraRelax, hvn, halo, himp]
          rw [heq]
          obtain ⟨hmid', hvis', hcm', hr3', hpq'⟩ :=
            ih st hmid (fun m hm => hns m (by simp [hm]))
          refine ⟨hmid', hvis', hcm', ?_,
            by simp only [List.length_cons]; omega⟩
          intro m hm
          rcases List.mem_cons.mp hm with rfl | hm'
          · obtain ⟨c2, hc2, hc2le⟩ := hcm' m old halo
            exact Or.inr ⟨c2, hc2, by omega⟩
          · exact hr3' m hm'

theorem dij8_minBound {w h : Int} {s e : Coord} {st : DijkstraState}
    (hs : inBoundsB w h s = true) (hinv : Dij8Inv w h s e st) :
    ∀ t, inBoundsB w h t = true → t ∈ st.visited ∨
      ∃ q ∈ st.pq, q.1 ≤ manhattan s t := by
  refine grid_induction _ hs ?_ ?_
  · by_cases hsv : s ∈ st.visited
    · exact Or.inl hsv
    · refine Or.inr ⟨(0, s), hinv.bestEntry s 0 hinv.rootCost hsv, ?_⟩
      exact Nat.zero_le _
  · intro u v hub hvb huv hlvl hPu
    by_cases hvv : v ∈ st.visited
    · exact Or.inl hvv
    · rcases hPu with huvis | ⟨q, hq, hqle⟩
      · rcases hinv.closure u huvis v huv hvb with hvv' | ⟨c, hc, hcle⟩
        · exact Or.inl hvv'
        · refine Or.inr ⟨(c, v), hinv.bestEntry v c hc hvv, ?_⟩
          show c ≤ manhattan s v
          have hsu := hinv.settled u huvis
          omega
      · exact Or.inr ⟨q, hq, by omega⟩

theorem dij8_pop_exact {w h : Int} {s e : Coord} {st : DijkstraState}
    {c : Nat} {cur : Coord} {rest : List (Nat × Coord)}
    (hs : inBoundsB w h s = true) (hinv : Dij8Inv w h s e st)
    (hq : st.pq = (c, cur) :: rest) (hcv : cur ∉ st.visited) :
    alookup st.cost cur = some c ∧ c = manhattan s cur ∧
    inBoundsB w h cur = true := by
  have hhead : (c, cur) ∈ st.pq := by rw [hq]; simp
  obtain ⟨hcb, c₀, hc₀, hc₀le⟩ := hinv.entries (c, cur) hhead
  have hc₀le' : c₀ ≤ c := hc₀le
  have hcb' : inBoundsB w h cur = true := hcb
  obtain ⟨l, hl, hllen, _, _⟩ := hinv.chainsCost cur c₀ hc₀
  have hlvl := chainL_length_ge hl
  rcases dij8_minBound hs hinv cur hcb' with hvis | ⟨q', hq', hq'le⟩
  · exact absurd hvis hcv
  · have hble : c ≤ manhattan s cur := by
      rw [hq] at hq'
      rcases List.mem_cons.mp hq' with heq | hq''
      · subst heq
        exact hq'le
      · have hp := hinv.sorted
        rw [hq, List.pairwise_cons] at hp
        have h2 : (c, cur).1 ≤ q'.1 := hp.1 q' hq''
        have h3 : c ≤ q'.1 := h2
        omega
    have hceq : c₀ = c := by omega
    have hlveq : c = manhattan s cur := by omega
    exact ⟨hceq ▸ hc₀, hlveq, hcb'⟩

theorem dij8_run {w h : Int} {s e : Coord} (hs : inBoundsB w h s = true)
    (he : inBoundsB w h e = true) :
    ∀ fuel st, Dij8Inv w h s e st →
      st.pq.length +
        5 * ((gridBox w h).filter (fun c => c ∉ st.visited)).card < fuel →
      (runFrom (dijkstraStep w h e) fuel st).2 = Status.terminated ∧
      ∃ p, (runFrom (dijkstraStep w h e) fuel st).1.getLast? =
          some (Event.found p) ∧
        p.length = manhattan s e + 1 := by
  intro fuel
  induction fuel with
  | zero =>
    intro st hinv hM
    omega
  | succ n ih =>
    intro st hinv hM
    cases hqe : st.pq with
    | nil =>
      exfalso
      rcases dij8_minBound hs hinv e he with hvis | ⟨q, hq, _⟩
      · exact hinv.eNotVis hvis
      · rw [hqe] at hq
        simp at hq
    | cons q0 rest =>
      obtain ⟨c, cur⟩ := q0
      by_cases hvq : cur ∈ st.visited
      · have hbs : dijkstraStep w h e st = StepRes.cont []
            (⟨rest, st.visited, st.parent, st.cost⟩ : DijkstraState) := by
          simp [dijkstraStep, hqe, hvq]
        have hinv' : Dij8Inv w h s e
            (⟨rest, st.visited, st.parent, st.cost⟩ : DijkstraState) := by
          refine ⟨hinv.rootPar, hinv.rootCost, hinv.eNotVis, hinv.visIn,
            hinv.settled, hinv.chainsCost, ?_, ?_, ?_, hinv.closure⟩
          · intro q hq'
            exact hinv.entries q
              (by rw [hqe]; exact List.mem_cons_of_mem _ hq')
          · intro v c' hc' hvn
            have hbm := hinv.bestEntry v c' hc' hvn
            rw [hqe] at hbm
            rcases List.mem_cons.mp hbm with heq | hmem
            · exfalso
              have hveq : v = cur := congrArg Prod.snd heq
              exact hvn (hveq ▸ hvq)
            · exact hmem
          · have hp := hinv.sorted
            rw [hqe, List.pairwise_cons] at hp
            exact hp.2
        have hM' : (⟨rest, st.visited, st.parent,
              st.cost⟩ : DijkstraState).pq.length +
            5 * ((gridBox w h).filter
              (fun c => c ∉ (⟨rest, st.visited, st.parent,
                st.cost⟩ : DijkstraState).visited)).card < n := by
          have hql : st.pq.length = rest.length + 1 := by rw [hqe]; rfl
          simp only
          omega
        obtain ⟨ih1, p, ih2, ih3⟩ := ih _ hinv' hM'
        rw [runFrom, hbs]
        refine ⟨ih1, p, ?_, ih3⟩
        simp only [List.nil_append]
        exact ih2
      · obtain ⟨hc, hlv, hcb⟩ := dij8_pop_exact hs hinv hqe hvq
        by_cases hce : cur = e
        · subst hce
          obtain ⟨l, hl, hllen, hlb, _⟩ := hinv.chainsCost cur c hc
          have hrec : reconstruct (st.parent.length + 1) st.parent cur =
              some l := reconstruct_of_chainL hl _ (by omega)
          have hbs : dijkstraStep w h cur st =
              StepRes.done [Event.exploring cur, Event.found l] := by
            simp [dijkstraStep, hqe, hvq, hrec]
          rw [runFrom, hbs]
          exact ⟨rfl, l, by rfl, by omega⟩
        · have hbs : dijkstraStep w h e st =
              StepRes.cont [Event.exploring cur, Event.visited cur]
                (dijkstraRelax cur c (getNeighbors cur.1 cur.2 w h)
                  (⟨rest, cur :: st.visited, st.parent,
                    st.cost⟩ : DijkstraState)) := by
            simp [dijkstraStep, hqe, hvq, hce]
          have hmid0 : Dij8Mid w h s cur
              (⟨rest, cur :: st.visited, st.parent,
                st.cost⟩ : DijkstraState) := by
            refine ⟨hinv.rootPar, hinv.rootCost, List.mem_cons_self _ _,
              ?_, ?_, ?_, ?_, ?_, ?_, ?_⟩
            · intro v hv
              rcases List.mem_cons.mp hv with rfl | hv'
              · exact hcb
              · exact hinv.visIn v hv'
            · intro v hv
              rcases List.mem_cons.mp hv with rfl | hv'
              · rw [hc, hlv]
              · exact hinv.settled v hv'
            · intro v c' hvc
              obtain ⟨l, hl, hllen, hlb, hln⟩ := hinv.chainsCost v c' hvc
              refine ⟨l, hl, hllen, hlb, ?_⟩
              intro x hx
              rcases hln x hx with hh | hh
              · exact Or.inl hh
              · exact Or.inr (List.mem_cons_of_mem _ hh)
            · intro q hq'
              exact hinv.entries q
                (by rw [hqe]; exact List.mem_cons_of_mem _ hq')
            · intro v c' hvc hvn
              have hvn' : v ∉ st.visited := fun hh =>
                hvn (List.mem_cons_of_mem _ hh)
              have hvnc : v ≠ cur := fun hh =>
                hvn (hh ▸ List.mem_cons_self _ _)
              have hbm := hinv.bestEntry v c' hvc hvn'
              rw [hqe] at hbm
              rcases List.mem_cons.mp hbm with heq | hmem
              · exact absurd (congrArg Prod.snd heq) hvnc
              · exact hmem
            · have hp := hinv.sorted
              rw [hqe, List.pairwise_cons] at hp
              exact hp.2
            · intro u hu hune m hum hmb
              have hu' : u ∈ st.visited := by
                rcases List.mem_cons.mp hu with rfl | hu''
                · exact absurd rfl hune
                · exact hu''
              rcases hinv.closure u hu' m hum hmb with hm | hm
              · exact Or.inl (List.mem_cons_of_mem _ hm)
              · exact Or.inr hm
          obtain ⟨hmidF, hvisF, hcmF, hr3F, hpqF⟩ :=
            dijkstraRelax_c8 hlv.symm (getNeighbors cur.1 cur.2 w h)
              (⟨rest, cur :: st.visited, st.parent,
                st.cost⟩ : DijkstraState) hmid0
              (fun m hm => mem_getNeighbors hm)
          have hinvF : Dij8Inv w h s e
              (dijkstraRelax cur c (getNeighbors cur.1 cur.2 w h)
                (⟨rest, cur :: st.visited, st.parent,
                  st.cost⟩ : DijkstraState)) := by
            refine ⟨hmidF.rootPar, hmidF.rootCost, ?_, hmidF.visIn,
              hmidF.settled, hmidF.chainsCost, hmidF.entries,
              hmidF.bestEntry, hmidF.sorted, ?_⟩
            · rw [hvisF]
              intro hh
              rcases List.mem_cons.mp hh with rfl | hh'
              · exact hce rfl
              · exact hinv.eNotVis hh'
            · intro u hu m hum hmb
              by_cases hucur : u = cur
              · subst hucur
                rcases hr3F m (getNeighbors_complete hum hmb) with hm | hm
                · exact Or.inl (by rw [hvisF]; exact hm)
                · refine Or.inr ?_
                  obtain ⟨c', hc', hc'le⟩ := hm
                  exact ⟨c', hc', by omega⟩
              · exact hmidF.closureExc u hu hucur m hum hmb
          have hcard := unvis_card_cons hcb hvq
          have hql : st.pq.length = rest.length + 1 := by rw [hqe]; rfl
          have hnsl := getNeighbors_length_le cur.1 cur.2 w h
          have hM' : (dijkstraRelax cur c (getNeighbors cur.1 cur.2 w h)
                (⟨rest, cur :: st.visited, st.parent,
                  st.cost⟩ : DijkstraState)).pq.length +
              5 * ((gridBox w h).filter (fun x =>
                x ∉ (dijkstraRelax cur c (getNeighbors cur.1 cur.2 w h)
                  (⟨rest, cur :: st.visited, st.parent,
                    st.cost⟩ : DijkstraState)).visited)).card < n := by
            have hvc : ((gridBox w h).filter (fun x =>
                x ∉ (dijkstraRelax cur c (getNeighbors cur.1 cur.2 w h)
                  (⟨rest, cur :: st.visited, st.parent,
                    st.cost⟩ : DijkstraState)).visited)).card + 1 =
                ((gridBox w h).filter (fun x => x ∉ st.visited)).card := by
              rw [hvisF]
              exact hcard
            have hpqF' : (dijkstraRelax cur c
                (getNeighbors cur.1 cur.2 w h)
                (⟨rest, cur :: st.visited, st.parent,
                  st.cost⟩ : DijkstraState)).pq.length ≤
                rest.length + (getNeighbors cur.1 cur.2 w h).length :=
              hpqF
            omega
          obtain ⟨ih1, p, ih2, ih3⟩ := ih _ hinvF hM'
          rw [runFrom, hbs]
          refine ⟨ih1, p, ?_, ih3⟩
          rw [List.getLast?_append, ih2]
          rfl

theorem astar8_push {w h : Int} {s e cur n : Coord} {curG : Nat}
    {st : AStarState} (hcurlvl : manhattan s cur = curG)
    (hmid : AStar8Mid w h s e cur st) (hvn : n ∉ st.visited)
    (hadj : manhattan cur n = 1) (hnb : inBoundsB w h n = true)
    (himp : ∀ old, alookup st.gScore n = some old → curG + 1 < old) :
    AStar8Mid w h s e cur
      (⟨insertSorted astarLe (curG + 1 + manhattan n e, curG + 1, n) st.pq,
        st.visited, (n, some cur) :: st.parent,
        (n, curG + 1) :: st.gScore⟩ : AStarState) ∧
    (∀ v g, alookup st.gScore v = some g →
      ∃ g', alookup ((n, curG + 1) :: st.gScore) v = some g' ∧ g' ≤ g) := by
  have hncur : n ≠ cur := by
    intro hh
    rw [hh] at hadj
    simp [manhattan_self] at hadj
  have hns : n ≠ s := by
    intro hh
    have h0 : alookup st.gScore n = some 0 := by
      rw [hh]
      exact hmid.rootG
    have := himp 0 h0
    omega
  have hcmono : ∀ v g, alookup st.gScore v = some g →
      ∃ g', alookup ((n, curG + 1) :: st.gScore) v = some g' ∧ g' ≤ g := by
    intro v g hvg
    by_cases hv : v = n
    · subst hv
      have := himp g hvg
      exact ⟨curG + 1, alookup_cons_self, by omega⟩
    · exact ⟨g, by rw [alookup_cons_ne (Ne.symm hv)]; exact hvg, le_refl g⟩
  refine ⟨⟨?_, ?_, hmid.curVis, hmid.visIn, ?_, ?_, ?_, ?_, ?_, ?_⟩, hcmono⟩
  · rw [alookup_cons_ne hns]
    exact hmid.rootPar
  · rw [alookup_cons_ne hns]
    exact hmid.rootG
  · intro v hv
    have hvne : v ≠ n := fun hh => hvn (hh ▸ hv)
    rw [alookup_cons_ne (Ne.symm hvne)]
    exact hmid.settled v hv
  · intro v g hvg
    by_cases hv : v = n
    · subst hv
      rw [alookup_cons_self] at hvg
      have hg : g = curG + 1 := by
        injection hvg with hgg
        omega
      have hgc := hmid.settled cur hmid.curVis
      rw [hcurlvl] at hgc
      obtain ⟨lc, hlc, hlclen, hlcb, hlcn⟩ := hmid.chainsG cur curG hgc
      have hnlc : v ∉ lc := by
        intro hx
        rcases hlcn _ hx with hh | hh
        · exact hncur hh
        · exact hvn hh
      refine ⟨lc ++ [v],
        ChainL.step cur v lc alookup_cons_self hadj (chainL_cons hlc hnlc),
        ?_, ?_, ?_⟩
      · simp only [List.length_append, List.length_cons, List.length_nil]
        omega
      · simp only [List.length_cons, List.length_append, List.length_nil]
        omega
      · intro x hx
        rcases List.mem_append.mp hx with hx' | hx'
        · rcases hlcn _ hx' with hh | hh
          · exact Or.inr (hh ▸ hmid.curVis)
          · exact Or.inr hh
        · simp at hx'
          exact Or.inl hx'
    · rw [alookup_cons_ne (Ne.symm hv)] at hvg
      obtain ⟨l, hl, hllen, hlb, hln⟩ := hmid.chainsG v g hvg
      have hnl : n ∉ l := by
        intro hx
        rcases hln _ hx with hh | hh
        · exact hv hh.symm
        · exact hvn hh
      refine ⟨l, chainL_cons hl hnl, hllen, ?_, hln⟩
      simp only [List.length_cons]
      omega
  · intro q hq
    rcases mem_insertSorted _ _ _ _ hq with rfl | hq'
    · exact ⟨hnb, le_refl _, Or.inl (le_refl _), curG + 1,
        alookup_cons_self, le_refl _⟩
    · obtain ⟨hqb, hqfle, hqfge, g₀, hg₀, hg₀le⟩ := hmid.entries q hq'
      refine ⟨hqb, hqfle, hqfge, ?_⟩
      by_cases hq2 : q.2.2 = n
      · rw [hq2] at hg₀ ⊢
        have := himp g₀ hg₀
        exact ⟨curG + 1, alookup_cons_self, by omega⟩
      · exact ⟨g₀, by rw [alookup_cons_ne (Ne.symm hq2)]; exact hg₀, hg₀le⟩
  · intro v g hvg hvnv
    by_cases hv : v = n
    · subst hv
      rw [alookup_cons_self] at hvg
      have hg : g = curG + 1 := by
        injection hvg with hgg
        omega
      rw [hg]
      exact ⟨curG + 1 + manhattan v e, insertSorted_self_mem _ _ _⟩
    · rw [alookup_cons_ne (Ne.symm hv)] at hvg
      obtain ⟨f, hf⟩ := hmid.bestEntry v g hvg hvnv
      exact ⟨f, insertSorted_mem_of_mem _ _ _ _ hf⟩
  · exact insertSorted_pairwise astarLe
      (fun a b => a.1 ≤ b.1)
      (fun a b c hab hbc => le_trans hab hbc)
      (fun a b hab => astarLe_true_le hab)
      (fun a b hab => astarLe_false_le hab) _ _ hmid.sorted
  · intro u hu hune m hum hmb
    rcases hmid.closureExc u hu hune m hum hmb with hm | ⟨g₀, hg₀, hg₀le⟩
    · exact Or.inl hm
    · by_cases hm2 : m = n
      · subst hm2
        have := himp g₀ hg₀
        exact Or.inr ⟨curG + 1, alookup_cons_self, by omega⟩
      · exact Or.inr ⟨g₀,
          by rw [alookup_cons_ne (Ne.symm hm2)]; exact hg₀, hg₀le⟩

theorem astarRelax_c8 {w h : Int} {s e cur : Coord} {curG : Nat}
    (hcurlvl : manhattan s cur = curG) :
    ∀ ns st, AStar8Mid w h s e cur st →
      (∀ n ∈ ns, manhattan cur n = 1 ∧ inBoundsB w h n = true) →
      AStar8Mid w h s e cur (astarRelax e cur curG ns st) ∧
      (astarRelax e cur curG ns st).visited = st.visited ∧
      (∀ v g, alookup st.gScore v = some g →
        ∃ g', alookup (astarRelax e cur curG ns st).gScore v = some g' ∧
          g' ≤ g) ∧
      (∀ n ∈ ns, n ∈ st.visited ∨
        ∃ g, alookup (astarRelax e cur curG ns st).gScore n = some g ∧
          g ≤ curG + 1) ∧
      (astarRelax e cur curG ns st).pq.length ≤
        st.pq.length + ns.length := by
  intro ns
  induction ns with
  | nil =>
    intro st hmid hns
    exact ⟨by simpa [astarRelax] using hmid, by simp [astarRelax],
      fun v g hvg => ⟨g, by simpa [astarRelax] using hvg, le_refl g⟩,
      by simp, by simp [astarRelax]⟩
  | cons n t ih =>
    intro st hmid hns
    have hn := hns n (by simp)
    by_cases hvn : n ∈ st.visited
    · have heq : astarRelax e cur curG (n :: t) st =
          astarRelax e cur curG t st := by
        simp [astarRelax, hvn]
      rw [heq]
      obtain ⟨hmid', hvis', hcm', hr3', hpq'⟩ :=
        ih st hmid (fun m hm => hns m (by simp [hm]))
      refine ⟨hmid', hvis', hcm', ?_, by simp only [List.length_cons]; omega⟩
      intro m hm
      rcases List.mem_cons.mp hm with rfl | hm'
      · exact Or.inl hvn
      · exact hr3' m hm'
    · cases halo : alookup st.gScore n with
      | none =>
        have heq : astarRelax e cur curG (n :: t) st =
            astarRelax e cur curG t
              (⟨insertSorted astarLe
                  (curG + 1 + manhattan n e, curG + 1, n) st.pq,
                st.visited, (n, some cur) :: st.parent,
                (n, curG + 1) :: st.gScore⟩ : AStarState) := by
          simp [astarRelax, hvn, halo]
        rw [heq]
        have himpn : ∀ old, alookup st.gScore n = some old →
            curG + 1 < old := by
          intro old hold
          rw [halo] at hold
          exact absurd hold (by simp)
        obtain ⟨hmid1, hcmono1⟩ := astar8_push hcurlvl hmid hvn hn.1 hn.2
          himpn
        obtain ⟨hmid', hvis', hcm', hr3', hpq'⟩ :=
          ih _ hmid1 (fun m hm => hns m (by simp [hm]))
        refine ⟨hmid', by rw [hvis'], ?_, ?_, ?_⟩
        · intro v g hvg
          obtain ⟨g1, hg1, hg1le⟩ := hcmono1 v g hvg
          obtain ⟨g2, hg2, hg2le⟩ := hcm' v g1 hg1
          exact ⟨g2, hg2, by omega⟩
        · intro m hm
          rcases List.mem_cons.mp hm with rfl | hm'
          · obtain ⟨g2, hg2, hg2le⟩ := hcm' m (curG + 1)
              alookup_cons_self
            exact Or.inr ⟨g2, hg2, by omega⟩
          · rcases hr3' m hm' with hm2 | hm2
            · exact Or.inl hm2
            · exact Or.inr hm2
        · have hlen1 := insertSorted_length astarLe
            (curG + 1 + manhattan n e, curG + 1, n) st.pq
          simp only [List.length_cons]
          simp only [hlen1] at hpq'
          omega
      | some old =>
        by_cases himp : curG + 1 < old
        · have heq : astarRelax e cur curG (n :: t) st =
              astarRelax e cur curG t
                (⟨insertSorted astarLe
                    (curG + 1 + manhattan n e, curG + 1, n) st.pq,
                  st.visited, (n, some cur) :: st.parent,
                  (n, curG + 1) :: st.gScore⟩ : AStarState) := by
            simp [astarRelax, hvn, halo, himp]
          rw [heq]
          have himps : ∀ o, alookup st.gScore n = some o →
              curG + 1 < o := by
            intro o ho
            rw [halo] at ho
            injection ho with ho'
            omega
          obtain ⟨hmid1, hcmono1⟩ := astar8_push hcurlvl hmid hvn hn.1 hn.2
            himps
          obtain ⟨hmid', hvis', hcm', hr3', hpq'⟩ :=
            ih _ hmid1 (fun m hm => hns m (by simp [hm]))
          refine ⟨hmid', by rw [hvis'], ?_, ?_, ?_⟩
          · intro v g hvg
            obtain ⟨g1, hg1, hg1le⟩ := hcmono1 v g hvg
            obtain ⟨g2, hg2, hg2le⟩ := hcm' v g1 hg1
            exact ⟨g2, hg2, by omega⟩
          · intro m hm
            rcases List.mem_cons.mp hm with rfl | hm'
            · obtain ⟨g2, hg2, hg2le⟩ := hcm' m (curG + 1)
                alookup_cons_self
              exact Or.inr ⟨g2, hg2, by omega⟩
            · rcases hr3' m hm' with hm2 | hm2
              · exact Or.inl hm2
              · exact Or.inr hm2
          · have hlen1 := insertSorted_length astarLe
              (curG + 1 + manhattan n e, curG + 1, n) st.pq
            simp only [List.length_cons]
            simp only [hlen1] at hpq'
            omega
        · have heq : astarRelax e cur curG (n :: t) st =
              astarRelax e cur curG t st := by
            simp [astarRelax, hvn, halo, himp]
          rw [heq]
          obtain ⟨hmid', hvis', hcm', hr3', hpq'⟩ :=
            ih st hmid (fun m hm => hns m (by simp [hm]))
          refine ⟨hmid', hvis', hcm', ?_,
            by simp only [List.length_cons]; omega⟩
          intro m hm
          rcases List.mem_cons.mp hm with rfl | hm'
          · obtain ⟨g2, hg2, hg2le⟩ := hcm' m old halo
            exact Or.inr ⟨g2, hg2, by omega⟩
          · exact hr3' m hm'

theorem astar8_minBound {w h : Int} {s e : Coord} {st : AStarState}
    (hs : inBoundsB w h s = true) (hinv : AStar8Inv w h s e st) :
    ∀ t, inBoundsB w h t = true → t ∈ st.visited ∨
      ∃ q ∈ st.pq, q.2.1 + manhattan q.2.2 t ≤ manhattan s t := by
  refine grid_induction _ hs ?_ ?_
  · by_cases hsv : s ∈ st.visited
    · exact Or.inl hsv
    · obtain ⟨f, hf⟩ := hinv.bestEntry s 0 hinv.rootG hsv
      refine Or.inr ⟨(f, 0, s), hf, ?_⟩
      show 0 + manhattan s s ≤ manhattan s s
      omega
  · intro u v hub hvb huv hlvl hPu
    by_cases hvv : v ∈ st.visited
    · exact Or.inl hvv
    · rcases hPu with huvis | ⟨q, hq, hqle⟩
      · rcases hinv.closure u huvis v huv hvb with hvv' | ⟨g, hg, hgle⟩
        · exact Or.inl hvv'
        · obtain ⟨f, hf⟩ := hinv.bestEntry v g hg hvv
          refine Or.inr ⟨(f, g, v), hf, ?_⟩
          show g + manhattan v v ≤ manhattan s v
          rw [manhattan_self]
          omega
      · refine Or.inr ⟨q, hq, ?_⟩
        have htr := manhattan_triangle q.2.2 u v
        omega

theorem astar8_pop_exact {w h : Int} {s e : Coord} {st : AStarState}
    {f g : Nat} {cur : Coord} {rest : List (Nat × Nat × Coord)}
    (hs : inBoundsB w h s = true) (hinv : AStar8Inv w h s e st)
    (hq : st.pq = (f, g, cur) :: rest) (hcv : cur ∉ st.visited) :
    alookup st.gScore cur = some g ∧ g = manhattan s cur ∧
    inBoundsB w h cur = true := by
  have hhead : (f, g, cur) ∈ st.pq := by rw [hq]; simp
  obtain ⟨hcb, hfle, hfge, g₀, hg₀, hg₀le⟩ := hinv.entries (f, g, cur) hhead
  have hfle' : f ≤ g + manhattan cur e := hfle
  have hfge' : g + manhattan cur e ≤ f ∨ g = 0 := hfge
  have hg₀le' : g₀ ≤ g := hg₀le
  have hcb' : inBoundsB w h cur = true := hcb
  obtain ⟨l, hl, hllen, _, _⟩ := hinv.chainsG cur g₀ hg₀
  have hlvl := chainL_length_ge hl
  rcases astar8_minBound hs hinv cur hcb' with hvis | ⟨q', hq', hq'le⟩
  · exact absurd hvis hcv
  · have hble : g ≤ manhattan s cur := by
      rw [hq] at hq'
      rcases List.mem_cons.mp hq' with heq | hq''
      · subst heq
        have hself : g + manhattan cur cur ≤ manhattan s cur := hq'le
        rw [manhattan_self] at hself
        omega
      · have hp := hinv.sorted
        rw [hq, List.pairwise_cons] at hp
        have h2 : (f, g, cur).1 ≤ q'.1 := hp.1 q' hq''
        have h3 : f ≤ q'.1 := h2
        obtain ⟨_, hfle2, _, _⟩ := hinv.entries q'
          (by rw [hq]; exact List.mem_cons_of_mem _ hq'')
        have htr := manhattan_triangle q'.2.2 cur e
        rcases hfge' with hfge'' | hfge''
        · omega
        · omega
    have hgeq : g₀ = g := by omega
    have hlveq : g = manhattan s cur := by omega
    exact ⟨hgeq ▸ hg₀, hlveq, hcb'⟩

theorem astar8_run {w h : Int} {s e : Coord} (hs : inBoundsB w h s = true)
    (he : inBoundsB w h e = true) :
    ∀ fuel st, AStar8Inv w h s e st →
      st.pq.length +
        5 * ((gridBox w h).filter (fun c => c ∉ st.visited)).card < fuel →
      (runFrom (astarStep w h e) fuel st).2 = Status.terminated ∧
      ∃ p, (runFrom (astarStep w h e) fuel st).1.getLast? =
          some (Event.found p) ∧
        p.length = manhattan s e + 1 := by
  intro fuel
  induction fuel with
  | zero =>
    intro st hinv hM
    omega
  | succ n ih =>
    intro st hinv hM
    cases hqe : st.pq with
    | nil =>
      exfalso
      rcases astar8_minBound hs hinv e he with hvis | ⟨q, hq, _⟩
      · exact hinv.eNotVis hvis
      · rw [hqe] at hq
        simp at hq
    | cons q0 rest =>
      obtain ⟨f, g, cur⟩ := q0
      by_cases hvq : cur ∈ st.visited
      · have hbs : astarStep w h e st = StepRes.cont []
            (⟨rest, st.visited, st.parent, st.gScore⟩ : AStarState) := by
          simp [astarStep, hqe, hvq]
        have hinv' : AStar8Inv w h s e
            (⟨rest, st.visited, st.parent, st.gScore⟩ : AStarState) := by
          refine ⟨hinv.rootPar, hinv.rootG, hinv.eNotVis, hinv.visIn,
            hinv.settled, hinv.chainsG, ?_, ?_, ?_, hinv.closure⟩
          · intro q hq'
            exact hinv.entries q
              (by rw [hqe]; exact List.mem_cons_of_mem _ hq')
          · intro v g' hg' hvn
            obtain ⟨f', hbm⟩ := hinv.bestEntry v g' hg' hvn
            rw [hqe] at hbm
            rcases List.mem_cons.mp hbm with heq | hmem
            · exfalso
              have hveq : v = cur := congrArg (fun q => q.2.2) heq
              exact hvn (hveq ▸ hvq)
            · exact ⟨f', hmem⟩
          · have hp := hinv.sorted
            rw [hqe, List.pairwise_cons] at hp
            exact hp.2
        have hM' : (⟨rest, st.visited, st.parent,
              st.gScore⟩ : AStarState).pq.length +
            5 * ((gridBox w h).filter
              (fun c => c ∉ (⟨rest, st.visited, st.parent,
                st.gScore⟩ : AStarState).visited)).card < n := by
          have hql : st.pq.length = rest.length + 1 := by rw [hqe]; rfl
          simp only
          omega
        obtain ⟨ih1, p, ih2, ih3⟩ := ih _ hinv' hM'
        rw [runFrom, hbs]
        refine ⟨ih1, p, ?_, ih3⟩
        simp only [List.nil_append]
        exact ih2
      · obtain ⟨hg, hlv, hcb⟩ := astar8_pop_exact hs hinv hqe hvq
        by_cases hce : cur = e
        · subst hce
          obtain ⟨l, hl, hllen, hlb, _⟩ := hinv.chainsG cur g hg
          have hrec : reconstruct (st.parent.length + 1) st.parent cur =
              some l := reconstruct_of_chainL hl _ (by omega)
          have hbs : astarStep w h cur st =
              StepRes.done [Event.exploring cur, Event.found l] := by
            simp [astarStep, hqe, hvq, hrec]
          rw [runFrom, hbs]
          exact ⟨rfl, l, by rfl, by omega⟩
        · have hbs : astarStep w h e st =
              StepRes.cont [Event.exploring cur, Event.visited cur]
                (astarRelax e cur g (getNeighbors cur.1 cur.2 w h)
                  (⟨rest, cur :: st.visited, st.parent,
                    st.gScore⟩ : AStarState)) := by
            simp [astarStep, hqe, hvq, hce]
          have hmid0 : AStar8Mid w h s e cur
              (⟨rest, cur :: st.visited, st.parent,
                st.gScore⟩ : AStarState) := by
            refine ⟨hinv.rootPar, hinv.rootG, List.mem_cons_self _ _,
              ?_, ?_, ?_, ?_, ?_, ?_, ?_⟩
            · intro v hv
              rcases List.mem_cons.mp hv with rfl | hv'
              · exact hcb
              · exact hinv.visIn v hv'
            · intro v hv
              rcases List.mem_cons.mp hv with rfl | hv'
              · rw [hg, hlv]
              · exact hinv.settled v hv'
            · intro v g' hvg
              obtain ⟨l, hl, hllen, hlb, hln⟩ := hinv.chainsG v g' hvg
              refine ⟨l, hl, hllen, hlb, ?_⟩
              intro x hx
              rcases hln x hx with hh | hh
              · exact Or.inl hh
              · exact Or.inr (List.mem_cons_of_mem _ hh)
            · intro q hq'
              exact hinv.entries q
                (by rw [hqe]; exact List.mem_cons_of_mem _ hq')
            · intro v g' hvg hvn
              have hvn' : v ∉ st.visited := fun hh =>
                hvn (List.mem_cons_of_mem _ hh)
              have hvnc : v ≠ cur := fun hh =>
                hvn (hh ▸ List.mem_cons_self _ _)
              obtain ⟨f', hbm⟩ := hinv.bestEntry v g' hvg hvn'
              rw [hqe] at hbm
              rcases List.mem_cons.mp hbm with heq | hmem
              · exact absurd (congrArg (fun q => q.2.2) heq) hvnc
              · exact ⟨f', hmem⟩
            · have hp := hinv.sorted
              rw [hqe, List.pairwise_cons] at hp
              exact hp.2
            · intro u hu hune m hum hmb
              have hu' : u ∈ st.visited := by
                rcases List.mem_cons.mp hu with rfl | hu''
                · exact absurd rfl hune
                · exact hu''
              rcases hinv.closure u hu' m hum hmb with hm | hm
              · exact Or.inl (List.mem_cons_of_mem _ hm)
              · exact Or.inr hm
          obtain ⟨hmidF, hvisF, hcmF, hr3F, hpqF⟩ :=
            astarRelax_c8 hlv.symm (getNeighbors cur.1 cur.2 w h)
              (⟨rest, cur :: st.visited, st.parent,
                st.gScore⟩ : AStarState) hmid0
              (fun m hm => mem_getNeighbors hm)
          have hinvF : AStar8Inv w h s e
              (astarRelax e cur g (getNeighbors cur.1 cur.2 w h)
                (⟨rest, cur :: st.visited, st.parent,
                  st.gScore⟩ : AStarState)) := by
            refine ⟨hmidF.rootPar, hmidF.rootG, ?_, hmidF.visIn,
              hmidF.settled, hmidF.chainsG, hmidF.entries,
              hmidF.bestEntry, hmidF.sorted, ?_⟩
            · rw [hvisF]
              intro hh
              rcases List.mem_cons.mp hh with rfl | hh'
              · exact hce rfl
              · exact hinv.eNotVis hh'
            · intro u hu m hum hmb
              by_cases hucur : u = cur
              · subst hucur
                rcases hr3F m (getNeighbors_complete hum hmb) with hm | hm
                · exact Or.inl (by rw [hvisF]; exact hm)
                · refine Or.inr ?_
                  obtain ⟨g', hg', hg'le⟩ := hm
                  exact ⟨g', hg', by omega⟩
              · exact hmidF.closureExc u hu hucur m hum hmb
          have hcard := unvis_card_cons hcb hvq
          have hql : st.pq.length = rest.length + 1 := by rw [hqe]; rfl
          have hnsl := getNeighbors_length_le cur.1 cur.2 w h
          have hM' : (astarRelax e cur g (getNeighbors cur.1 cur.2 w h)
                (⟨rest, cur :: st.visited, st.parent,
                  st.gScore⟩ : AStarState)).pq.length +
              5 * ((gridBox w h).filter (fun x =>
                x ∉ (astarRelax e cur g (getNeighbors cur.1 cur.2 w h)
                  (⟨rest, cur :: st.visited, st.parent,
                    st.gScore⟩ : AStarState)).visited)).card < n := by
            have hvc : ((gridBox w h).filter (fun x =>
                x ∉ (astarRelax e cur g (getNeighbors cur.1 cur.2 w h)
                  (⟨rest, cur :: st.visited, st.parent,
                    st.gScore⟩ : AStarState)).visited)).card + 1 =
                ((gridBox w h).filter (fun x => x ∉ st.visited)).card := by
              rw [hvisF]
              exact hcard
            have hpqF' : (astarRelax e cur g
                (getNeighbors cur.1 cur.2 w h)
                (⟨rest, cur :: st.visited, st.parent,
                  st.gScore⟩ : AStarState)).pq.length ≤
                rest.length + (getNeighbors cur.1 cur.2 w h).length :=
              hpqF
            omega
          obtain ⟨ih1, p, ih2, ih3⟩ := ih _ hinvF hM'
          rw [runFrom, hbs]
          refine ⟨ih1, p, ?_, ih3⟩
          rw [List.getLast?_append, ih2]
          rfl

theorem bfs8_init {w h : Int} {s e : Coord} (hs : inBoundsB w h s = true) :
    BFS8Inv w h s e (bfsInit s) := by
  refine ⟨by simp [bfsInit, alookup], by simp [bfsInit], ?_, ?_, ?_, ?_,
    ?_, ?_, ?_, ?_, ?_⟩
  · intro v hv
    simp [bfsInit] at hv
    subst hv
    exact hs
  · simp [bfsInit]
  · intro v hv
    simp [bfsInit] at hv
    subst hv
    simp [bfsInit, alookup]
  · intro v hv
    by_cases hvs : v = s
    · subst hvs
      simp [bfsInit]
    · exfalso
      rw [bfsInit] at hv
      simp only at hv
      rw [alookup_cons_ne (Ne.symm hvs)] at hv
      exact hv rfl
  · intro v hv
    simpa [bfsInit] using hv
  · exact fun hev => hev
  · intro u hu
    exact Or.inl hu
  · intro v hv
    simp [bfsInit] at hv
    subst hv
    exact ⟨[v], ChainL.base (by simp [bfsInit, alookup]),
      by simp [manhattan_self], by simp [bfsInit], by simp [bfsInit]⟩
  · refine ⟨0, [s], [], by simp [bfsInit], ?_, by simp, by simp, ?_⟩
    · intro a ha
      simp at ha
      subst ha
      simp [manhattan_self]
    · intro v hvb hvd
      have hsv : s = v := manhattan_eq_zero (by omega)
      simp [bfsInit, ← hsv]

theorem dij8_init {w h : Int} {s e : Coord} (hs : inBoundsB w h s = true) :
    Dij8Inv w h s e (dijkstraInit s) := by
  refine ⟨by simp [dijkstraInit, alookup], by simp [dijkstraInit, alookup],
    by simp [dijkstraInit], by simp [dijkstraInit],
    by simp [dijkstraInit], ?_, ?_, ?_, ?_, by simp [dijkstraInit]⟩
  · intro v c hvc
    rw [dijkstraInit] at hvc
    simp only at hvc
    by_cases hvs : v = s
    · subst hvs
      rw [alookup_cons_self] at hvc
      injection hvc with hc
      refine ⟨[v], ChainL.base (by simp [dijkstraInit, alookup]), ?_,
        by simp [dijkstraInit], by simp⟩
      simp [manhattan_self]
      omega
    · exfalso
      rw [alookup_cons_ne (Ne.symm hvs)] at hvc
      simp [alookup] at hvc
  · intro q hq
    simp [dijkstraInit] at hq
    subst hq
    exact ⟨hs, 0, by simp [dijkstraInit, alookup], le_refl _⟩
  · intro v c hvc hvn
    rw [dijkstraInit] at hvc
    simp only at hvc
    by_cases hvs : v = s
    · subst hvs
      rw [alookup_cons_self] at hvc
      injection hvc with hc
      rw [← hc]
      simp [dijkstraInit]
    · exfalso
      rw [alookup_cons_ne (Ne.symm hvs)] at hvc
      simp [alookup] at hvc
  · simp [dijkstraInit]

theorem astar8_init {w h : Int} {s e : Coord}
    (hs : inBoundsB w h s = true) :
    AStar8Inv w h s e (astarInit s) := by
  refine ⟨by simp [astarInit, alookup], by simp [astarInit, alookup],
    by simp [astarInit], by simp [astarInit],
    by simp [astarInit], ?_, ?_, ?_, ?_, by simp [astarInit]⟩
  · intro v g hvg
    rw [astarInit] at hvg
    simp only at hvg
    by_cases hvs : v = s
    · subst hvs
      rw [alookup_cons_self] at hvg
      injection hvg with hg
      refine ⟨[v], ChainL.base (by simp [astarInit, alookup]), ?_,
        by simp [astarInit], by simp⟩
      simp [manhattan_self]
      omega
    · exfalso
      rw [alookup_cons_ne (Ne.symm hvs)] at hvg
      simp [alookup] at hvg
  · intro q hq
    simp [astarInit] at hq
    subst hq
    exact ⟨hs, Nat.zero_le _, Or.inr rfl, 0,
      by simp [astarInit, alookup], le_refl _⟩
  · intro v g hvg hvn
    rw [astarInit] at hvg
    simp only at hvg
    by_cases hvs : v = s
    · subst hvs
      rw [alookup_cons_self] at hvg
      injection hvg with hg
      rw [← hg]
      exact ⟨0, by simp [astarInit]⟩
    · exfalso
      rw [alookup_cons_ne (Ne.symm hvs)] at hvg
      simp [alookup] at hvg
  · simp [astarInit]

/-- C8: on every grid with in-bounds start and end (the `find_path`
implementations take no obstacle input, so every embedded grid is
obstacle-free), BFS, Dijkstra, and A* each terminate with a `Found` path
whose node count is `manhattan s e + 1` — that is, whose edge count equals
the Manhattan distance between start and end. -/
theorem claim8_shortest_paths (w h : Int) (s e : Coord)
    (hs : inBoundsB w h s = true) (he : inBoundsB w h e = true) :
    ((bfsRun (2 * (w.toNat * h.toNat) + 1) w h s e).2 =
        Status.terminated ∧
      ∃ p, (bfsRun (2 * (w.toNat * h.toNat) + 1) w h s e).1.getLast? =
          some (Event.found p) ∧ p.length = manhattan s e + 1) ∧
    ((dijkstraRun (5 * (w.toNat * h.toNat) + 2) w h s e).2 =
        Status.terminated ∧
      ∃ p, (dijkstraRun (5 * (w.toNat * h.toNat) + 2) w h
          s e).1.getLast? = some (Event.found p) ∧
        p.length = manhattan s e + 1) ∧
    ((astarRun (5 * (w.toNat * h.toNat) + 2) w h s e).2 =
        Status.terminated ∧
      ∃ p, (astarRun (5 * (w.toNat * h.toNat) + 2) w h s e).1.getLast? =
          some (Event.found p) ∧ p.length = manhattan s e + 1) := by
  refine ⟨?_, ?_, ?_⟩
  · simp only [bfsRun]
    refine bfs8_run hs he _ (bfsInit s) (bfs8_init hs) ?_
    have h1 : (bfsInit s).queue.length = 1 := rfl
    have h2 : (bfsInit s).visited.length = 1 := rfl
    omega
  · simp only [dijkstraRun]
    refine dij8_run hs he _ (dijkstraInit s) (dij8_init hs) ?_
    have hcard := Finset.card_filter_le (gridBox w h)
      (fun c => c ∉ (dijkstraInit s).visited)
    rw [gridBox_card] at hcard
    have hpl : (dijkstraInit s).pq.length = 1 := rfl
    omega
  · simp only [astarRun]
    refine astar8_run hs he _ (astarInit s) (astar8_init hs) ?_
    have hcard := Finset.card_filter_le (gridBox w h)
      (fun c => c ∉ (astarInit s).visited)
    rw [gridBox_card] at hcard
    have hpl : (astarInit s).pq.length = 1 := rfl
    omega

/-- Witness for C8: the 2×2 grid from (0,0) to (1,1); all three runs end
in `Found` with a 3-node path (Manhattan distance 2). -/
theorem claim8_shortest_paths_witness :
    ((bfsRun (2 * ((2 : Int).toNat * (2 : Int).toNat) + 1) 2 2 (0, 0)
        (1, 1)).2 = Status.terminated ∧
      ∃ p, (bfsRun (2 * ((2 : Int).toNat * (2 : Int).toNat) + 1) 2 2
          (0, 0) (1, 1)).1.getLast? = some (Event.found p) ∧
        p.length = manhattan (0, 0) (1, 1) + 1) ∧
    ((dijkstraRun (5 * ((2 : Int).toNat * (2 : Int).toNat) + 2) 2 2 (0, 0)
        (1, 1)).2 = Status.terminated ∧
      ∃ p, (dijkstraRun (5 * ((2 : Int).toNat * (2 : Int).toNat) + 2) 2 2
          (0, 0) (1, 1)).1.getLast? = some (Event.found p) ∧
        p.length = manhattan (0, 0) (1, 1) + 1) ∧
    ((astarRun (5 * ((2 : Int).toNat * (2 : Int).toNat) + 2) 2 2 (0, 0)
        (1, 1)).2 = Status.terminated ∧
      ∃ p, (astarRun (5 * ((2 : Int).toNat * (2 : Int).toNat) + 2) 2 2
          (0, 0) (1, 1)).1.getLast? = some (Event.found p) ∧
        p.length = manhattan (0, 0) (1, 1) + 1) :=
  claim8_shortest_paths 2 2 (0, 0) (1, 1) (by decide) (by decide)

end RgbMatrix
